import Mathlib

/-!
Bruxism reminder plugin.

A shallow embedding of `reminderplugin.go` (package `bruxism`): the reminder
store (`AddReminder`), the scheduler loop body (`Run`), the time-expression
parser (`parseTime`), the command handler (`messageFunc`) and the persistence
(`Save`, `Load`).

Modelling conventions.

* A Go `string` is a list of Unicode code points (`GoString`); the text the bot
  receives is assumed to be valid UTF-8.
* A `time.Time` is an instant counted in nanoseconds (`Int`) from the zero
  `time.Time`; `After` and `Before` are the strict orders on instants, `Add` is
  addition.
* Go `int` and `time.Duration` are 64-bit signed integers; arithmetic on them
  wraps modulo `2^64` (`wrap64`).
* Each read of `time.Now()` is an explicit argument.
* `p.Reminders` holds pointers to records that are never written after their
  creation, so the slice is modelled as a list of record values.
* `AddReminder` and one pass through the loop body of `Run` are atomic steps on
  the store; the calls on the mutex appear only in `RunTrace`.
* The handler holds no lock before it calls `AddReminder`: in `interleave` its
  clock reads and its `AddReminder` are separate steps, between which other
  goroutines run; `execute` runs whole handler calls one after the other.
-/

namespace Bruxism

/-- A Go string, as the list of its code points. -/
abbrev GoString := List Char

/-- A Reminder holds data about a specific reminder. -/
structure Reminder where
  StartTime : Int
  Time : Int
  Requester : GoString
  Target : GoString
  Message : GoString
  IsPrivate : Bool
  deriving DecidableEq, Repr

/-- The state of a ReminderPlugin that the code of the plugin reads and writes:
the `Reminders` slice. -/
structure ReminderPlugin where
  Reminders : List Reminder
  deriving DecidableEq, Repr

/-- The plugin built by `NewReminderPlugin`: `Reminders: []*Reminder{}`. -/
def NewReminderPlugin : ReminderPlugin := ⟨[]⟩

/-! ## Slices -/

/-- The built-in `copy(s[dstOff:], s[srcOff:])` on two windows of one slice:
`min (len s - dstOff) (len s - srcOff)` elements are moved, as by memmove (the
source elements are read before any is overwritten). -/
def goCopy {α : Type} (s : List α) (dstOff srcOff : Nat) : List α :=
  let n := min (s.length - dstOff) (s.length - srcOff)
  s.take dstOff ++ (s.drop srcOff).take n ++ s.drop (dstOff + n)

/-! ## AddReminder -/

/-- The first loop of `AddReminder`, started with counter `i`: every entry of
the requester increments the counter, and the loop returns the error as soon as
the incremented counter is greater than 5. The result is `true` when the error
is returned. -/
def quotaLoop (requester : GoString) : List Reminder → Nat → Bool
  | [], _ => false
  | r :: rest, i =>
    if r.Requester = requester then
      if i + 1 > 5 then true else quotaLoop requester rest (i + 1)
    else quotaLoop requester rest i

/-- The second loop of `AddReminder`, started with counter `i`: the counter is
advanced past every entry until the first one whose `Time` is after `t`. -/
def insertLoop (t : Int) : List Reminder → Nat → Nat
  | [], i => i
  | r :: rest, i => if r.Time > t then i else insertLoop t rest (i + 1)

/-- The test of the second loop of `AddReminder`, negated: the entry's `Time` is
not after `t`, so the loop walks past it. -/
def notAfter (t : Int) (r : Reminder) : Bool := decide (r.Time ≤ t)

/-- The error text of `AddReminder`. -/
def tooManyReminders : GoString := "You have too many reminders already.".toList

/-- AddReminder adds a reminder. The result is the returned error (`none` for
`nil`) and the plugin after the call. -/
def AddReminder (p : ReminderPlugin) (reminder : Reminder) :
    Option GoString × ReminderPlugin :=
  if quotaLoop reminder.Requester p.Reminders 0 then
    (some tooManyReminders, p)
  else
    let i := insertLoop reminder.Time p.Reminders 0
    let s1 := p.Reminders ++ [reminder]
    let s2 := goCopy s1 (i + 1) i
    let s3 := s2.set i reminder
    (none, ⟨s3⟩)

/-! ## Dispatch -/

/-- A call on the messaging service. -/
inductive Outbound where
  | PrivateMessage (user : GoString) (text : GoString)
  | SendMessage (channel : GoString) (text : GoString)
  deriving DecidableEq, Repr

/-- ReminderMessage returns the message for a reminder. `humanize` stands for
`humanize.Time` of the go-humanize package at the moment of the call. -/
def ReminderMessage (humanize : Int → GoString) (reminder : Reminder) : GoString :=
  if reminder.IsPrivate then
    humanize reminder.StartTime ++ " you set a reminder: ".toList ++ reminder.Message
  else
    humanize reminder.StartTime ++ " ".toList ++ reminder.Requester
      ++ " set a reminder: ".toList ++ reminder.Message

/-- SendReminder sends a reminder: the call it makes on the service. -/
def SendReminder (humanize : Int → GoString) (reminder : Reminder) : Outbound :=
  if reminder.IsPrivate then
    Outbound.PrivateMessage reminder.Target (ReminderMessage humanize reminder)
  else
    Outbound.SendMessage reminder.Target (ReminderMessage humanize reminder)

/-- What one pass through the body of the `for` loop of `Run` does: the reminder
handed to `SendReminder` if it is called, the calls made on the service, the
plugin afterwards, and whether the pass ended in `time.Sleep(time.Second)`
(otherwise in `continue`). -/
structure RunPass where
  fired : Option Reminder
  sent : List Outbound
  plugin : ReminderPlugin
  slept : Bool
  deriving DecidableEq, Repr

/-- One pass through the body of the `for` loop of `Run`, with `now` the value
of `time.Now()` in the test `time.Now().After(reminder.Time)`. -/
def RunIter (humanize : Int → GoString) (now : Int) (p : ReminderPlugin) : RunPass :=
  match p.Reminders with
  | reminder :: rest =>
    if now > reminder.Time then
      ⟨some reminder, [SendReminder humanize reminder], ⟨rest⟩, false⟩
    else ⟨none, [], p, true⟩
  | [] => ⟨none, [], p, true⟩

/-! ## Strings and numbers of the Go library -/

/-- The rune map of `strings.ToLower`: an ASCII rune is mapped by the ASCII
rule (`A`-`Z`, code points 65 to 90, go to `a`-`z`; every other ASCII rune to
itself); a rune outside ASCII is mapped by the case table of package `unicode`,
passed as `uni`. -/
def toLowerRune (uni : Char → Char) (c : Char) : Char :=
  if c.toNat < 128 then
    if 65 ≤ c.toNat ∧ c.toNat ≤ 90 then Char.ofNat (c.toNat + 32) else c
  else uni c

/-- The function `strings.ToLower`. -/
def ToLower (uni : Char → Char) (s : GoString) : GoString :=
  s.map (toLowerRune uni)

/-- The call `strings.Trim(s, " ")`: all leading and trailing spaces removed. -/
def Trim (s : GoString) : GoString :=
  ((s.dropWhile (fun c => c = ' ')).reverse.dropWhile (fun c => c = ' ')).reverse

/-- The call `strings.Split(s, sep)` for a separator of one character: the
pieces of `s` between the occurrences of `sep`; one piece more than there are
occurrences. -/
def Split (s : GoString) (sep : Char) : List GoString :=
  match s with
  | [] => [[]]
  | c :: cs =>
    if c = sep then [] :: Split cs sep
    else
      match Split cs sep with
      | [] => [[c]]
      | w :: ws => (c :: w) :: ws

/-- The function `strings.HasPrefix`. -/
def HasPrefix (s pre : GoString) : Bool :=
  match pre, s with
  | [], _ => true
  | _ :: _, [] => false
  | a :: pre, b :: s => a = b && HasPrefix s pre

/-- The digit loop of `strconv.Atoi`: the value of a run of decimal digits
(code points 48 to 57) read from the left, `acc` being the value read so far;
`none` when a character is not a decimal digit. -/
def readDigits : GoString → Nat → Option Nat
  | [], acc => some acc
  | c :: cs, acc =>
    if 48 ≤ c.toNat ∧ c.toNat ≤ 57 then readDigits cs (acc * 10 + (c.toNat - 48)) else none

/-- The function `strconv.Atoi` on a 64-bit platform: an optional sign `+` or
`-` followed by one or more decimal digits, whose value lies between `-2^63`
and `2^63 - 1`; `none` when it returns an error (wrong syntax or out of
range). -/
def Atoi (s : GoString) : Option Int :=
  match s with
  | [] => none
  | c :: t =>
    let digits : GoString := if c = '-' ∨ c = '+' then t else c :: t
    if digits = [] then none
    else
      match readDigits digits 0 with
      | none => none
      | some n =>
        let v : Int := if c = '-' then -(n : Int) else (n : Int)
        if -2 ^ 63 ≤ v ∧ v < 2 ^ 63 then some v else none

/-- Arithmetic on `int64` wraps: the representative of `x` modulo `2^64` that
lies between `-2^63` and `2^63 - 1`. -/
def wrap64 (x : Int) : Int := (x + 2 ^ 63) % 2 ^ 64 - 2 ^ 63

/-- The constant `time.Second`, in nanoseconds. -/
def Second : Int := 1000000000

/-- The constant `time.Minute`. -/
def Minute : Int := 60 * Second

/-- The constant `time.Hour`. -/
def Hour : Int := 60 * Minute

/-! ## parseTime -/

/-- The errors `parseTime` returns. -/
inductive ParseError where
  | invalidNext
  | atoi
  | invalidString
  deriving DecidableEq, Repr

/-- The function `parseTime`, with `now` the value of `time.Now()` on the path
taken (each path reads the clock once). The line printed by `fmt.Println(split)`
is not part of the result. -/
def parseTime (uni : Char → Char) (now : Int) (str : GoString) : Except ParseError Int :=
  let str := ToLower uni (Trim str)
  if str = "tomorrow".toList then
    Except.ok (now + 1 * Hour * 24)
  else
    match Split str ' ' with
    | [s0, s1] =>
      if s0 = "next".toList then
        if s1 = "week".toList then Except.ok (now + 1 * Hour * 24 * 7)
        else if s1 = "month".toList then Except.ok (now + 1 * Hour * 24 * 7 * 4)
        else if s1 = "year".toList then Except.ok (now + 1 * Hour * 24 * 365)
        else Except.error ParseError.invalidNext
      else
        match Atoi s0 with
        | none => Except.error ParseError.atoi
        | some i =>
          if HasPrefix s1 "second".toList then Except.ok (now + wrap64 (i * Second))
          else if HasPrefix s1 "minute".toList then Except.ok (now + wrap64 (i * Minute))
          else if HasPrefix s1 "hour".toList then Except.ok (now + wrap64 (i * Hour))
          else Except.error ParseError.invalidString
    | _ => Except.error ParseError.invalidString

/-! ## messageFunc -/

/-- What the handler reads of the `Service` it is called with: `service.Name()`
and `service.IsMe(message)`. -/
structure Service where
  Name : GoString
  IsMe : Bool
  deriving DecidableEq, Repr

/-- What the handler reads of the `Message` it is called with. -/
structure Message where
  Channel : GoString
  UserName : GoString
  UserID : GoString
  RawMessage : GoString
  deriving DecidableEq, Repr

/-- The declarations the handler uses that are outside `reminderplugin.go`:
the constant `DiscordServiceName`, the helpers `matchesCommand` and
`parseCommand` of the bot, `humanize.Time`, and the case table of package
`unicode`. -/
structure Host where
  DiscordServiceName : GoString
  matchesCommand : Service → GoString → Message → Bool
  parseCommand : Service → Message → GoString × List GoString
  humanize : Int → GoString
  uni : Char → Char

/-- The variable `randomTimes`. -/
def randomTimes : List GoString :=
  ["1 minute".toList, "10 minutes".toList, "1 hour".toList, "4 hours".toList,
   "tomorrow".toList, "next week".toList]

/-- The variable `randomMessages`. -/
def randomMessages : List GoString :=
  ["walk the dog".toList, "take pizza out of the oven".toList,
   "check my email".toList, "feed the baby".toList]

/-- The method `random`: `list[rand.Intn(len(list))]`, with `k` the number the
generator draws (reduced to an index of the list). -/
def random (k : Nat) (list : List GoString) : GoString :=
  list.getD (k % list.length) []

/-- The method `randomReminder`, with `k1` and `k2` the two numbers drawn. -/
def randomReminder (h : Host) (k1 k2 : Nat) (service : Service) (command : GoString) :
    GoString :=
  let ticks : GoString := if service.Name = h.DiscordServiceName then "`".toList else []
  ticks ++ command ++ " ".toList ++ random k1 randomTimes ++ " | ".toList
    ++ random k2 randomMessages ++ ticks

/-- The function `strings.Join`. -/
def Join (elems : List GoString) (sep : GoString) : GoString :=
  match elems with
  | [] => []
  | [e] => e
  | e :: rest => e ++ sep ++ Join rest sep

/-- How far the handler gets before it calls `AddReminder`. -/
inductive Validation where
  | ignored
  | rejected (reply : Outbound)
  | built (reminder : Reminder)
  deriving DecidableEq, Repr

/-- The part of `messageFunc` before the call of `AddReminder`: the message is
not for the plugin (`ignored`), or the handler sends a reply and returns
(`rejected`), or it builds the Reminder it hands to `AddReminder` (`built`).
`now0` is the clock read inside `parseTime`, `now` the read `now := time.Now()`
that follows it; `k1` and `k2` are the numbers drawn by `randomReminder`. -/
def validate (h : Host) (k1 k2 : Nat) (now0 now : Int) (service : Service)
    (message : Message) : Validation :=
  if service.IsMe then Validation.ignored
  else
    let isPrivate := h.matchesCommand service "remindme".toList message
    if isPrivate || h.matchesCommand service "remindchannel".toList message then
      let qp := h.parseCommand service message
      let command : GoString := if isPrivate then "remindme".toList else "remindchannel".toList
      let target : GoString := if isPrivate then message.UserID else message.Channel
      if qp.2.length = 0 then
        Validation.rejected (Outbound.SendMessage message.Channel
          ("Invalid reminder, no time or message. eg: ".toList
            ++ randomReminder h k1 k2 service command))
      else
        match Split qp.1 '|' with
        | [s0, _] =>
          match parseTime h.uni now0 s0 with
          | Except.error _ =>
            Validation.rejected (Outbound.SendMessage message.Channel
              ("Invalid time. eg: ".toList ++ Join randomTimes ", ".toList))
          | Except.ok t =>
            if t < now then
              Validation.rejected (Outbound.SendMessage message.Channel
                ("Invalid time. eg: ".toList ++ Join randomTimes ", ".toList))
            else
              let requester : GoString :=
                if service.Name = h.DiscordServiceName then
                  "<@".toList ++ message.UserID ++ ">".toList
                else message.UserName
              let raw := Split message.RawMessage '|'
              Validation.built
                { StartTime := now
                  Time := t
                  Requester := requester
                  IsPrivate := isPrivate
                  Target := target
                  Message := Trim (raw.getLastD []) }
        | _ =>
          Validation.rejected (Outbound.SendMessage message.Channel
            ("Invalid reminder. eg: ".toList ++ randomReminder h k1 k2 service command))
    else Validation.ignored

/-- The function `messageFunc`: the calls made on the service and the plugin
afterwards. -/
def messageFunc (h : Host) (k1 k2 : Nat) (now0 now : Int) (service : Service)
    (message : Message) (p : ReminderPlugin) : List Outbound × ReminderPlugin :=
  match validate h k1 k2 now0 now service message with
  | Validation.ignored => ([], p)
  | Validation.rejected reply => ([reply], p)
  | Validation.built reminder =>
    match AddReminder p reminder with
    | (some err, p1) => ([Outbound.SendMessage message.Channel err], p1)
    | (none, p1) =>
      ([Outbound.SendMessage message.Channel
          ("Reminder set for ".toList ++ h.humanize reminder.Time ++ ".".toList)], p1)

/-! ## Executions of the plugin -/

/-- A step of an execution in which every call of the handler runs from its
first statement to its last with no step of another goroutine in between: the
handler is called on a message, or the scheduler makes one pass through its
loop body. Each carries the values the clock shows at its reads. Executions in
which a pass comes between the clock reads of a handler and its `AddReminder`
are those of `Move`. -/
inductive Event where
  | command (k1 k2 : Nat) (now0 now : Int) (service : Service) (message : Message)
  | tick (now : Int)

/-- The plugin together with the record of an execution: the calls made on the
service, the reminders handed to `SendReminder` and the reminders for which
`AddReminder` returned `nil`, each in the order of occurrence. -/
structure World where
  plugin : ReminderPlugin
  sent : List Outbound
  dispatched : List Reminder
  accepted : List Reminder
  deriving DecidableEq, Repr

/-- One step of an execution. -/
def step (h : Host) (w : World) : Event → World
  | Event.command k1 k2 now0 now service message =>
    let out := messageFunc h k1 k2 now0 now service message w.plugin
    let added : List Reminder :=
      match validate h k1 k2 now0 now service message with
      | Validation.built reminder =>
        if (AddReminder w.plugin reminder).1 = none then [reminder] else []
      | _ => []
    { plugin := out.2, sent := w.sent ++ out.1, dispatched := w.dispatched,
      accepted := w.accepted ++ added }
  | Event.tick now =>
    let pass := RunIter h.humanize now w.plugin
    { plugin := pass.plugin, sent := w.sent ++ pass.sent,
      dispatched := w.dispatched ++ pass.fired.toList, accepted := w.accepted }

/-- The execution of a sequence of events from the plugin built by
`NewReminderPlugin`. -/
def execute (h : Host) (events : List Event) : World :=
  events.foldl (step h) ⟨NewReminderPlugin, [], [], []⟩

/-- The clock never goes back in an execution of whole handler calls: the
reads of the events, in the order they are made, are non-decreasing from
`clock` on. -/
def clockMonotone (clock : Int) : List Event → Prop
  | [] => True
  | Event.command _ _ now0 now _ _ :: rest =>
    clock ≤ now0 ∧ now0 ≤ now ∧ clockMonotone now rest
  | Event.tick now :: rest => clock ≤ now ∧ clockMonotone now rest

/-! ## Sequences of store operations -/

/-- A step on the store: a call of `AddReminder` or one scheduler pass. -/
inductive StoreOp where
  | add (reminder : Reminder)
  | pop (now : Int)
  deriving DecidableEq, Repr

/-- The plugin after one store operation. -/
def applyOp (humanize : Int → GoString) (p : ReminderPlugin) : StoreOp → ReminderPlugin
  | StoreOp.add reminder => (AddReminder p reminder).2
  | StoreOp.pop now => (RunIter humanize now p).plugin

/-- The plugin after a sequence of store operations, first to last. -/
def applyOps (humanize : Int → GoString) (p : ReminderPlugin) (ops : List StoreOp) :
    ReminderPlugin :=
  ops.foldl (applyOp humanize) p

/-- The store is sorted ascending by `Time`. -/
def SortedByTime (rs : List Reminder) : Prop :=
  rs.Pairwise (fun a b => a.Time ≤ b.Time)

/-- The number of reminders of a requester in the store. -/
def pendingOf (requester : GoString) (rs : List Reminder) : Nat :=
  rs.countP (fun r => decide (r.Requester = requester))

/-- The facts about an execution that the dispatch order rests on. -/
structure ExecInv (clock : Int) (w : World) : Prop where
  sorted : SortedByTime w.plugin.Reminders
  ordered : w.dispatched.Pairwise (fun a b => a.Time ≤ b.Time)
  beforeStore : ∀ d ∈ w.dispatched, ∀ s ∈ w.plugin.Reminders, d.Time ≤ s.Time
  past : ∀ d ∈ w.dispatched, d.Time < clock
  perm : (w.dispatched ++ w.plugin.Reminders).Perm w.accepted

/-! ## The time expressions of the specification -/

/-- The digits of a decimal numeral: the text without its sign. -/
def digitsOf (s : GoString) : GoString :=
  match s with
  | [] => []
  | c :: t => if c = '+' ∨ c = '-' then t else c :: t

/-- The text is an integer written in decimal: an optional sign `+` or `-`
followed by one or more decimal digits. -/
def isIntegerText (s : GoString) : Bool :=
  !(digitsOf s).isEmpty && (digitsOf s).all Char.isDigit

/-- The integer a decimal numeral denotes. -/
def integerValue (s : GoString) : Int :=
  let n : Nat := Nat.ofDigits 10 ((digitsOf s).reverse.map (fun c => c.toNat - '0'.toNat))
  if s.head? = some '-' then -(n : Int) else (n : Int)

/-- The unit words of the specification and their lengths. -/
def unitWords : List (GoString × Int) :=
  [("second".toList, Second), ("minute".toList, Minute), ("hour".toList, Hour)]

/-- The number is in the range of a 64-bit signed integer. -/
def inInt64 (v : Int) : Prop := -2 ^ 63 ≤ v ∧ v < 2 ^ 63

/-- The recognised forms of a time expression, as the specification lists them
for a text that is already lower-cased and trimmed: `tomorrow`; `next week`,
`next month` or `next year`; or an integer followed by one space and a word
that starts with `second`, `minute` or `hour`. -/
def Recognised (s : GoString) : Prop :=
  s = "tomorrow".toList ∨ s = "next week".toList ∨ s = "next month".toList ∨
  s = "next year".toList ∨
  ∃ num word : GoString, s = num ++ ' ' :: word ∧ isIntegerText num = true ∧ ' ' ∉ word ∧
    ("second".toList <+: word ∨ "minute".toList <+: word ∨ "hour".toList <+: word)

/-- The recognised forms with the integer limited to the range of a 64-bit
signed integer. -/
def RecognisedInt64 (s : GoString) : Prop :=
  s = "tomorrow".toList ∨ s = "next week".toList ∨ s = "next month".toList ∨
  s = "next year".toList ∨
  ∃ num word : GoString, s = num ++ ' ' :: word ∧ isIntegerText num = true ∧
    inInt64 (integerValue num) ∧ ' ' ∉ word ∧
    ("second".toList <+: word ∨ "minute".toList <+: word ∨ "hour".toList <+: word)

/-! ## Persistence: the text of encoding/json

`Save` and `Load` hand the plugin to `json.Marshal` and `json.Unmarshal`. What
follows is the behaviour of package `encoding/json` on a value of the type
`ReminderPlugin`, as the package documents it. The text (`[]byte`) is a list of
code points, so a text that is not valid UTF-8 is outside the model; in a
string the package would replace such bytes by U+FFFD. The limit the later
versions of the package put on the depth of nesting is not modelled. The JSON
methods of `time.Time` are a parameter (`TimeJSON`) of the encoder and the
decoder; `goTimeJSON` below gives them as package `time` has them. An instant
is counted from the zero `time.Time`, so that the zero `Reminder` has both
times 0. -/

/-- A JSON value as the scanner of the decoder delimits it. A string and the
key of a member carry the text between the quotes, escapes not yet resolved; a
number carries its text. -/
inductive Json where
  | null
  | bool (b : Bool)
  | number (raw : GoString)
  | string (raw : GoString)
  | array (elems : List Json)
  | object (members : List (GoString × Json))
  deriving Repr

/-- The white space of JSON: space, tab, carriage return, line feed. -/
def isSpace (c : Char) : Bool := c = ' ' || c = '\t' || c = '\r' || c = '\n'

/-- The text without its leading white space. -/
def skipSpace (cs : List Char) : List Char := cs.dropWhile isSpace

/-- A hexadecimal digit, of either case. -/
def isHex (c : Char) : Bool :=
  (48 ≤ c.toNat && c.toNat ≤ 57) || (97 ≤ c.toNat && c.toNat ≤ 102)
    || (65 ≤ c.toNat && c.toNat ≤ 70)

/-- The states of the scanner inside a string: between characters, behind a
backslash, and behind `\\u` with `more + 1` hexadecimal digits still to come. -/
inductive StringState where
  | plain
  | escape
  | hex (more : Nat)
  deriving DecidableEq, Repr

/-- The scanned character put in front of the scan of the rest. -/
def pushChar (c : Char) (r : Option (GoString × List Char)) : Option (GoString × List Char) :=
  match r with
  | some (raw, after) => some (c :: raw, after)
  | none => none

/-- The scan of a string, character by character, from a state of the scanner:
the text up to the closing quote and the text behind it. A control character, an
unknown escape or a missing closing quote makes the text invalid. -/
def scanStringFrom : StringState → List Char → Option (GoString × List Char)
  | _, [] => none
  | StringState.plain, c :: rest =>
    if c = '"' then some ([], rest)
    else if c = '\\' then pushChar c (scanStringFrom StringState.escape rest)
    else if c.toNat < 32 then none
    else pushChar c (scanStringFrom StringState.plain rest)
  | StringState.escape, c :: rest =>
    if c = '"' ∨ c = '\\' ∨ c = '/' ∨ c = 'b' ∨ c = 'f' ∨ c = 'n' ∨ c = 'r' ∨ c = 't' then
      pushChar c (scanStringFrom StringState.plain rest)
    else if c = 'u' then pushChar c (scanStringFrom (StringState.hex 3) rest)
    else none
  | StringState.hex more, c :: rest =>
    if isHex c then
      pushChar c (scanStringFrom
        (if more = 0 then StringState.plain else StringState.hex (more - 1)) rest)
    else none

/-- The scan of a string after its opening quote. -/
def scanString (cs : List Char) : Option (GoString × List Char) :=
  scanStringFrom StringState.plain cs

/-- A decimal digit. -/
def isDigit09 (c : Char) : Bool := 48 ≤ c.toNat && c.toNat ≤ 57

/-- The scan of one or more digits. -/
def scanDigits (cs : List Char) : Option (GoString × List Char) :=
  if cs.takeWhile isDigit09 = [] then none
  else some (cs.takeWhile isDigit09, cs.dropWhile isDigit09)

/-- The scan of the exponent of a number, if there is one. -/
def scanExponent (cs : List Char) : Option (GoString × List Char) :=
  match cs with
  | [] => some ([], [])
  | e :: rest =>
    if e = 'e' ∨ e = 'E' then
      match rest with
      | [] => none
      | s :: rest1 =>
        if s = '+' ∨ s = '-' then
          match scanDigits rest1 with
          | some (ds, after) => some (e :: s :: ds, after)
          | none => none
        else
          match scanDigits rest with
          | some (ds, after) => some (e :: ds, after)
          | none => none
    else some ([], cs)

/-- The scan of the fraction and the exponent of a number, if there are any. -/
def scanFraction (cs : List Char) : Option (GoString × List Char) :=
  match cs with
  | [] => some ([], [])
  | d :: rest =>
    if d = '.' then
      match scanDigits rest with
      | some (ds, after) =>
        match scanExponent after with
        | some (ex, after1) => some (d :: ds ++ ex, after1)
        | none => none
      | none => none
    else scanExponent cs

/-- The scan of a number after its sign: `0` or a digit from 1 to 9 followed by
digits, then fraction and exponent. -/
def scanUnsigned (cs : List Char) : Option (GoString × List Char) :=
  match cs with
  | [] => none
  | d :: rest =>
    if d = '0' then
      match scanFraction rest with
      | some (fr, after) => some (d :: fr, after)
      | none => none
    else if isDigit09 d then
      match scanFraction (rest.dropWhile isDigit09) with
      | some (fr, after) => some (d :: rest.takeWhile isDigit09 ++ fr, after)
      | none => none
    else none

/-- The scan of a number. -/
def scanNumber (cs : List Char) : Option (GoString × List Char) :=
  match cs with
  | [] => none
  | c :: rest =>
    if c = '-' then
      match scanUnsigned rest with
      | some (raw, after) => some (c :: raw, after)
      | none => none
    else scanUnsigned cs

/-- The scan of a literal name: the text behind it when the text starts with
the name. -/
def scanName (name cs : List Char) : Option (List Char) :=
  if HasPrefix cs name then some (cs.drop name.length) else none

mutual
/-- The scan of one JSON value at the start of the text: the value and the text
behind it. `fuel` bounds the number of nested calls; the length of the text
plus one is always enough. -/
def parseValue : Nat → List Char → Option (Json × List Char)
  | 0, _ => none
  | fuel + 1, cs =>
    match cs with
    | [] => none
    | c :: rest =>
      if c = '\x7b' then
        match skipSpace rest with
        | [] => none
        | d :: after =>
          if d = '\x7d' then some (Json.object [], after)
          else
            match parseMembers fuel (d :: after) with
            | some (ms, after1) => some (Json.object ms, after1)
            | none => none
      else if c = '[' then
        match skipSpace rest with
        | [] => none
        | d :: after =>
          if d = ']' then some (Json.array [], after)
          else
            match parseElems fuel (d :: after) with
            | some (es, after1) => some (Json.array es, after1)
            | none => none
      else if c = '"' then
        match scanString rest with
        | some (raw, after) => some (Json.string raw, after)
        | none => none
      else if c = 't' then
        match scanName "true".toList cs with
        | some after => some (Json.bool true, after)
        | none => none
      else if c = 'f' then
        match scanName "false".toList cs with
        | some after => some (Json.bool false, after)
        | none => none
      else if c = 'n' then
        match scanName "null".toList cs with
        | some after => some (Json.null, after)
        | none => none
      else
        match scanNumber cs with
        | some (raw, after) => some (Json.number raw, after)
        | none => none
/-- The scan of the elements of an array up to its closing bracket. -/
def parseElems : Nat → List Char → Option (List Json × List Char)
  | 0, _ => none
  | fuel + 1, cs =>
    match parseValue fuel cs with
    | none => none
    | some (v, after) =>
      match skipSpace after with
      | [] => none
      | d :: more =>
        if d = ',' then
          match parseElems fuel (skipSpace more) with
          | some (vs, rest) => some (v :: vs, rest)
          | none => none
        else if d = ']' then some ([v], more)
        else none
/-- The scan of the members of an object up to its closing brace. -/
def parseMembers : Nat → List Char → Option (List (GoString × Json) × List Char)
  | 0, _ => none
  | fuel + 1, cs =>
    match cs with
    | [] => none
    | q :: afterQuote =>
      if q = '"' then
        match scanString afterQuote with
        | none => none
        | some (key, afterKey) =>
          match skipSpace afterKey with
          | [] => none
          | colon :: afterColon =>
            if colon = ':' then
              match parseValue fuel (skipSpace afterColon) with
              | none => none
              | some (v, after) =>
                match skipSpace after with
                | [] => none
                | d :: more =>
                  if d = ',' then
                    match parseMembers fuel (skipSpace more) with
                    | some (ms, rest) => some ((key, v) :: ms, rest)
                    | none => none
                  else if d = '\x7d' then some ([(key, v)], more)
                  else none
            else none
      else none
end

/-- The check of `json.Unmarshal` that the text is one JSON value, with white
space around it at most, and the value it is: `none` for a text that is not
valid JSON. -/
def parseJson (text : GoString) : Option Json :=
  match parseValue (text.length + 1) (skipSpace text) with
  | some (v, rest) => if skipSpace rest = [] then some v else none
  | none => none

/-- The value of a hexadecimal digit. -/
def hexVal (c : Char) : Nat :=
  if 48 ≤ c.toNat ∧ c.toNat ≤ 57 then c.toNat - 48
  else if 97 ≤ c.toNat ∧ c.toNat ≤ 102 then c.toNat - 87
  else c.toNat - 55

/-- The character an escape of one letter stands for. -/
def unescape (e : Char) : Char :=
  if e = 'b' then Char.ofNat 8
  else if e = 'f' then Char.ofNat 12
  else if e = 'n' then '\n'
  else if e = 'r' then '\r'
  else if e = 't' then '\t'
  else e

/-- The states of the reading of a scanned string text: between characters,
behind a backslash, and behind `\\u` with `more + 1` hexadecimal digits still to
come, `acc` being the value of the digits read. -/
inductive UnquoteState where
  | plain
  | escape
  | hex (more : Nat) (acc : Nat)
  deriving DecidableEq, Repr

/-- The units of a scanned string text: its characters with the escapes
resolved, and, apart, the UTF-16 surrogates written as `\\u` escapes. -/
def stringUnitsFrom : UnquoteState → GoString → List (Char ⊕ Nat)
  | _, [] => []
  | UnquoteState.plain, c :: rest =>
    if c = '\\' then stringUnitsFrom UnquoteState.escape rest
    else Sum.inl c :: stringUnitsFrom UnquoteState.plain rest
  | UnquoteState.escape, c :: rest =>
    if c = 'u' then stringUnitsFrom (UnquoteState.hex 3 0) rest
    else Sum.inl (unescape c) :: stringUnitsFrom UnquoteState.plain rest
  | UnquoteState.hex more acc, c :: rest =>
    if more = 0 then
      (if 0xD800 ≤ acc * 16 + hexVal c ∧ acc * 16 + hexVal c < 0xE000 then
          Sum.inr (acc * 16 + hexVal c)
        else Sum.inl (Char.ofNat (acc * 16 + hexVal c)))
        :: stringUnitsFrom UnquoteState.plain rest
    else stringUnitsFrom (UnquoteState.hex (more - 1) (acc * 16 + hexVal c)) rest

/-- The characters of a run of units: a high surrogate followed by a low one is
the character of the pair, any other surrogate is U+FFFD. -/
def joinUnits : List (Char ⊕ Nat) → GoString
  | [] => []
  | Sum.inl c :: rest => c :: joinUnits rest
  | Sum.inr hi :: Sum.inr lo :: rest =>
    if hi < 0xDC00 ∧ 0xDC00 ≤ lo then
      Char.ofNat ((hi - 0xD800) * 1024 + (lo - 0xDC00) + 0x10000) :: joinUnits rest
    else Char.ofNat 0xFFFD :: joinUnits (Sum.inr lo :: rest)
  | Sum.inr _ :: rest => Char.ofNat 0xFFFD :: joinUnits rest

/-- The string a scanned string text stands for. -/
def unquote (raw : GoString) : GoString :=
  joinUnits (stringUnitsFrom UnquoteState.plain raw)
/-! ## Persistence: decoding into the plugin -/

/-- The errors of `json.Marshal` and `json.Unmarshal`: the text is not valid
JSON (`SyntaxError`), a value does not fit the Go type it is meant for
(`UnmarshalTypeError`), `UnmarshalJSON` of `time.Time` returns an error, and
`MarshalJSON` of `time.Time` returns an error or a text that is not JSON. -/
inductive JsonError where
  | invalidText
  | typeMismatch
  | timeText
  | marshaler
  deriving DecidableEq, Repr

/-- The JSON methods of `time.Time`. `format` is the text `MarshalJSON` puts
between the quotes (RFC 3339 with nanoseconds), `none` when it returns an error
(a year outside 0 to 9999); `parse` is the reading of the text between the
quotes in `UnmarshalJSON`, `none` when it returns an error. -/
structure TimeJSON where
  format : Int → Option GoString
  parse : GoString → Option Int

/-- The zero value of `Reminder`. -/
def zeroReminder : Reminder :=
  { StartTime := 0, Time := 0, Requester := [], Target := [], Message := [], IsPrivate := false }

/-- The decoder keeps the first error of a value that does not fit and goes
on. -/
def saveError (saved : Option JsonError) (e : JsonError) : Option JsonError :=
  match saved with
  | none => some e
  | some s => some s

/-- The smallest character of the case-folding class, for the classes that
hold an ASCII letter: a lower-case letter goes to its upper case, U+017F to `S`,
U+212A to `K`. -/
def foldRune (c : Char) : Char :=
  if 97 ≤ c.toNat ∧ c.toNat ≤ 122 then Char.ofNat (c.toNat - 32)
  else if c.toNat = 0x17F then 'S'
  else if c.toNat = 0x212A then 'K'
  else c

/-- The key of a member selects the field of the name: it is the name, or it
is equal to it under case folding. -/
def keyIs (name : GoString) (key : GoString) : Bool :=
  key = name || key.map foldRune = name.map foldRune

/-- A JSON value stored in a field of type `string`: a string sets it, `null`
leaves it, any other value leaves it and is an error that is saved. -/
def decodeString (old : GoString) (saved : Option JsonError) (v : Json) :
    GoString × Option JsonError :=
  match v with
  | Json.string raw => (unquote raw, saved)
  | Json.null => (old, saved)
  | _ => (old, saveError saved JsonError.typeMismatch)

/-- A JSON value stored in a field of type `bool`. -/
def decodeBool (old : Bool) (saved : Option JsonError) (v : Json) :
    Bool × Option JsonError :=
  match v with
  | Json.bool b => (b, saved)
  | Json.null => (old, saved)
  | _ => (old, saveError saved JsonError.typeMismatch)

/-- A JSON value handed to `UnmarshalJSON` of `time.Time`: `null` leaves the
field; a string is parsed, and a text that does not parse sets the field to the
zero time and returns an error; any other value returns an error. The error of
`UnmarshalJSON` ends the decoding. -/
def decodeTime (tj : TimeJSON) (old : Int) (v : Json) : Int × Option JsonError :=
  match v with
  | Json.null => (old, none)
  | Json.string raw =>
    match tj.parse raw with
    | some t => (t, none)
    | none => (0, some JsonError.timeText)
  | _ => (old, some JsonError.timeText)

/-- The result of decoding into a value: the value, the saved error, and the
error that ended the decoding, if one did. -/
structure Decoded (α : Type) where
  value : α
  saved : Option JsonError
  ended : Option JsonError

/-- One member of an object decoded into a `Reminder`; a key that selects no
field is skipped. -/
def decodeField (tj : TimeJSON) (r : Reminder) (saved : Option JsonError) (key : GoString)
    (v : Json) : Decoded Reminder :=
  if keyIs "StartTime".toList (unquote key) then
    ⟨{ r with StartTime := (decodeTime tj r.StartTime v).1 }, saved,
      (decodeTime tj r.StartTime v).2⟩
  else if keyIs "Time".toList (unquote key) then
    ⟨{ r with Time := (decodeTime tj r.Time v).1 }, saved, (decodeTime tj r.Time v).2⟩
  else if keyIs "Requester".toList (unquote key) then
    ⟨{ r with Requester := (decodeString r.Requester saved v).1 },
      (decodeString r.Requester saved v).2, none⟩
  else if keyIs "Target".toList (unquote key) then
    ⟨{ r with Target := (decodeString r.Target saved v).1 },
      (decodeString r.Target saved v).2, none⟩
  else if keyIs "Message".toList (unquote key) then
    ⟨{ r with Message := (decodeString r.Message saved v).1 },
      (decodeString r.Message saved v).2, none⟩
  else if keyIs "IsPrivate".toList (unquote key) then
    ⟨{ r with IsPrivate := (decodeBool r.IsPrivate saved v).1 },
      (decodeBool r.IsPrivate saved v).2, none⟩
  else ⟨r, saved, none⟩

/-- The members of an object decoded into a `Reminder`, in the order of the
text. -/
def decodeFields (tj : TimeJSON) (r : Reminder) (saved : Option JsonError) :
    List (GoString × Json) → Decoded Reminder
  | [] => ⟨r, saved, none⟩
  | (key, v) :: rest =>
    match (decodeField tj r saved key v).ended with
    | some e => ⟨(decodeField tj r saved key v).value, (decodeField tj r saved key v).saved, some e⟩
    | none =>
      decodeFields tj (decodeField tj r saved key v).value (decodeField tj r saved key v).saved rest

/-- A JSON value decoded into an element of type `*Reminder`, `none` being the
nil pointer: `null` sets the pointer to nil; for any other value a nil pointer
is set to a new zero `Reminder` first; an object is decoded into the `Reminder`,
any other value is an error that is saved. -/
def decodeElem (tj : TimeJSON) (old : Option Reminder) (saved : Option JsonError) (v : Json) :
    Decoded (Option Reminder) :=
  match v with
  | Json.null => ⟨none, saved, none⟩
  | Json.object members =>
    ⟨some (decodeFields tj (old.getD zeroReminder) saved members).value,
      (decodeFields tj (old.getD zeroReminder) saved members).saved,
      (decodeFields tj (old.getD zeroReminder) saved members).ended⟩
  | _ => ⟨some (old.getD zeroReminder), saveError saved JsonError.typeMismatch, none⟩

/-- The elements of an array decoded into the slice: the element of index `i`
is decoded into the element of index `i` of the slice as it was (`old` holds the
elements from that index on; the decoder does not clear them), or into a new
nil element behind its end; `done` are the elements decoded so far. At the end
the slice is cut to the length of the array; when the decoding is ended by an
error the rest of the slice stays. -/
def decodeElems (tj : TimeJSON) (old done : List (Option Reminder))
    (saved : Option JsonError) : List Json → Decoded (List (Option Reminder))
  | [] => ⟨done, saved, none⟩
  | v :: vs =>
    match (decodeElem tj old.head?.join saved v).ended with
    | some e =>
      ⟨done ++ (decodeElem tj old.head?.join saved v).value :: old.tail,
        (decodeElem tj old.head?.join saved v).saved, some e⟩
    | none =>
      decodeElems tj old.tail (done ++ [(decodeElem tj old.head?.join saved v).value])
        (decodeElem tj old.head?.join saved v).saved vs

/-- A JSON value decoded into the field `Reminders`: an array is decoded
element by element, `null` sets the slice to nil, any other value is an error
that is saved. -/
def decodeReminders (tj : TimeJSON) (old : List (Option Reminder))
    (saved : Option JsonError) (v : Json) : Decoded (List (Option Reminder)) :=
  match v with
  | Json.array elems => decodeElems tj old [] saved elems
  | Json.null => ⟨[], saved, none⟩
  | _ => ⟨old, saveError saved JsonError.typeMismatch, none⟩

/-- Modelled from the spec: the type `SimplePlugin`, embedded in
`ReminderPlugin`, is not among the sources. The snapshot of the specification is
the ordered Reminder sequence alone, so `SimplePlugin` is taken to have no
exported field, like the embedded mutex; `bot` is not exported. The one field of
the plugin that JSON sees is `Reminders`. -/
def pluginField : GoString := "Reminders".toList

/-- The members of an object decoded into the plugin. -/
def decodePluginFields (tj : TimeJSON) (old : List (Option Reminder))
    (saved : Option JsonError) : List (GoString × Json) → Decoded (List (Option Reminder))
  | [] => ⟨old, saved, none⟩
  | (key, v) :: rest =>
    if keyIs pluginField (unquote key) then
      match (decodeReminders tj old saved v).ended with
      | some e =>
        ⟨(decodeReminders tj old saved v).value, (decodeReminders tj old saved v).saved, some e⟩
      | none =>
        decodePluginFields tj (decodeReminders tj old saved v).value
          (decodeReminders tj old saved v).saved rest
    else decodePluginFields tj old saved rest

/-- A JSON value decoded into the plugin: an object is decoded member by
member, `null` changes nothing, any other value is an error that is saved. -/
def decodePlugin (tj : TimeJSON) (old : List (Option Reminder)) (v : Json) :
    Decoded (List (Option Reminder)) :=
  match v with
  | Json.object members => decodePluginFields tj old none members
  | Json.null => ⟨old, none, none⟩
  | _ => ⟨old, some JsonError.typeMismatch, none⟩

/-- The call `json.Unmarshal(data, p)`: the error it returns and the slice
`p.Reminders` afterwards, `none` being a nil pointer. A text that is not valid
JSON is refused before anything is stored; otherwise the error is the one that
ended the decoding, or else the saved one. -/
def Unmarshal (tj : TimeJSON) (data : GoString) (old : List (Option Reminder)) :
    Option JsonError × List (Option Reminder) :=
  match parseJson data with
  | none => (some JsonError.invalidText, old)
  | some v =>
    (match (decodePlugin tj old v).ended with
      | some e => some e
      | none => (decodePlugin tj old v).saved,
     (decodePlugin tj old v).value)

/-! ## Persistence: encoding the plugin -/

/-- The hexadecimal digit of a number below 16, in lower case. -/
def hexDigit (n : Nat) : Char :=
  if n < 10 then Char.ofNat (48 + n) else Char.ofNat (87 + n)

/-- The escape `\u00XX` of a character below U+0100. -/
def escapeHex (c : Char) : GoString :=
  ['\\', 'u', '0', '0', hexDigit (c.toNat / 16), hexDigit (c.toNat % 16)]

/-- The text the encoder writes for one character of a string: a quote and a
backslash get a backslash, line feed, carriage return and tab their letter,
the other control characters and `<`, `>`, `&` the escape `\u00XX`, U+2028 and
U+2029 their `\u` escape; any other character is written as it is. -/
def escapeChar (c : Char) : GoString :=
  if c = '"' then ['\\', '"']
  else if c = '\\' then ['\\', '\\']
  else if c = '\n' then ['\\', 'n']
  else if c = '\r' then ['\\', 'r']
  else if c = '\t' then ['\\', 't']
  else if c.toNat < 32 ∨ c = '<' ∨ c = '>' ∨ c = '&' then escapeHex c
  else if c.toNat = 0x2028 then "\\u2028".toList
  else if c.toNat = 0x2029 then "\\u2029".toList
  else [c]

/-- The text the encoder writes for a string, with its quotes. -/
def marshalString (s : GoString) : GoString :=
  '"' :: (s.flatMap escapeChar ++ ['"'])

/-- The text a character of the output of a `MarshalJSON` method is copied as:
`<`, `>`, `&`, U+2028 and U+2029 are escaped. -/
def compactChar (c : Char) : GoString :=
  if c = '<' ∨ c = '>' ∨ c = '&' then escapeHex c
  else if c.toNat = 0x2028 then "\\u2028".toList
  else if c.toNat = 0x2029 then "\\u2029".toList
  else [c]

/-- The text the encoder writes for a `time.Time`: the quoted text of
`MarshalJSON`, checked to be a JSON string and copied; `none` when `MarshalJSON`
returns an error or a text that is no JSON string. -/
def marshalTime (tj : TimeJSON) (t : Int) : Option GoString :=
  match tj.format t with
  | none => none
  | some text =>
    match scanString (text ++ ['"']) with
    | some (_, []) => some ('"' :: (text.flatMap compactChar ++ ['"']))
    | _ => none

/-- The text of a member of an object: the key in quotes, a colon, the text of
the value. -/
def memberText (key valueText : GoString) : GoString :=
  '"' :: (key ++ '"' :: ':' :: valueText)

/-- The text the encoder writes for a `bool`. -/
def marshalBool (b : Bool) : GoString := if b then "true".toList else "false".toList

/-- The text the encoder writes for a `Reminder`: an object with the six fields
in the order of the struct. -/
def marshalReminder (tj : TimeJSON) (r : Reminder) : Option GoString :=
  match marshalTime tj r.StartTime, marshalTime tj r.Time with
  | some startTime, some time =>
    some ('\x7b' :: (memberText "StartTime".toList startTime
      ++ ',' :: (memberText "Time".toList time
      ++ ',' :: (memberText "Requester".toList (marshalString r.Requester)
      ++ ',' :: (memberText "Target".toList (marshalString r.Target)
      ++ ',' :: (memberText "Message".toList (marshalString r.Message)
      ++ ',' :: (memberText "IsPrivate".toList (marshalBool r.IsPrivate)
      ++ ['\x7d'])))))))
  | _, _ => none

/-- The texts of the elements of the slice, with commas between them, and the
closing bracket of the array. -/
def marshalElems (tj : TimeJSON) : List Reminder → Option GoString
  | [] => some [']']
  | r :: rest =>
    match marshalReminder tj r, marshalElems tj rest with
    | some a, some b => some (if rest = [] then a ++ b else a ++ ',' :: b)
    | _, _ => none

/-- The call `json.Marshal(p)`: an object with the one member `Reminders`, an
array. -/
def Marshal (tj : TimeJSON) (p : ReminderPlugin) : Except JsonError GoString :=
  match marshalElems tj p.Reminders with
  | some elems =>
    Except.ok ('\x7b' :: (memberText pluginField ('[' :: elems) ++ ['\x7d']))
  | none => Except.error JsonError.marshaler

/-! ## Load and Save -/

/-- Save will save plugin state to a byte array. -/
def Save (tj : TimeJSON) (p : ReminderPlugin) : Except JsonError GoString :=
  Marshal tj p

/-- What a call of `Load` leaves: the error it returns, the error it logs, the
slice `p.Reminders` (`none` being a nil pointer), and whether the goroutine of
`Run` has been started. -/
structure Loaded where
  err : Option JsonError
  logged : Option JsonError
  Reminders : List (Option Reminder)
  running : Bool
  deriving DecidableEq, Repr

/-- Load will load plugin state from a byte array; `none` is the nil slice. -/
def Load (tj : TimeJSON) (data : Option GoString) (p : ReminderPlugin) : Loaded :=
  match data with
  | none => ⟨none, none, p.Reminders.map some, true⟩
  | some text =>
    ⟨none, (Unmarshal tj text (p.Reminders.map some)).1,
      (Unmarshal tj text (p.Reminders.map some)).2, true⟩

/-- The characters of the text `time.Time` writes: digits and `-`, `:`, `T`,
`Z`, `+`, `.`. -/
def isTimeChar (c : Char) : Bool :=
  isDigit09 c || c = '-' || c = ':' || c = 'T' || c = 'Z' || c = '+' || c = '.'

/-- The JSON methods of `time.Time` write the instant as a text of the
characters of RFC 3339 and read that text back as the instant. -/
def TimeWritable (tj : TimeJSON) (t : Int) : Prop :=
  ∃ text, tj.format t = some text ∧ text.all isTimeChar = true ∧ tj.parse text = some t

/-- The JSON value the encoder writes for a `Reminder`, the texts of the two
times given. -/
def reminderJson (startTime time : GoString) (r : Reminder) : Json :=
  Json.object
    [("StartTime".toList, Json.string startTime), ("Time".toList, Json.string time),
     ("Requester".toList, Json.string (r.Requester.flatMap escapeChar)),
     ("Target".toList, Json.string (r.Target.flatMap escapeChar)),
     ("Message".toList, Json.string (r.Message.flatMap escapeChar)),
     ("IsPrivate".toList, Json.bool r.IsPrivate)]

/-- The text the encoder writes for a `Reminder`, the texts of the two times
given. -/
def reminderText (startTime time : GoString) (r : Reminder) : GoString :=
  '\x7b' :: (memberText "StartTime".toList ('"' :: (startTime ++ ['"']))
    ++ ',' :: (memberText "Time".toList ('"' :: (time ++ ['"']))
    ++ ',' :: (memberText "Requester".toList (marshalString r.Requester)
    ++ ',' :: (memberText "Target".toList (marshalString r.Target)
    ++ ',' :: (memberText "Message".toList (marshalString r.Message)
    ++ ',' :: (memberText "IsPrivate".toList (marshalBool r.IsPrivate)
    ++ ['\x7d']))))))

/-! ## Sample values -/

/-- A channel reminder of `requester` that fires at `t`. -/
def sampleReminder (requester : GoString) (t : Int) : Reminder :=
  { StartTime := 0, Time := t, Requester := requester, Target := "general".toList,
    Message := "walk the dog".toList, IsPrivate := false }

/-- A store that holds `n` reminders of the requester `R`, all firing at 100. -/
def sampleStore (n : Nat) : ReminderPlugin :=
  ⟨List.replicate n (sampleReminder "R".toList 100)⟩

/-- A sorted store of three requesters, firing at 10, 20 and 30. -/
def sampleSorted : ReminderPlugin :=
  ⟨[sampleReminder "A".toList 10, sampleReminder "B".toList 20, sampleReminder "C".toList 30]⟩

/-- A `humanize.Time` that always answers `now`. -/
def sampleHumanize : Int → GoString := fun _ => "now".toList

/-- A host for which a command is the first word of the raw text of the
message and the command body is what follows the first space. -/
def sampleHost : Host :=
  { DiscordServiceName := "Discord".toList
    matchesCommand := fun _ command message =>
      decide (message.RawMessage.takeWhile (fun c => c ≠ ' ') = command)
    parseCommand := fun _ message =>
      let query := Trim (message.RawMessage.dropWhile (fun c => c ≠ ' '))
      (query, (Split query ' ').filter (fun w => w ≠ []))
    humanize := sampleHumanize
    uni := fun c => c }

/-- A service that is not Discord, and a message that is not the bot's own. -/
def sampleService : Service := { Name := "IRC".toList, IsMe := false }

/-- A message of user `R` in channel `general` with the given raw text. -/
def sampleMessage (raw : GoString) : Message :=
  { Channel := "general".toList, UserName := "R".toList, UserID := "42".toList,
    RawMessage := raw }

/-- An execution: two commands at clock 0 and 1, then scheduler passes at 6, 7
and 20 seconds. -/
def sampleEvents : List Event :=
  [Event.command 0 0 0 0 sampleService (sampleMessage "remindme 10 seconds | walk the dog".toList),
   Event.command 0 0 1 1 sampleService (sampleMessage "remindchannel 5 seconds | feed the baby".toList),
   Event.tick (6 * Second), Event.tick (7 * Second), Event.tick (20 * Second)]

/-! ## Rejection by the handler -/

/-- The invocations the specification has the handler reject on validation: the
command body is empty (`parseCommand` returns no parts), the body does not split
on `|` into exactly two segments, the first segment is not a time expression
`parseTime` reads, or the time it reads is before `now`. -/
def RejectedOnValidation (h : Host) (now0 now : Int) (service : Service)
    (message : Message) : Prop :=
  (h.parseCommand service message).2 = [] ∨
  (Split (h.parseCommand service message).1 '|').length ≠ 2 ∨
  ∃ s0 s1, Split (h.parseCommand service message).1 '|' = [s0, s1] ∧
    ((∃ e, parseTime h.uni now0 s0 = Except.error e) ∨
     (∃ t, parseTime h.uni now0 s0 = Except.ok t ∧ t < now))

/-- The reply of the handler to a time it does not accept. -/
def invalidTimeReply (message : Message) : Outbound :=
  Outbound.SendMessage message.Channel
    ("Invalid time. eg: ".toList ++ Join randomTimes ", ".toList)

/-! ## The locks of the scheduler pass -/

/-- What one pass through the loop body of `Run` does, step by step, with the
calls on the mutex of the plugin. -/
inductive Action where
  | RLock
  | RUnlock
  | Send (call : Outbound)
  | Write (reminders : List Reminder)
  | Sleep
  deriving DecidableEq, Repr

/-- The steps of one pass through the body of the `for` loop of `Run`, in the
order of the source: `p.RLock()`, then for a due first entry `SendReminder`,
`p.Reminders = p.Reminders[1:]`, `p.RUnlock()` and `continue`; otherwise
`p.RUnlock()` and `time.Sleep(time.Second)`. -/
def RunTrace (humanize : Int → GoString) (now : Int) (p : ReminderPlugin) : List Action :=
  match p.Reminders with
  | reminder :: rest =>
    if now > reminder.Time then
      [Action.RLock, Action.Send (SendReminder humanize reminder), Action.Write rest,
        Action.RUnlock]
    else [Action.RLock, Action.RUnlock, Action.Sleep]
  | [] => [Action.RLock, Action.RUnlock, Action.Sleep]

/-- The number of read locks held at each `Send` of a run of steps, in order,
`held` being the number held when the run starts. -/
def locksAtSends (held : Nat) : List Action → List Nat
  | [] => []
  | Action.RLock :: rest => locksAtSends (held + 1) rest
  | Action.RUnlock :: rest => locksAtSends (held - 1) rest
  | Action.Send _ :: rest => held :: locksAtSends held rest
  | Action.Write _ :: rest => locksAtSends held rest
  | Action.Sleep :: rest => locksAtSends held rest

/-- The calls on the service in a run of steps, in order. -/
def sendsOf : List Action → List Outbound
  | [] => []
  | Action.Send call :: rest => call :: sendsOf rest
  | _ :: rest => sendsOf rest

/-- The call `p.Lock()` in `AddReminder` goes through only when no lock on the mutex is
held: with a reader inside, the writer waits. -/
def canLock (readers : Nat) : Bool := readers = 0

/-- The message `remindchannel 5 seconds | feed the baby`. -/
def sampleFeedMessage : Message :=
  sampleMessage "remindchannel 5 seconds | feed the baby".toList

/-- The Reminder the handler builds from `sampleFeedMessage` at clock 0. -/
def sampleFeed : Reminder :=
  { StartTime := 0, Time := 5 * Second, Requester := "R".toList, Target := "general".toList,
    Message := "feed the baby".toList, IsPrivate := false }

/-- The private reminder the handler builds from `remindme 1 minute | walk the
dog` of user 42 at clock 0. -/
def sampleWalk : Reminder :=
  { StartTime := 0, Time := 60 * Second, Requester := "R".toList, Target := "42".toList,
    Message := "walk the dog".toList, IsPrivate := true }

/-- JSON methods of `time.Time` for two instants: the zero time and one minute
after it, written in UTC. -/
def sampleTimeJSON : TimeJSON :=
  { format := fun t =>
      if t = 0 then some "0001-01-01T00:00:00Z".toList
      else if t = 60 * Second then some "0001-01-01T00:01:00Z".toList
      else none
    parse := fun s =>
      if s = "0001-01-01T00:00:00Z".toList then some 0
      else if s = "0001-01-01T00:01:00Z".toList then some (60 * Second)
      else none }

/-- A plugin that holds two reminders, the second with characters the encoder
escapes. -/
def samplePersisted : ReminderPlugin :=
  ⟨[sampleWalk,
    { StartTime := 0, Time := 60 * Second, Requester := "<@42>".toList,
      Target := "general".toList, Message := "say \"hi\" & go\n".toList, IsPrivate := false }]⟩

/-- A text that is valid JSON and does not fit the plugin: the member
`IsPrivate` of the one element of `Reminders` is a number. -/
def sampleMisfit : GoString :=
  "\x7b\"Reminders\":[\x7b\"Message\":\"x\",\"IsPrivate\":1\x7d]\x7d".toList

/-! ## Executions in which handler calls and scheduler passes overlap -/

/-- A step of an execution in which the goroutines of the handler and the
scheduler overlap. The handler holds no lock while it validates the message and
reads the clock; it takes the lock of the plugin only inside `AddReminder`. A
call of the handler is therefore two steps, and steps of other goroutines can
come between them: `validate` is the handler up to its call of `AddReminder`,
placed at the instant of its second clock read `now` (the first read `now0` is
made at any earlier point); `add i` is the call of `AddReminder` by the handler
that is `i`-th among those that have built a Reminder and not yet added it;
`pass` is one pass of the scheduler through the loop body of `Run`, which holds
the read lock from its clock read to the removal. -/
inductive Move where
  | validate (k1 k2 : Nat) (now0 now : Int) (service : Service) (message : Message)
  | add (i : Nat)
  | pass (now : Int)

/-- The plugin together with the handlers on their way and the record of the
execution: `waiting` holds the Reminders built by handlers that have not yet
entered `AddReminder`, `dispatched` the reminders handed to `SendReminder`,
`accepted` the reminders for which `AddReminder` returned `nil`. -/
structure Shared where
  plugin : ReminderPlugin
  waiting : List Reminder
  dispatched : List Reminder
  accepted : List Reminder
  deriving DecidableEq, Repr

/-- One step of an overlapping execution. -/
def advance (h : Host) (w : Shared) : Move → Shared
  | Move.validate k1 k2 now0 now service message =>
    match validate h k1 k2 now0 now service message with
    | Validation.built reminder => { w with waiting := w.waiting ++ [reminder] }
    | _ => w
  | Move.add i =>
    match w.waiting[i]? with
    | none => w
    | some reminder =>
      { plugin := (AddReminder w.plugin reminder).2
        waiting := w.waiting.eraseIdx i
        dispatched := w.dispatched
        accepted :=
          if (AddReminder w.plugin reminder).1 = none then w.accepted ++ [reminder]
          else w.accepted }
  | Move.pass now =>
    { w with
      plugin := (RunIter h.humanize now w.plugin).plugin
      dispatched := w.dispatched ++ (RunIter h.humanize now w.plugin).fired.toList }

/-- The overlapping execution of a sequence of steps from the plugin built by
`NewReminderPlugin`. -/
def interleave (h : Host) (moves : List Move) : Shared :=
  moves.foldl (advance h) ⟨NewReminderPlugin, [], [], []⟩

/-- The clock never goes back: the second read of each handler and the read of
each pass are non-decreasing in the order of the steps, from `clock` on, and the
first read of a handler is not after its second. -/
def clockOrdered (clock : Int) : List Move → Prop
  | [] => True
  | Move.validate _ _ now0 now _ _ :: rest => now0 ≤ now ∧ clock ≤ now ∧ clockOrdered now rest
  | Move.add _ :: rest => clockOrdered clock rest
  | Move.pass now :: rest => clock ≤ now ∧ clockOrdered now rest

/-- No reminder is dispatched while a handler is between its clock reads and
its `AddReminder`: at every pass that dispatches, no handler is waiting. -/
def undisturbed (h : Host) (w : Shared) : List Move → Prop
  | [] => True
  | Move.validate k1 k2 now0 now service message :: rest =>
    undisturbed h (advance h w (Move.validate k1 k2 now0 now service message)) rest
  | Move.add i :: rest => undisturbed h (advance h w (Move.add i)) rest
  | Move.pass now :: rest =>
    ((RunIter h.humanize now w.plugin).fired = none ∨ w.waiting = []) ∧
      undisturbed h (advance h w (Move.pass now)) rest

/-- An overlapping execution: the handler of `3 seconds` runs at clock 0; the
handler of `1 second` reads the clock at 1 second and is held up; the scheduler
makes a pass at 3.5 seconds; then the second handler adds its reminder, and the
scheduler makes a pass at 4 seconds. -/
def lateMoves : List Move :=
  [Move.validate 0 0 0 0 sampleService
     (sampleMessage "remindme 3 seconds | walk the dog".toList),
   Move.add 0,
   Move.validate 0 0 Second Second sampleService
     (sampleMessage "remindme 1 second | feed the baby".toList),
   Move.pass (3 * Second + Second / 2),
   Move.add 0,
   Move.pass (4 * Second)]

/-- An overlapping execution in which each handler adds its reminder before
the next pass. -/
def calmMoves : List Move :=
  [Move.validate 0 0 0 0 sampleService
     (sampleMessage "remindme 3 seconds | walk the dog".toList),
   Move.validate 0 0 Second Second sampleService
     (sampleMessage "remindme 1 second | feed the baby".toList),
   Move.pass (Second + Second / 2),
   Move.add 1,
   Move.add 0,
   Move.pass (3 * Second + Second / 2),
   Move.pass (4 * Second)]

/-- The facts about an overlapping execution that hold whatever the clock
shows. -/
structure SharedInv (w : Shared) : Prop where
  sorted : SortedByTime w.plugin.Reminders
  perm : (w.dispatched ++ w.plugin.Reminders).Perm w.accepted

/-- The facts about an overlapping execution that the dispatch order rests
on. -/
structure OrderInv (clock : Int) (w : Shared) : Prop where
  ordered : w.dispatched.Pairwise (fun a b => a.Time ≤ b.Time)
  beforeStore : ∀ d ∈ w.dispatched, ∀ s ∈ w.plugin.Reminders, d.Time ≤ s.Time
  beforeWaiting : ∀ d ∈ w.dispatched, ∀ s ∈ w.waiting, d.Time ≤ s.Time
  past : ∀ d ∈ w.dispatched, d.Time < clock

/-- The steps of an event of an execution in which every call of the handler
runs undisturbed: the handler adds its reminder right after its clock reads. -/
def expand : Event → List Move
  | Event.command k1 k2 now0 now service message =>
    [Move.validate k1 k2 now0 now service message, Move.add 0]
  | Event.tick now => [Move.pass now]

/-- An overlapping execution in which no handler is waiting agrees with an
execution of whole handler calls. -/
def Agree (w : Shared) (v : World) : Prop :=
  w.plugin = v.plugin ∧ w.waiting = [] ∧ w.dispatched = v.dispatched ∧ w.accepted = v.accepted

/-! ## The JSON methods of time.Time

`json.Marshal` and `json.Unmarshal` call `MarshalJSON` and `UnmarshalJSON` of
`time.Time` for the two times of a `Reminder`. Package `time` documents the
text as the instant in the form of RFC 3339 with sub-second precision, written
in the zone of the `time.Time`, and an error for a year outside 0 to 9999. What
follows is that behaviour as of Go 1.20 (`appendStrictRFC3339`,
`parseRFC3339`), on the proleptic Gregorian calendar. A `time.Time` is an
instant with a location; a `Reminder` of the model keeps the instant, in
nanoseconds from the zero `time.Time` (1 January of year 1, 00:00:00 UTC), and
the offset of the location at that instant, in seconds east of UTC, is an
argument. -/

/-- The function `isLeap` of package `time`. -/
def isLeap (year : Int) : Bool :=
  decide (year % 4 = 0) && (decide (year % 100 ≠ 0) || decide (year % 400 = 0))

/-- The table `daysBefore` of package `time`: the days of a non-leap year
before the month of index `m + 1`. -/
def daysBefore : List Nat := [0, 31, 59, 90, 120, 151, 181, 212, 243, 273, 304, 334, 365]

/-- The function `daysIn` of package `time`: the days of a month of a year. -/
def daysIn (month : Nat) (year : Int) : Nat :=
  if month = 2 ∧ isLeap year = true then 29
  else daysBefore.getD month 0 - daysBefore.getD (month - 1) 0

/-- The year and the day of the year (from 0) of a day, counted from 1 January
of year 1: the cycles of 400, 100 and 4 years and the years are cut off in
turn, as in `absDate` of package `time`; the last cycle of 100 years and the
last year of 4 are one day longer, so their counts are cut off at 3. -/
def absDate (days : Int) : Int × Int :=
  let n400 := days / 146097
  let d1 := days - 146097 * n400
  let n100 := d1 / 36524 - d1 / 36524 / 4
  let d2 := d1 - 36524 * n100
  let n4 := d2 / 1461
  let d3 := d2 - 1461 * n4
  let n1 := d3 / 365 - d3 / 365 / 4
  (400 * n400 + 100 * n100 + 4 * n4 + n1 + 1, d3 - 365 * n1)

/-- The month and the day of the month of a day of the year, as in `absDate`:
in a leap year the leap day is taken out, the month is estimated as if every
month had 31 days and corrected by the table. -/
def monthDay (leap : Bool) (yday : Nat) : Nat × Nat :=
  if leap = true ∧ yday = 59 then (2, 29)
  else
    let day := if leap = true ∧ yday > 59 then yday - 1 else yday
    let month := day / 31
    if day ≥ daysBefore.getD (month + 1) 0 then
      (month + 2, day - daysBefore.getD (month + 1) 0 + 1)
    else (month + 1, day - daysBefore.getD month 0 + 1)

/-- The days from 1 January of year 1 to 1 January of a year, by cycles of
400, 100 and 4 years, as in `Date` of package `time`. -/
def daysSinceEpoch (year : Int) : Int :=
  let y := year - 1
  let n400 := y / 400
  let y1 := y - 400 * n400
  let n100 := y1 / 100
  let y2 := y1 - 100 * n100
  let n4 := y2 / 4
  let y3 := y2 - 4 * n4
  146097 * n400 + 36524 * n100 + 1461 * n4 + 365 * y3

/-- The days from 1 January of year 1 to a date, as in `Date` of package
`time`. -/
def dateDays (year : Int) (month day : Nat) : Int :=
  daysSinceEpoch year + (daysBefore.getD (month - 1) 0 : Nat)
    + (if isLeap year = true ∧ month ≥ 3 then 1 else 0) + ((day - 1 : Nat) : Int)

/-- The last decimal digit of a number, as a character. -/
def digit (n : Nat) : Char := Char.ofNat (48 + n % 10)

/-- The function `appendInt` of package `time` for a number of at most `width`
digits: the number in decimal, with zeros in front up to the width. -/
def appendInt : Nat → Nat → GoString
  | 0, _ => []
  | width + 1, x => appendInt width (x / 10) ++ [digit x]

/-- The function `appendNano` of package `time` for the layout `.999999999`:
nothing for zero nanoseconds, else a point and the nine digits without the
zeros at the end. -/
def appendNano (nanosec : Nat) : GoString :=
  if nanosec = 0 then []
  else '.' :: List.rdropWhile (fun c => decide (c = '0')) (appendInt 9 nanosec)

/-- The zone of the text: `Z` for the offset zero, else the sign, the hours and
the minutes of the offset; the seconds of the offset are cut off. -/
def appendZone (offset : Int) : GoString :=
  if offset = 0 then ['Z']
  else
    (if Int.tdiv offset 60 < 0 then '-' else '+')
      :: (appendInt 2 ((Int.tdiv offset 60).natAbs / 60)
        ++ ':' :: appendInt 2 ((Int.tdiv offset 60).natAbs % 60))

/-- The function `appendStrictRFC3339` of package `time`, which `MarshalJSON`
puts between quotes: the text of the instant `t` in a zone of the given
offset, in the layout `2006-01-02T15:04:05.999999999Z07:00`; `none` is the
error for a year outside 0 to 9999 or a zone of 24 hours or more. -/
def appendStrictRFC3339 (offset t : Int) : Option GoString :=
  let abs := t / Second + offset
  let date := absDate (abs / 86400)
  let md := monthDay (isLeap date.1) date.2.toNat
  let sec := (abs % 86400).toNat
  if date.1 < 0 ∨ 9999 < date.1 then none
  else if 24 ≤ (Int.tdiv offset 60).natAbs / 60 then none
  else
    some (appendInt 4 date.1.toNat ++ '-' :: (appendInt 2 md.1 ++ '-' :: (appendInt 2 md.2
      ++ 'T' :: (appendInt 2 (sec / 3600) ++ ':' :: (appendInt 2 (sec % 3600 / 60)
      ++ ':' :: (appendInt 2 (sec % 60)
      ++ (appendNano (t % Second).toNat ++ appendZone offset)))))))

/-- The number a text of digits stands for. -/
def digitsValue (s : GoString) : Nat :=
  s.foldl (fun x c => x * 10 + (c.toNat - 48)) 0

/-- The function `parseUint` inside `parseRFC3339`: the number of a text of
digits, `none` when a character is no digit or the number is outside the
range. -/
def parseUint (s : GoString) (lo hi : Nat) : Option Nat :=
  if s.all isDigit09 = true then
    if digitsValue s < lo ∨ hi < digitsValue s then none else some (digitsValue s)
  else none

/-- The slice `s[a:b]`. -/
def slice (s : GoString) (a b : Nat) : GoString := (s.drop a).take (b - a)

/-- The fractional second of `parseRFC3339`: behind a point that a digit
follows, all the digits are read; the first nine count, as nanoseconds
(`parseNanoseconds`). The result is the nanoseconds and the text that
follows. -/
def parseNanoseconds (s : GoString) : Nat × GoString :=
  match s with
  | c0 :: c1 :: rest =>
    if c0 = '.' ∧ isDigit09 c1 = true then
      (digitsValue ((c1 :: rest.takeWhile isDigit09).take 9)
          * 10 ^ (9 - ((c1 :: rest.takeWhile isDigit09).take 9).length),
        rest.dropWhile isDigit09)
    else (0, s)
  | _ => (0, s)

/-- The zone of `parseRFC3339`: `Z`, or a sign, two digits of hours below 24, a
colon and two digits of minutes below 60; the result is the offset in
seconds. -/
def parseZone (s : GoString) : Option Int :=
  if s = ['Z'] then some 0
  else if s.length ≠ 6 then none
  else
    match parseUint (slice s 1 3) 0 23, parseUint (slice s 4 6) 0 59 with
    | some hr, some mm =>
      if (s[0]? = some '-' ∨ s[0]? = some '+') ∧ s[3]? = some ':' then
        some (if s[0]? = some '-' then -(((hr * 60 + mm) * 60 : Nat) : Int)
          else (((hr * 60 + mm) * 60 : Nat) : Int))
      else none
    | _, _ => none

/-- The function `parseRFC3339` of package `time`, which `UnmarshalJSON` calls
on the text between the quotes: the instant of a text of the form
`2006-01-02T15:04:05`, an optional fraction and a zone, with every number in
its range; `none` for any other text. The texts outside this form that
`UnmarshalJSON` then hands to the lenient `Parse` are refused here. -/
def parseRFC3339 (s : GoString) : Option Int :=
  if s.length < 19 then none
  else
    match parseUint (slice s 0 4) 0 9999, parseUint (slice s 5 7) 1 12 with
    | some year, some month =>
      match parseUint (slice s 8 10) 1 (daysIn month year), parseUint (slice s 11 13) 0 23,
          parseUint (slice s 14 16) 0 59, parseUint (slice s 17 19) 0 59 with
      | some day, some hour, some min, some sec =>
        if s[4]? = some '-' ∧ s[7]? = some '-' ∧ s[10]? = some 'T' ∧ s[13]? = some ':'
            ∧ s[16]? = some ':' then
          match parseZone (parseNanoseconds (s.drop 19)).2 with
          | some zoneOffset =>
            some ((dateDays year month day * 86400 + hour * 3600 + min * 60 + sec - zoneOffset)
              * Second + (parseNanoseconds (s.drop 19)).1)
          | none => none
        else none
      | _, _, _, _ => none
    | _, _ => none

/-- The JSON methods of `time.Time`, for times whose location has the offset
`zone t` at the instant `t`. -/
def goTimeJSON (zone : Int → Int) : TimeJSON :=
  { format := fun t => appendStrictRFC3339 (zone t) t
    parse := parseRFC3339 }

/-- The year of the instant `t` in a zone of the given offset. -/
def yearIn (offset t : Int) : Int := (absDate ((t / Second + offset) / 86400)).1

/-- The instant `t` in a zone of the given offset is one that RFC 3339 writes
in full: the year in the zone is from 0 to 9999 (the instant is from
0000-01-01 00:00:00 to 9999-12-31 23:59:59.999999999 in the zone, see
`yearIn_range`), and the offset is a whole number of minutes and less than 24
hours. -/
def inRFC3339 (offset t : Int) : Prop :=
  0 ≤ yearIn offset t ∧ yearIn offset t ≤ 9999 ∧ offset % 60 = 0 ∧
    -86400 < offset ∧ offset < 86400

/-! ## Sample values of the persistence -/

/-- The instant 2016-02-29 22:30:00.5 UTC. -/
def sampleInstant : Int := (736022 * 86400 + 22 * 3600 + 30 * 60) * Second + 500000000

/-- A zone one hour east of UTC. -/
def sampleZone : Int → Int := fun _ => 3600

/-- A plugin that holds two reminders set at `sampleInstant`, one for an hour
later and one for the end of the year; the second has characters the encoder
escapes. -/
def sampleSnapshot : ReminderPlugin :=
  ⟨[{ StartTime := sampleInstant, Time := sampleInstant + Hour, Requester := "R".toList,
      Target := "42".toList, Message := "walk the dog".toList, IsPrivate := true },
    { StartTime := sampleInstant, Time := sampleInstant + 306 * 24 * Hour + Hour,
      Requester := "<@42>".toList, Target := "general".toList,
      Message := "say \"hi\" & go\n".toList, IsPrivate := false }]⟩

/-- The instant 9999-12-31 23:00:00 UTC, one hour before the year 10000. -/
def sampleLastHour : Int := (3652059 * 86400 - 3600) * Second

/-- The reminder the handler builds from `remindme tomorrow | walk the dog` of
user 42 at the clock `sampleLastHour`: its `Time` is in the year 10000. -/
def sampleFar : Reminder :=
  { StartTime := sampleLastHour, Time := sampleLastHour + 24 * Hour, Requester := "R".toList,
    Target := "42".toList, Message := "walk the dog".toList, IsPrivate := true }

/-- The byte slice `Save` returns: with an error it is nil. -/
def savedBytes (saved : Except JsonError GoString) : Option GoString :=
  match saved with
  | Except.ok data => some data
  | Except.error _ => none

/-! ## The store: how `AddReminder` places a reminder -/

theorem set_length_append {α : Type} (A B : List α) (x r : α) (i : Nat)
    (h : A.length = i) : (A ++ x :: B).set i r = A ++ r :: B := by
  subst h
  induction A with
  | nil => simp
  | cons a A ih => simp [ih]

/-- The three slice statements of `AddReminder` insert the reminder at index `i`. -/
theorem goCopy_insert {α : Type} (rs : List α) (r : α) (i : Nat) (hi : i ≤ rs.length) :
    (goCopy (rs ++ [r]) (i + 1) i).set i r = rs.take i ++ r :: rs.drop i := by
  have hlen : (rs ++ [r]).length = rs.length + 1 := by simp
  have hi2 : i < (rs ++ [r]).length := by omega
  unfold goCopy
  simp only [hlen]
  have hmin : min (rs.length + 1 - (i + 1)) (rs.length + 1 - i) = rs.length - i := by omega
  rw [hmin]
  have h1 : List.drop (i + 1 + (rs.length - i)) (rs ++ [r]) = [] := by
    apply List.drop_eq_nil_of_le; simp; omega
  have h2 : List.take (rs.length - i) (List.drop i (rs ++ [r])) = rs.drop i := by
    rw [List.drop_append_of_le_length hi, List.take_append_of_le_length (by simp)]
    apply List.take_of_length_le; simp
  have h3 : List.take (i + 1) (rs ++ [r]) = rs.take i ++ [(rs ++ [r])[i]] := by
    rw [List.take_succ, List.getElem?_eq_getElem hi2, List.take_append_of_le_length hi]
    rfl
  rw [h1, h2, h3, List.append_nil, List.append_assoc, List.singleton_append]
  exact set_length_append _ _ _ _ _ (by simp [hi])

theorem insertLoop_eq (t : Int) (rs : List Reminder) (k : Nat) :
    insertLoop t rs k = k + (rs.takeWhile (notAfter t)).length := by
  induction rs generalizing k with
  | nil => simp [insertLoop]
  | cons r rest ih =>
    by_cases h : r.Time > t
    · have h2 : notAfter t r = false := by simp [notAfter]; omega
      simp [insertLoop, h, List.takeWhile_cons, h2]
    · have h2 : notAfter t r = true := by simp [notAfter]; omega
      simp [insertLoop, h, List.takeWhile_cons, h2, ih]
      omega

theorem take_length_takeWhile {α : Type} (f : α → Bool) (l : List α) :
    l.take (l.takeWhile f).length = l.takeWhile f := by
  induction l with
  | nil => simp
  | cons a l ih => by_cases h : f a <;> simp [List.takeWhile_cons, h, ih]

theorem drop_length_takeWhile {α : Type} (f : α → Bool) (l : List α) :
    l.drop (l.takeWhile f).length = l.dropWhile f := by
  induction l with
  | nil => simp
  | cons a l ih => by_cases h : f a <;> simp [List.takeWhile_cons, List.dropWhile_cons, h, ih]

theorem length_takeWhile_le_length {α : Type} (f : α → Bool) (l : List α) :
    (l.takeWhile f).length ≤ l.length := by
  induction l with
  | nil => simp
  | cons a l ih =>
    by_cases h : f a <;> simp [List.takeWhile_cons, h]
    omega

theorem take_insertLoop (t : Int) (rs : List Reminder) :
    rs.take (insertLoop t rs 0) = rs.takeWhile (notAfter t) := by
  rw [insertLoop_eq, Nat.zero_add, take_length_takeWhile]

theorem drop_insertLoop (t : Int) (rs : List Reminder) :
    rs.drop (insertLoop t rs 0) = rs.dropWhile (notAfter t) := by
  rw [insertLoop_eq, Nat.zero_add, drop_length_takeWhile]

theorem insertLoop_le (t : Int) (rs : List Reminder) : insertLoop t rs 0 ≤ rs.length := by
  rw [insertLoop_eq, Nat.zero_add]
  exact length_takeWhile_le_length _ _

/-- The first loop of `AddReminder` returns the error exactly when the counter
would pass 5. -/
theorem quotaLoop_eq (requester : GoString) (rs : List Reminder) (k : Nat) (hk : k ≤ 5) :
    quotaLoop requester rs k = decide (5 < k + pendingOf requester rs) := by
  induction rs generalizing k with
  | nil => simp [quotaLoop, pendingOf]; omega
  | cons r rest ih =>
    by_cases h : r.Requester = requester
    · by_cases h5 : k + 1 > 5
      · simp [quotaLoop, pendingOf, h, h5, List.countP_cons]
        omega
      · have := ih (k + 1) (by omega)
        simp only [quotaLoop, h, h5, if_true, if_false, this, pendingOf, List.countP_cons,
          decide_True]
        congr 1
        simp only [eq_iff_iff]
        omega
    · have := ih k hk
      simp [quotaLoop, h, this, pendingOf, List.countP_cons]

/-- A call of `AddReminder` that passes the first loop puts the reminder between
the entries the second loop walks past and the rest. -/
theorem AddReminder_of_pass (p : ReminderPlugin) (r : Reminder)
    (h : quotaLoop r.Requester p.Reminders 0 = false) :
    AddReminder p r = (none, ⟨p.Reminders.takeWhile (notAfter r.Time)
      ++ r :: p.Reminders.dropWhile (notAfter r.Time)⟩) := by
  simp only [AddReminder, h, Bool.false_eq_true, if_false]
  rw [goCopy_insert _ _ _ (insertLoop_le _ _), take_insertLoop, drop_insertLoop]

theorem AddReminder_of_fail (p : ReminderPlugin) (r : Reminder)
    (h : quotaLoop r.Requester p.Reminders 0 = true) :
    AddReminder p r = (some tooManyReminders, p) := by
  simp [AddReminder, h]

theorem AddReminder_error_iff (p : ReminderPlugin) (r : Reminder) :
    (AddReminder p r).1 = some tooManyReminders ↔ 6 ≤ pendingOf r.Requester p.Reminders := by
  have hq := quotaLoop_eq r.Requester p.Reminders 0 (by omega)
  by_cases h : quotaLoop r.Requester p.Reminders 0 = true
  · rw [AddReminder_of_fail p r h]
    rw [h] at hq
    have := of_decide_eq_true hq.symm
    simp; omega
  · have h2 : quotaLoop r.Requester p.Reminders 0 = false := by simpa using h
    rw [AddReminder_of_pass p r h2]
    rw [h2] at hq
    have := of_decide_eq_false hq.symm
    simp; omega

/-! ## Sortedness -/

theorem lt_of_mem_dropWhile (t : Int) (rs : List Reminder) (hs : SortedByTime rs) :
    ∀ b ∈ rs.dropWhile (notAfter t), t < b.Time := by
  induction rs with
  | nil => simp
  | cons r rest ih =>
    have hs2 := List.pairwise_cons.mp hs
    by_cases h : notAfter t r = true
    · simpa [List.dropWhile_cons, h] using ih hs2.2
    · have hr : t < r.Time := by simp [notAfter] at h; omega
      have h2 : notAfter t r = false := by simpa using h
      intro b hb
      simp only [List.dropWhile_cons, h2] at hb
      rcases List.mem_cons.mp hb with rfl | hb
      · exact hr
      · have := hs2.1 b hb
        omega

theorem le_of_mem_takeWhile (t : Int) (rs : List Reminder) :
    ∀ a ∈ rs.takeWhile (notAfter t), a.Time ≤ t := by
  intro a ha
  have := List.mem_takeWhile_imp ha
  simpa [notAfter] using this

theorem sorted_insert (rs : List Reminder) (r : Reminder) (hs : SortedByTime rs) :
    SortedByTime (rs.takeWhile (notAfter r.Time) ++ r :: rs.dropWhile (notAfter r.Time)) := by
  unfold SortedByTime at *
  rw [List.pairwise_append]
  refine ⟨hs.sublist (List.takeWhile_sublist _), ?_, ?_⟩
  · rw [List.pairwise_cons]
    refine ⟨fun b hb => le_of_lt (lt_of_mem_dropWhile _ _ hs b hb),
      hs.sublist (List.dropWhile_sublist _)⟩
  · intro a ha b hb
    have h1 := le_of_mem_takeWhile _ _ a ha
    rcases List.mem_cons.mp hb with rfl | hb
    · exact h1
    · have := lt_of_mem_dropWhile _ _ hs b hb
      omega

theorem sorted_AddReminder (p : ReminderPlugin) (r : Reminder)
    (hs : SortedByTime p.Reminders) : SortedByTime (AddReminder p r).2.Reminders := by
  by_cases h : quotaLoop r.Requester p.Reminders 0 = true
  · rw [AddReminder_of_fail p r h]; exact hs
  · rw [AddReminder_of_pass p r (by simpa using h)]
    exact sorted_insert _ _ hs

theorem RunIter_cases (humanize : Int → GoString) (now : Int) (p : ReminderPlugin) :
    (∃ r rest, p.Reminders = r :: rest ∧ r.Time < now ∧
        RunIter humanize now p = ⟨some r, [SendReminder humanize r], ⟨rest⟩, false⟩) ∨
    ((¬ ∃ r rest, p.Reminders = r :: rest ∧ r.Time < now) ∧
        RunIter humanize now p = ⟨none, [], p, true⟩) := by
  obtain ⟨rs⟩ := p
  cases rs with
  | nil => right; simp [RunIter]
  | cons r rest =>
    by_cases h : now > r.Time
    · left; exact ⟨r, rest, rfl, h, by simp [RunIter, h]⟩
    · right; simp [RunIter, h]

theorem RunIter_plugin (humanize : Int → GoString) (now : Int) (p : ReminderPlugin) :
    (RunIter humanize now p).plugin = p ∨
      ∃ r rest, p.Reminders = r :: rest ∧ r.Time < now ∧
        (RunIter humanize now p).plugin = ⟨rest⟩ ∧
        (RunIter humanize now p).fired = some r := by
  rcases RunIter_cases humanize now p with ⟨r, rest, hp, hlt, e⟩ | ⟨_, e⟩
  · right; exact ⟨r, rest, hp, hlt, by rw [e], by rw [e]⟩
  · left; rw [e]

theorem sorted_RunIter (humanize : Int → GoString) (now : Int) (p : ReminderPlugin)
    (hs : SortedByTime p.Reminders) : SortedByTime (RunIter humanize now p).plugin.Reminders := by
  rcases RunIter_plugin humanize now p with h | ⟨r, rest, hp, _, h, _⟩
  · rw [h]; exact hs
  · rw [h]
    unfold SortedByTime at *
    rw [hp] at hs
    exact (List.pairwise_cons.mp hs).2

theorem sorted_applyOps (humanize : Int → GoString) (ops : List StoreOp) (p : ReminderPlugin)
    (hs : SortedByTime p.Reminders) : SortedByTime (applyOps humanize p ops).Reminders := by
  induction ops generalizing p with
  | nil => exact hs
  | cons op ops ih =>
    unfold applyOps
    rw [List.foldl_cons]
    apply ih
    cases op with
    | add r => exact sorted_AddReminder p r hs
    | pop now => exact sorted_RunIter humanize now p hs

/-- C1: starting from the empty store, after every sequence of `AddReminder`
calls (accepted or rejected) and scheduler passes, the `Reminders` list is
sorted ascending by `Time`. -/
theorem C1_store_sorted (humanize : Int → GoString) (ops : List StoreOp) :
    SortedByTime (applyOps humanize NewReminderPlugin ops).Reminders :=
  sorted_applyOps humanize ops NewReminderPlugin List.Pairwise.nil

/-! ## The quota -/

/-- C2, as stated, fails: with exactly 5 reminders of the requester in the store
a 6th is accepted and the store grows to 6 entries. -/
theorem C2_counterexample :
    pendingOf "R".toList (sampleStore 5).Reminders = 5 ∧
    (AddReminder (sampleStore 5) (sampleReminder "R".toList 100)).1 = none ∧
    (AddReminder (sampleStore 5) (sampleReminder "R".toList 100)).2.Reminders.length = 6 := by
  decide

/-- C2, amended: in a store that holds exactly 6 reminders of a requester,
`AddReminder` of a further reminder of that requester returns the error
"You have too many reminders already." and the length of the store is
unchanged. -/
theorem C2_quota_error (p : ReminderPlugin) (r : Reminder)
    (h : pendingOf r.Requester p.Reminders = 6) :
    (AddReminder p r).1 = some "You have too many reminders already.".toList ∧
    (AddReminder p r).2.Reminders.length = p.Reminders.length := by
  have hq := quotaLoop_eq r.Requester p.Reminders 0 (by omega)
  have hf : quotaLoop r.Requester p.Reminders 0 = true := by
    rw [hq]; simp; omega
  rw [AddReminder_of_fail p r hf]
  exact ⟨rfl, rfl⟩

theorem C2_quota_error_witness :
    pendingOf (sampleReminder "R".toList 7).Requester (sampleStore 6).Reminders = 6 ∧
    (AddReminder (sampleStore 6) (sampleReminder "R".toList 7)).1
      = some "You have too many reminders already.".toList ∧
    (AddReminder (sampleStore 6) (sampleReminder "R".toList 7)).2.Reminders.length
      = (sampleStore 6).Reminders.length :=
  ⟨by decide, C2_quota_error (sampleStore 6) (sampleReminder "R".toList 7) (by decide)⟩

theorem pendingOf_insert (requester : GoString) (rs : List Reminder) (r : Reminder) (t : Int) :
    pendingOf requester (rs.takeWhile (notAfter t) ++ r :: rs.dropWhile (notAfter t))
      = pendingOf requester rs + (if r.Requester = requester then 1 else 0) := by
  have h : pendingOf requester rs
      = pendingOf requester (rs.takeWhile (notAfter t))
        + pendingOf requester (rs.dropWhile (notAfter t)) := by
    unfold pendingOf
    rw [← List.countP_append, List.takeWhile_append_dropWhile]
  rw [h]
  unfold pendingOf
  rw [List.countP_append, List.countP_cons]
  by_cases hr : r.Requester = requester
  · simp [hr]; omega
  · simp [hr]

theorem pendingOf_AddReminder_le (requester : GoString) (p : ReminderPlugin) (r : Reminder)
    (h : pendingOf requester p.Reminders ≤ 6) :
    pendingOf requester (AddReminder p r).2.Reminders ≤ 6 := by
  by_cases hq : quotaLoop r.Requester p.Reminders 0 = true
  · rw [AddReminder_of_fail p r hq]; exact h
  · have hq2 : quotaLoop r.Requester p.Reminders 0 = false := by simpa using hq
    rw [AddReminder_of_pass p r hq2, pendingOf_insert]
    have h5 := quotaLoop_eq r.Requester p.Reminders 0 (by omega)
    rw [hq2] at h5
    have h6 := of_decide_eq_false h5.symm
    by_cases hr : r.Requester = requester
    · subst hr; simp; omega
    · simp [hr]; exact h

theorem pendingOf_RunIter_le (requester : GoString) (humanize : Int → GoString) (now : Int)
    (p : ReminderPlugin) (h : pendingOf requester p.Reminders ≤ 6) :
    pendingOf requester (RunIter humanize now p).plugin.Reminders ≤ 6 := by
  rcases RunIter_plugin humanize now p with e | ⟨r, rest, hp, _, e, _⟩
  · rw [e]; exact h
  · rw [e]
    rw [hp] at h
    unfold pendingOf at *
    rw [List.countP_cons] at h
    simp only at h ⊢
    omega

theorem pendingOf_applyOps_le (requester : GoString) (humanize : Int → GoString)
    (ops : List StoreOp) (p : ReminderPlugin) (h : pendingOf requester p.Reminders ≤ 6) :
    pendingOf requester (applyOps humanize p ops).Reminders ≤ 6 := by
  induction ops generalizing p with
  | nil => exact h
  | cons op ops ih =>
    unfold applyOps
    rw [List.foldl_cons]
    apply ih
    cases op with
    | add r => exact pendingOf_AddReminder_le requester p r h
    | pop now => exact pendingOf_RunIter_le requester humanize now p h

/-- C3, as stated, fails: six accepted calls of `AddReminder` for one requester,
from the empty store, leave 6 reminders of that requester in the store. -/
theorem C3_counterexample :
    pendingOf "R".toList
      (applyOps sampleHumanize NewReminderPlugin
        (List.replicate 6 (StoreOp.add (sampleReminder "R".toList 100)))).Reminders = 6 := by
  decide

/-- C3, amended: in every store reachable from the empty store by calls of
`AddReminder` and scheduler passes, at most 6 reminders share the same
`Requester` value. -/
theorem C3_at_most_six (humanize : Int → GoString) (ops : List StoreOp)
    (requester : GoString) :
    pendingOf requester (applyOps humanize NewReminderPlugin ops).Reminders ≤ 6 :=
  pendingOf_applyOps_le requester humanize ops NewReminderPlugin (by simp [pendingOf, NewReminderPlugin])

/-! ## One scheduler pass -/

/-- C4, as stated, fails: with a first entry whose `Time` equals the clock, the
store is non-empty and its first `Time` is less than or equal to `now`, yet the
pass sends nothing and leaves the store as it is. -/
theorem C4_counterexample :
    (sampleStore 1).Reminders = [sampleReminder "R".toList 100] ∧
    (sampleReminder "R".toList 100).Time ≤ 100 ∧
    RunIter sampleHumanize 100 (sampleStore 1) = ⟨none, [], sampleStore 1, true⟩ := by
  decide

/-- C4, amended: one scheduler pass at clock value `now` removes and dispatches
a reminder if and only if the store is non-empty and its first entry's `Time` is
strictly less than `now` (the first entry is then the one dispatched and
removed); in every other case the store is left unmodified and nothing is
dispatched. -/
theorem C4_pass_iff (humanize : Int → GoString) (now : Int) (p : ReminderPlugin) :
    (∃ r rest, p.Reminders = r :: rest ∧ r.Time < now ∧
        RunIter humanize now p = ⟨some r, [SendReminder humanize r], ⟨rest⟩, false⟩) ∨
    ((¬ ∃ r rest, p.Reminders = r :: rest ∧ r.Time < now) ∧
        RunIter humanize now p = ⟨none, [], p, true⟩) :=
  RunIter_cases humanize now p

/-! ## Where an accepted reminder is placed -/

/-- C5: in a store sorted by `Time`, an accepted `AddReminder` cuts the old list
in two and puts the reminder between the halves, the old entries staying in
their order: every entry before it has a `Time` not after the reminder's (so all
entries with an equal `Time` come before it), every entry behind it has a `Time`
after the reminder's, and the length grows by exactly 1. -/
theorem C5_insert_position (p : ReminderPlugin) (r : Reminder)
    (hs : SortedByTime p.Reminders) (hok : (AddReminder p r).1 = none) :
    ∃ front back : List Reminder,
      p.Reminders = front ++ back ∧
      (AddReminder p r).2.Reminders = front ++ r :: back ∧
      (∀ x ∈ front, x.Time ≤ r.Time) ∧
      (∀ x ∈ back, r.Time < x.Time) ∧
      (AddReminder p r).2.Reminders.length = p.Reminders.length + 1 := by
  have hq : quotaLoop r.Requester p.Reminders 0 = false := by
    by_cases h : quotaLoop r.Requester p.Reminders 0 = true
    · rw [AddReminder_of_fail p r h] at hok; simp at hok
    · simpa using h
  rw [AddReminder_of_pass p r hq]
  refine ⟨p.Reminders.takeWhile (notAfter r.Time), p.Reminders.dropWhile (notAfter r.Time),
    (List.takeWhile_append_dropWhile _ _).symm, rfl, le_of_mem_takeWhile _ _,
    lt_of_mem_dropWhile _ _ hs, ?_⟩
  have := congrArg List.length (List.takeWhile_append_dropWhile (notAfter r.Time) p.Reminders)
  simp only [List.length_append, List.length_cons] at this ⊢
  omega

theorem C5_insert_position_witness :
    SortedByTime sampleSorted.Reminders ∧
    (AddReminder sampleSorted (sampleReminder "D".toList 20)).1 = none ∧
    ∃ front back : List Reminder,
      sampleSorted.Reminders = front ++ back ∧
      (AddReminder sampleSorted (sampleReminder "D".toList 20)).2.Reminders
        = front ++ sampleReminder "D".toList 20 :: back ∧
      (∀ x ∈ front, x.Time ≤ (sampleReminder "D".toList 20).Time) ∧
      (∀ x ∈ back, (sampleReminder "D".toList 20).Time < x.Time) ∧
      (AddReminder sampleSorted (sampleReminder "D".toList 20)).2.Reminders.length
        = sampleSorted.Reminders.length + 1 :=
  ⟨by unfold SortedByTime; decide, by decide,
   C5_insert_position sampleSorted (sampleReminder "D".toList 20)
     (by unfold SortedByTime; decide) (by decide)⟩

/-- In the witness of C5 the new reminder goes behind the entry with the same
`Time`. -/
theorem sampleSorted_insert :
    (AddReminder sampleSorted (sampleReminder "D".toList 20)).2.Reminders.map
      (fun r => r.Requester) = ["A".toList, "B".toList, "D".toList, "C".toList] := by
  decide

/-! ## A rejected add -/

/-- C6: whenever `AddReminder` returns an error, the plugin after the call is
the plugin before the call: the `Reminders` list has the same entries in the
same order. -/
theorem C6_rejected_unchanged (p : ReminderPlugin) (r : Reminder)
    (herr : (AddReminder p r).1 ≠ none) : (AddReminder p r).2 = p := by
  by_cases h : quotaLoop r.Requester p.Reminders 0 = true
  · rw [AddReminder_of_fail p r h]
  · rw [AddReminder_of_pass p r (by simpa using h)] at herr
    exact absurd rfl herr

theorem C6_rejected_unchanged_witness :
    (AddReminder (sampleStore 6) (sampleReminder "R".toList 5)).1 ≠ none ∧
    (AddReminder (sampleStore 6) (sampleReminder "R".toList 5)).2 = sampleStore 6 :=
  ⟨by decide, C6_rejected_unchanged (sampleStore 6) (sampleReminder "R".toList 5) (by decide)⟩

/-! ## Executions -/

theorem validate_built_time (h : Host) (k1 k2 : Nat) (now0 now : Int) (service : Service)
    (message : Message) (r : Reminder)
    (hv : validate h k1 k2 now0 now service message = Validation.built r) :
    now ≤ r.Time ∧ r.StartTime = now := by
  unfold validate at hv
  split at hv
  · cases hv
  · simp only at hv
    split at hv
    · split at hv
      · cases hv
      · split at hv
        · split at hv
          · cases hv
          · split at hv
            · cases hv
            · rename_i hlt
              injection hv with hv
              subst hv
              exact ⟨by simpa using hlt, rfl⟩
        · cases hv
    · cases hv

theorem step_tick_cases (h : Host) (w : World) (now : Int) :
    step h w (Event.tick now) = { w with sent := w.sent ++ [] , dispatched := w.dispatched ++ [] } ∨
    ∃ r rest, w.plugin.Reminders = r :: rest ∧ r.Time < now ∧
      step h w (Event.tick now) =
        { plugin := ⟨rest⟩, sent := w.sent ++ [SendReminder h.humanize r],
          dispatched := w.dispatched ++ [r], accepted := w.accepted } := by
  rcases RunIter_cases h.humanize now w.plugin with ⟨r, rest, hp, hlt, e⟩ | ⟨_, e⟩
  · right; exact ⟨r, rest, hp, hlt, by simp [step, e]⟩
  · left; simp [step, e]

theorem step_command_cases (h : Host) (w : World) (k1 k2 : Nat) (now0 now : Int)
    (service : Service) (message : Message) :
    (∃ out, step h w (Event.command k1 k2 now0 now service message)
        = { w with sent := w.sent ++ out, accepted := w.accepted ++ [] }) ∨
    ∃ r out, now ≤ r.Time ∧ quotaLoop r.Requester w.plugin.Reminders 0 = false ∧
      step h w (Event.command k1 k2 now0 now service message) =
        { plugin := (AddReminder w.plugin r).2, sent := w.sent ++ out,
          dispatched := w.dispatched, accepted := w.accepted ++ [r] } := by
  cases hv : validate h k1 k2 now0 now service message with
  | ignored => left; exact ⟨[], by simp [step, messageFunc, hv]⟩
  | rejected reply => left; exact ⟨[reply], by simp [step, messageFunc, hv]⟩
  | built r =>
    by_cases hq : quotaLoop r.Requester w.plugin.Reminders 0 = true
    · left
      have e := AddReminder_of_fail w.plugin r hq
      exact ⟨[Outbound.SendMessage message.Channel tooManyReminders],
        by simp [step, messageFunc, hv, e]⟩
    · right
      have hq2 : quotaLoop r.Requester w.plugin.Reminders 0 = false := by simpa using hq
      have e := AddReminder_of_pass w.plugin r hq2
      exact ⟨r, _, (validate_built_time h k1 k2 now0 now service message r hv).1, hq2,
        by simp [step, messageFunc, hv, e]; rfl⟩

theorem ExecInv_step (h : Host) (clock : Int) (w : World) (hw : ExecInv clock w) (e : Event)
    (hc : clockMonotone clock [e]) :
    ∃ c, clock ≤ c ∧ ExecInv c (step h w e) ∧ ∀ rest, clockMonotone clock (e :: rest) →
      clockMonotone c rest := by
  cases e with
  | tick now =>
    have hcn : clock ≤ now := hc.1
    refine ⟨now, hcn, ?_, fun rest hr => hr.2⟩
    rcases step_tick_cases h w now with e | ⟨r, rest, hp, hlt, e⟩
    · rw [e]
      exact ⟨hw.sorted, by simpa using hw.ordered, by simpa using hw.beforeStore,
        by
          intro d hd
          have := hw.past d (by simpa using hd)
          omega,
        by simpa using hw.perm⟩
    · rw [e]
      have hs := hw.sorted
      unfold SortedByTime at hs
      rw [hp] at hs
      have hs2 := List.pairwise_cons.mp hs
      refine ⟨hs2.2, ?_, ?_, ?_, ?_⟩
      · show (w.dispatched ++ [r]).Pairwise _
        rw [List.pairwise_append]
        refine ⟨hw.ordered, List.pairwise_singleton _ _, ?_⟩
        intro a ha b hb
        rw [List.mem_singleton] at hb
        subst hb
        exact hw.beforeStore a ha b (by rw [hp]; exact List.mem_cons_self _ _)
      · intro d hd s hsm
        rcases List.mem_append.mp hd with hd | hd
        · exact hw.beforeStore d hd s (by rw [hp]; exact List.mem_cons_of_mem _ hsm)
        · rw [List.mem_singleton] at hd
          subst hd
          exact hs2.1 s hsm
      · intro d hd
        rcases List.mem_append.mp hd with hd | hd
        · have := hw.past d hd
          omega
        · rw [List.mem_singleton] at hd
          subst hd
          exact hlt
      · show ((w.dispatched ++ [r]) ++ rest).Perm w.accepted
        have := hw.perm
        rw [hp] at this
        simpa using this
  | command k1 k2 now0 now service message =>
    have hc0 : clock ≤ now0 := hc.1
    have hc1 : now0 ≤ now := hc.2.1
    refine ⟨now, by omega, ?_, fun rest hr => hr.2.2⟩
    rcases step_command_cases h w k1 k2 now0 now service message with ⟨out, e⟩ | ⟨r, out, hr, hq, e⟩
    · rw [e]
      exact ⟨hw.sorted, hw.ordered, hw.beforeStore,
        by
          intro d hd
          have := hw.past d hd
          omega,
        by simpa using hw.perm⟩
    · rw [e]
      have ea := AddReminder_of_pass w.plugin r hq
      refine ⟨sorted_AddReminder _ _ hw.sorted, hw.ordered, ?_, ?_, ?_⟩
      · intro d hd s hsm
        simp only [ea] at hsm
        rcases List.mem_append.mp hsm with hsm | hsm
        · exact hw.beforeStore d hd s (List.takeWhile_sublist _ |>.subset hsm)
        · rcases List.mem_cons.mp hsm with rfl | hsm
          · have := hw.past d hd
            omega
          · exact hw.beforeStore d hd s (List.dropWhile_sublist _ |>.subset hsm)
      · intro d hd
        have := hw.past d hd
        omega
      · simp only [ea]
        have h1 : (w.dispatched ++ (List.takeWhile (notAfter r.Time) w.plugin.Reminders ++
            r :: List.dropWhile (notAfter r.Time) w.plugin.Reminders)).Perm
            ((w.dispatched ++ w.plugin.Reminders) ++ [r]) := by
          conv_rhs => rw [← List.takeWhile_append_dropWhile (notAfter r.Time) w.plugin.Reminders]
          rw [List.append_assoc]
          apply List.Perm.append_left
          rw [List.append_assoc]
          apply List.Perm.append_left
          exact (List.perm_append_singleton r _).symm
        exact h1.trans (hw.perm.append_right [r])

theorem ExecInv_foldl (h : Host) (events : List Event) (clock : Int) (w : World)
    (hw : ExecInv clock w) (hc : clockMonotone clock events) :
    ∃ c, ExecInv c (events.foldl (step h) w) := by
  induction events generalizing clock w with
  | nil => exact ⟨clock, hw⟩
  | cons e rest ih =>
    have hc1 : clockMonotone clock [e] := by
      cases e with
      | tick now => exact ⟨hc.1, trivial⟩
      | command k1 k2 now0 now service message => exact ⟨hc.1, hc.2.1, trivial⟩
    obtain ⟨c, _, hi, hrest⟩ := ExecInv_step h clock w hw e hc1
    rw [List.foldl_cons]
    exact ih c (step h w e) hi (hrest rest hc)

theorem ExecInv_execute (h : Host) (clock : Int) (events : List Event)
    (hc : clockMonotone clock events) : ∃ c, ExecInv c (execute h events) :=
  ExecInv_foldl h events clock _
    ⟨List.Pairwise.nil, List.Pairwise.nil, by simp, by simp, by simp [NewReminderPlugin]⟩ hc

/-- The sample execution dispatches both reminders, the later command first. -/
theorem sampleEvents_dispatched :
    (execute sampleHost sampleEvents).dispatched.map (fun r => (r.Time, r.Message)) =
      [(5 * Second + 1, "feed the baby".toList), (10 * Second, "walk the dog".toList)] ∧
    (execute sampleHost sampleEvents).plugin.Reminders = [] := by
  decide

/-- In an execution of whole handler calls under a non-decreasing clock the
reminders are dispatched in non-decreasing `Time` order, and the dispatched
reminders together with the ones still in the store are, up to order, the
reminders `AddReminder` accepted. -/
theorem sequential_dispatch_order (h : Host) (clock : Int) (events : List Event)
    (hc : clockMonotone clock events) :
    (execute h events).dispatched.Pairwise (fun a b => a.Time ≤ b.Time) ∧
    ((execute h events).dispatched ++ (execute h events).plugin.Reminders).Perm
      (execute h events).accepted ∧
    ∀ r, (execute h events).dispatched.count r ≤ (execute h events).accepted.count r := by
  obtain ⟨c, hi⟩ := ExecInv_execute h clock events hc
  refine ⟨hi.ordered, hi.perm, fun r => ?_⟩
  rw [← hi.perm.count_eq r, List.count_append]
  omega

/-! ## Overlapping executions -/

theorem advance_pass_cases (h : Host) (w : Shared) (now : Int) :
    ((RunIter h.humanize now w.plugin).fired = none ∧
      advance h w (Move.pass now) = w) ∨
    ∃ r rest, w.plugin.Reminders = r :: rest ∧ r.Time < now ∧
      (RunIter h.humanize now w.plugin).fired = some r ∧
      advance h w (Move.pass now) =
        { plugin := ⟨rest⟩, waiting := w.waiting, dispatched := w.dispatched ++ [r],
          accepted := w.accepted } := by
  rcases RunIter_cases h.humanize now w.plugin with ⟨r, rest, hp, hlt, e⟩ | ⟨_, e⟩
  · right; exact ⟨r, rest, hp, hlt, by rw [e], by simp [advance, e]⟩
  · left; exact ⟨by rw [e], by simp [advance, e]⟩

theorem advance_validate_cases (h : Host) (w : Shared) (k1 k2 : Nat) (now0 now : Int)
    (service : Service) (message : Message) :
    advance h w (Move.validate k1 k2 now0 now service message) = w ∨
    ∃ r, now ≤ r.Time ∧
      advance h w (Move.validate k1 k2 now0 now service message) =
        { w with waiting := w.waiting ++ [r] } := by
  cases hv : validate h k1 k2 now0 now service message with
  | ignored => left; simp [advance, hv]
  | rejected reply => left; simp [advance, hv]
  | built r =>
    right
    exact ⟨r, (validate_built_time h k1 k2 now0 now service message r hv).1,
      by simp [advance, hv]⟩

theorem advance_add_cases (h : Host) (w : Shared) (i : Nat) :
    advance h w (Move.add i) = w ∨
    (∃ r, w.waiting[i]? = some r ∧
      advance h w (Move.add i) = { w with waiting := w.waiting.eraseIdx i }) ∨
    ∃ r, w.waiting[i]? = some r ∧ quotaLoop r.Requester w.plugin.Reminders 0 = false ∧
      advance h w (Move.add i) =
        { plugin := (AddReminder w.plugin r).2, waiting := w.waiting.eraseIdx i,
          dispatched := w.dispatched, accepted := w.accepted ++ [r] } := by
  cases hg : w.waiting[i]? with
  | none => left; simp [advance, hg]
  | some r =>
    right
    by_cases hq : quotaLoop r.Requester w.plugin.Reminders 0 = true
    · left
      have e := AddReminder_of_fail w.plugin r hq
      exact ⟨r, rfl, by simp [advance, hg, e]⟩
    · right
      have hq2 : quotaLoop r.Requester w.plugin.Reminders 0 = false := by simpa using hq
      have e := AddReminder_of_pass w.plugin r hq2
      exact ⟨r, rfl, hq2, by simp [advance, hg, e]⟩

theorem perm_insert (r : Reminder) (ds rs acc : List Reminder)
    (hp : (ds ++ rs).Perm acc) :
    (ds ++ (List.takeWhile (notAfter r.Time) rs ++ r :: List.dropWhile (notAfter r.Time) rs)).Perm
      (acc ++ [r]) := by
  have h1 : (ds ++ (List.takeWhile (notAfter r.Time) rs ++
      r :: List.dropWhile (notAfter r.Time) rs)).Perm ((ds ++ rs) ++ [r]) := by
    conv_rhs => rw [← List.takeWhile_append_dropWhile (notAfter r.Time) rs]
    rw [List.append_assoc]
    apply List.Perm.append_left
    rw [List.append_assoc]
    apply List.Perm.append_left
    exact (List.perm_append_singleton r _).symm
  exact h1.trans (hp.append_right [r])

theorem SharedInv_advance (h : Host) (w : Shared) (hw : SharedInv w) (m : Move) :
    SharedInv (advance h w m) := by
  cases m with
  | validate k1 k2 now0 now service message =>
    rcases advance_validate_cases h w k1 k2 now0 now service message with e | ⟨r, _, e⟩
    · rw [e]; exact hw
    · rw [e]; exact ⟨hw.sorted, hw.perm⟩
  | add i =>
    rcases advance_add_cases h w i with e | ⟨r, _, e⟩ | ⟨r, _, hq, e⟩
    · rw [e]; exact hw
    · rw [e]; exact ⟨hw.sorted, hw.perm⟩
    · rw [e]
      refine ⟨sorted_AddReminder _ _ hw.sorted, ?_⟩
      have ea := AddReminder_of_pass w.plugin r hq
      simp only [ea]
      exact perm_insert r _ _ _ hw.perm
  | pass now =>
    rcases advance_pass_cases h w now with ⟨_, e⟩ | ⟨r, rest, hp, _, _, e⟩
    · rw [e]; exact hw
    · rw [e]
      have hs := hw.sorted
      unfold SortedByTime at hs
      rw [hp] at hs
      refine ⟨(List.pairwise_cons.mp hs).2, ?_⟩
      show ((w.dispatched ++ [r]) ++ rest).Perm w.accepted
      have := hw.perm
      rw [hp] at this
      simpa using this

theorem SharedInv_foldl (h : Host) (moves : List Move) (w : Shared) (hw : SharedInv w) :
    SharedInv (moves.foldl (advance h) w) := by
  induction moves generalizing w with
  | nil => exact hw
  | cons m rest ih =>
    rw [List.foldl_cons]
    exact ih _ (SharedInv_advance h w hw m)

theorem SharedInv_interleave (h : Host) (moves : List Move) :
    SharedInv (interleave h moves) :=
  SharedInv_foldl h moves _ ⟨List.Pairwise.nil, by simp [NewReminderPlugin]⟩

theorem OrderInv_foldl (h : Host) (moves : List Move) (clock : Int) (w : Shared)
    (hs : SharedInv w) (hw : OrderInv clock w) (hc : clockOrdered clock moves)
    (hu : undisturbed h w moves) :
    (moves.foldl (advance h) w).dispatched.Pairwise (fun a b => a.Time ≤ b.Time) := by
  induction moves generalizing clock w with
  | nil => exact hw.ordered
  | cons m rest ih =>
    rw [List.foldl_cons]
    have hs1 := SharedInv_advance h w hs m
    cases m with
    | validate k1 k2 now0 now service message =>
      obtain ⟨_, hcn, hcr⟩ := hc
      refine ih now _ hs1 ?_ hcr hu
      rcases advance_validate_cases h w k1 k2 now0 now service message with e | ⟨r, hr, e⟩
      · rw [e]
        exact ⟨hw.ordered, hw.beforeStore, hw.beforeWaiting,
          fun d hd => lt_of_lt_of_le (hw.past d hd) hcn⟩
      · rw [e]
        refine ⟨hw.ordered, hw.beforeStore, ?_, fun d hd => lt_of_lt_of_le (hw.past d hd) hcn⟩
        intro d hd s hsm
        rcases List.mem_append.mp hsm with hsm | hsm
        · exact hw.beforeWaiting d hd s hsm
        · rw [List.mem_singleton] at hsm
          subst hsm
          have := hw.past d hd
          omega
    | add i =>
      refine ih clock _ hs1 ?_ hc hu
      rcases advance_add_cases h w i with e | ⟨r, _, e⟩ | ⟨r, hg, hq, e⟩
      · rw [e]; exact hw
      · rw [e]
        exact ⟨hw.ordered, hw.beforeStore,
          fun d hd s hsm => hw.beforeWaiting d hd s ((List.eraseIdx_sublist _ _).subset hsm),
          hw.past⟩
      · rw [e]
        have ea := AddReminder_of_pass w.plugin r hq
        have hrm : r ∈ w.waiting := List.getElem?_mem hg
        refine ⟨hw.ordered, ?_,
          fun d hd s hsm => hw.beforeWaiting d hd s ((List.eraseIdx_sublist _ _).subset hsm),
          hw.past⟩
        intro d hd s hsm
        simp only [ea] at hsm
        rcases List.mem_append.mp hsm with hsm | hsm
        · exact hw.beforeStore d hd s (List.takeWhile_sublist _ |>.subset hsm)
        · rcases List.mem_cons.mp hsm with rfl | hsm
          · exact hw.beforeWaiting d hd _ hrm
          · exact hw.beforeStore d hd s (List.dropWhile_sublist _ |>.subset hsm)
    | pass now =>
      obtain ⟨hcn, hcr⟩ := hc
      obtain ⟨hquiet, hur⟩ := hu
      refine ih now _ hs1 ?_ hcr hur
      rcases advance_pass_cases h w now with ⟨_, e⟩ | ⟨r, rest1, hp, hlt, hf, e⟩
      · rw [e]
        exact ⟨hw.ordered, hw.beforeStore, hw.beforeWaiting,
          fun d hd => lt_of_lt_of_le (hw.past d hd) hcn⟩
      · have hwait : w.waiting = [] := by
          rcases hquiet with hq | hq
          · rw [hf] at hq; cases hq
          · exact hq
        rw [e]
        have hsd := hs.sorted
        unfold SortedByTime at hsd
        rw [hp] at hsd
        have hs2 := List.pairwise_cons.mp hsd
        refine ⟨?_, ?_, ?_, ?_⟩
        · show (w.dispatched ++ [r]).Pairwise _
          rw [List.pairwise_append]
          refine ⟨hw.ordered, List.pairwise_singleton _ _, ?_⟩
          intro a ha b hb
          rw [List.mem_singleton] at hb
          subst hb
          exact hw.beforeStore a ha b (by rw [hp]; exact List.mem_cons_self _ _)
        · intro d hd s hsm
          rcases List.mem_append.mp hd with hd | hd
          · exact hw.beforeStore d hd s (by rw [hp]; exact List.mem_cons_of_mem _ hsm)
          · rw [List.mem_singleton] at hd
            subst hd
            exact hs2.1 s hsm
        · intro d _ s hsm
          rw [hwait] at hsm
          cases hsm
        · intro d hd
          rcases List.mem_append.mp hd with hd | hd
          · have := hw.past d hd
            omega
          · rw [List.mem_singleton] at hd
            subst hd
            exact hlt

/-- A pass dispatches the first reminder of a sorted store, so none in the
store has an earlier `Time`. -/
theorem fired_least (humanize : Int → GoString) (now : Int) (p : ReminderPlugin)
    (hs : SortedByTime p.Reminders) (d : Reminder)
    (hd : (RunIter humanize now p).fired = some d) :
    ∀ s ∈ p.Reminders, d.Time ≤ s.Time := by
  rcases RunIter_cases humanize now p with ⟨r, rest, hp, _, e⟩ | ⟨_, e⟩
  · rw [e] at hd
    injection hd with hd
    subst hd
    unfold SortedByTime at hs
    rw [hp] at hs ⊢
    intro s hsm
    rcases List.mem_cons.mp hsm with rfl | hsm
    · exact le_refl _
    · exact (List.pairwise_cons.mp hs).1 s hsm
  · rw [e] at hd
    cases hd

/-- What the overlapping execution `lateMoves` dispatches, in order. -/
theorem lateMoves_dispatched :
    (interleave sampleHost lateMoves).dispatched.map (fun r => (r.Time, r.Message)) =
      [(3 * Second, "walk the dog".toList), (2 * Second, "feed the baby".toList)] ∧
    (interleave sampleHost lateMoves).accepted.length = 2 ∧
    (interleave sampleHost lateMoves).plugin.Reminders = [] := by
  decide

/-- C7, as stated, fails: the clock of `lateMoves` never goes back and both
commands are accepted, but a pass runs between the clock reads of the second
handler and its `AddReminder`, and the reminder with `Time` 3 seconds is
dispatched before the one with `Time` 2 seconds. -/
theorem C7_counterexample :
    clockOrdered 0 lateMoves ∧
    (interleave sampleHost lateMoves).accepted.map (fun r => r.Time) =
      [3 * Second, 2 * Second] ∧
    (interleave sampleHost lateMoves).dispatched.map (fun r => r.Time) =
      [3 * Second, 2 * Second] ∧
    ¬ (interleave sampleHost lateMoves).dispatched.Pairwise (fun a b => a.Time ≤ b.Time) := by
  refine ⟨by simp [clockOrdered, lateMoves, Second], by decide, by decide, by decide⟩

/-- C7, amended: in every execution that starts from the empty store and
interleaves the steps of handler calls (clock reads and validation, then
`AddReminder`) with scheduler passes under a non-decreasing clock, each stored
reminder is dispatched at most once (the dispatched reminders together with the
ones still in the store are, up to order, the reminders `AddReminder` accepted,
so none is dispatched more often than it was accepted); every pass that
dispatches takes a reminder whose `Time` is least among the stored ones; and
when no reminder is dispatched while a handler is between its clock reads and
its `AddReminder`, the reminders are dispatched in non-decreasing `Time`
order. -/
theorem C7_dispatch_order (h : Host) (clock : Int) (moves : List Move)
    (hc : clockOrdered clock moves) :
    ((interleave h moves).dispatched ++ (interleave h moves).plugin.Reminders).Perm
      (interleave h moves).accepted ∧
    (∀ r, (interleave h moves).dispatched.count r ≤ (interleave h moves).accepted.count r) ∧
    (∀ pre now post d, moves = pre ++ Move.pass now :: post →
      (RunIter h.humanize now (interleave h pre).plugin).fired = some d →
      ∀ s ∈ (interleave h pre).plugin.Reminders, d.Time ≤ s.Time) ∧
    (undisturbed h ⟨NewReminderPlugin, [], [], []⟩ moves →
      (interleave h moves).dispatched.Pairwise (fun a b => a.Time ≤ b.Time)) := by
  have hi := SharedInv_interleave h moves
  refine ⟨hi.perm, fun r => ?_, ?_, fun hu => ?_⟩
  · rw [← hi.perm.count_eq r, List.count_append]
    omega
  · intro pre now post d _ hd
    exact fired_least h.humanize now _ (SharedInv_interleave h pre).sorted d hd
  · exact OrderInv_foldl h moves clock _
      ⟨List.Pairwise.nil, by simp [NewReminderPlugin]⟩
      ⟨List.Pairwise.nil, by simp, by simp, by simp⟩ hc hu

theorem calmMoves_clock : clockOrdered 0 calmMoves := by
  simp [clockOrdered, calmMoves, Second]

theorem calmMoves_undisturbed :
    undisturbed sampleHost ⟨NewReminderPlugin, [], [], []⟩ calmMoves := by
  unfold calmMoves
  simp only [undisturbed]
  decide

theorem C7_dispatch_order_witness :
    clockOrdered 0 calmMoves ∧
    undisturbed sampleHost ⟨NewReminderPlugin, [], [], []⟩ calmMoves ∧
    (interleave sampleHost calmMoves).dispatched.map (fun r => r.Time)
      = [2 * Second, 3 * Second] ∧
    ((interleave sampleHost calmMoves).dispatched
        ++ (interleave sampleHost calmMoves).plugin.Reminders).Perm
      (interleave sampleHost calmMoves).accepted ∧
    (interleave sampleHost calmMoves).dispatched.Pairwise (fun a b => a.Time ≤ b.Time) :=
  ⟨calmMoves_clock, calmMoves_undisturbed, by decide,
   (C7_dispatch_order sampleHost 0 calmMoves calmMoves_clock).1,
   (C7_dispatch_order sampleHost 0 calmMoves calmMoves_clock).2.2.2 calmMoves_undisturbed⟩

theorem Agree_expand (h : Host) (w : Shared) (v : World) (hr : Agree w v) (e : Event) :
    Agree ((expand e).foldl (advance h) w) (step h v e) := by
  obtain ⟨hp, hw, hd, ha⟩ := hr
  cases e with
  | tick now =>
    simp only [expand, List.foldl_cons, List.foldl_nil, advance, step]
    exact ⟨by rw [hp], hw, by rw [hp, hd], ha⟩
  | command k1 k2 now0 now service message =>
    simp only [expand, List.foldl_cons, List.foldl_nil]
    cases hv : validate h k1 k2 now0 now service message with
    | ignored =>
      simp only [advance, step, messageFunc, hv, hw, List.getElem?_nil]
      exact ⟨hp, hw, hd, by simp [ha]⟩
    | rejected reply =>
      simp only [advance, step, messageFunc, hv, hw, List.getElem?_nil]
      exact ⟨hp, hw, hd, by simp [ha]⟩
    | built r =>
      simp only [advance, step, messageFunc, hv, hw, hp, hd, ha, List.nil_append,
        List.getElem?_cons_zero, List.eraseIdx_cons_zero]
      rcases hadd : AddReminder v.plugin r with ⟨err, p1⟩
      cases err with
      | none => exact ⟨by simp, by simp, by simp, by simp⟩
      | some x => exact ⟨by simp, by simp, by simp, by simp⟩

/-- The executions of whole handler calls are the overlapping executions in
which each handler adds its reminder right after its clock reads. -/
theorem interleave_expand (h : Host) (events : List Event) :
    Agree (interleave h (events.flatMap expand)) (execute h events) := by
  have key : ∀ (events : List Event) (w : Shared) (v : World), Agree w v →
      Agree ((events.flatMap expand).foldl (advance h) w) (events.foldl (step h) v) := by
    intro events
    induction events with
    | nil => intro w v hr; exact hr
    | cons e rest ih =>
      intro w v hr
      rw [List.flatMap_cons, List.foldl_append, List.foldl_cons]
      exact ih _ _ (Agree_expand h w v hr e)
  exact key events _ _ ⟨rfl, rfl, rfl, rfl⟩

/-! ## parseTime on the fixed keywords -/

/-- C8: for every clock value `now`, `parseTime` succeeds on the fixed keywords:
`tomorrow` gives `now` + 24 hours, `next week` gives `now` + 7 days,
`next month` gives `now` + 28 days and `next year` gives `now` + 365 days. -/
theorem C8_keywords (uni : Char → Char) (now : Int) :
    parseTime uni now "tomorrow".toList = Except.ok (now + 24 * Hour) ∧
    parseTime uni now "next week".toList = Except.ok (now + 7 * (24 * Hour)) ∧
    parseTime uni now "next month".toList = Except.ok (now + 28 * (24 * Hour)) ∧
    parseTime uni now "next year".toList = Except.ok (now + 365 * (24 * Hour)) :=
  ⟨rfl, rfl, rfl, rfl⟩

/-! ## Library functions -/

theorem Split_ne_nil (s : GoString) (sep : Char) : Split s sep ≠ [] := by
  cases s with
  | nil => simp [Split]
  | cons c cs =>
    unfold Split
    split
    · simp
    · split <;> simp

theorem Split_eq_single (s b : GoString) (sep : Char) :
    Split s sep = [b] ↔ s = b ∧ sep ∉ b := by
  induction s generalizing b with
  | nil =>
    simp only [Split]
    constructor
    · intro h; injection h with h _; subst h; simp
    · rintro ⟨h, _⟩; subst h; rfl
  | cons c cs ih =>
    unfold Split
    by_cases hc : c = sep
    · simp only [hc, if_true]
      constructor
      · intro h
        injection h with _ h2
        exact absurd h2 (Split_ne_nil cs sep)
      · rintro ⟨h, hn⟩
        subst h
        simp at hn
    · simp only [hc, if_false]
      cases hs : Split cs sep with
      | nil => exact absurd hs (Split_ne_nil cs sep)
      | cons w ws =>
        simp only
        constructor
        · intro h
          injection h with h1 h2
          subst h1 h2
          have := (ih w).mp hs
          refine ⟨by rw [this.1], ?_⟩
          simp only [List.mem_cons, not_or]
          exact ⟨fun e => hc e.symm, this.2⟩
        · rintro ⟨h, hn⟩
          subst h
          simp only [List.mem_cons, not_or] at hn
          have := (ih cs).mpr ⟨rfl, hn.2⟩
          rw [hs] at this
          injection this with h1 h2
          subst h1 h2
          rfl

theorem Split_eq_pair (s a b : GoString) (sep : Char) :
    Split s sep = [a, b] ↔ s = a ++ sep :: b ∧ sep ∉ a ∧ sep ∉ b := by
  induction s generalizing a with
  | nil =>
    simp only [Split]
    constructor
    · intro h; injection h with _ h; cases h
    · rintro ⟨h, _⟩
      cases a <;> simp at h
  | cons c cs ih =>
    unfold Split
    by_cases hc : c = sep
    · simp only [hc, if_true]
      constructor
      · intro h
        injection h with h1 h2
        subst h1
        have := (Split_eq_single cs b sep).mp h2
        exact ⟨by simp [this.1], by simp, this.2⟩
      · rintro ⟨h, ha, hb⟩
        cases a with
        | nil =>
          simp only [List.nil_append, List.cons.injEq, true_and] at h
          rw [(Split_eq_single cs b sep).mpr ⟨h, hb⟩]
        | cons x a =>
          simp only [List.cons_append, List.cons.injEq] at h
          simp only [List.mem_cons, not_or] at ha
          exact absurd h.1 ha.1
    · simp only [hc, if_false]
      cases hs : Split cs sep with
      | nil => exact absurd hs (Split_ne_nil cs sep)
      | cons w ws =>
        simp only
        constructor
        · intro h
          injection h with h1 h2
          subst h1 h2
          have := (ih w).mp hs
          refine ⟨by rw [this.1]; rfl, ?_, this.2.2⟩
          simp only [List.mem_cons, not_or]
          exact ⟨fun e => hc e.symm, this.2.1⟩
        · rintro ⟨h, ha, hb⟩
          cases a with
          | nil =>
            simp only [List.nil_append, List.cons.injEq] at h
            exact absurd h.1 hc
          | cons x a =>
            simp only [List.cons_append, List.cons.injEq] at h
            simp only [List.mem_cons, not_or] at ha
            have := (ih a).mpr ⟨h.2, ha.2, hb⟩
            rw [hs] at this
            injection this with h1 h2
            subst h1 h2
            rw [h.1]

theorem HasPrefix_iff (s pre : GoString) : HasPrefix s pre = true ↔ pre <+: s := by
  induction pre generalizing s with
  | nil => simp [HasPrefix]
  | cons a pre ih =>
    cases s with
    | nil => simp [HasPrefix]
    | cons b s =>
      simp only [HasPrefix, Bool.and_eq_true, decide_eq_true_eq, ih, List.cons_prefix_cons]

theorem isDigit_iff (c : Char) : c.isDigit = true ↔ 48 ≤ c.toNat ∧ c.toNat ≤ 57 := by
  simp [Char.isDigit, Char.toNat, UInt32.le_def, Fin.le_def]
  rfl

/-- The value of a run of digits, most significant first. -/
theorem readDigits_of_digits (ds : GoString) (acc : Nat) (h : ds.all Char.isDigit = true) :
    readDigits ds acc = some (acc * 10 ^ ds.length
      + Nat.ofDigits 10 (ds.reverse.map (fun c => c.toNat - '0'.toNat))) := by
  induction ds generalizing acc with
  | nil => simp [readDigits]
  | cons c cs ih =>
    simp only [List.all_cons, Bool.and_eq_true] at h
    have hc := (isDigit_iff c).mp h.1
    simp only [readDigits, hc, and_self, if_true, ih _ h.2, List.reverse_cons, List.map_append,
      List.map_cons, List.map_nil, Nat.ofDigits_append, Nat.ofDigits_singleton, List.length_map,
      List.length_reverse, List.length_cons, Option.some.injEq]
    have h0 : '0'.toNat = 48 := rfl
    rw [h0]
    ring

theorem readDigits_of_not_digits (ds : GoString) (acc : Nat)
    (h : ds.all Char.isDigit = false) : readDigits ds acc = none := by
  induction ds generalizing acc with
  | nil => simp at h
  | cons c cs ih =>
    by_cases hc : c.isDigit = true
    · have hc2 := (isDigit_iff c).mp hc
      simp only [List.all_cons, hc, Bool.true_and] at h
      simp only [readDigits, hc2, and_self, if_true, ih _ h]
    · have hc2 : ¬ (48 ≤ c.toNat ∧ c.toNat ≤ 57) := fun e => hc ((isDigit_iff c).mpr e)
      simp only [readDigits, hc2, if_false]

theorem Atoi_eq_some_iff (s : GoString) (v : Int) :
    Atoi s = some v ↔ isIntegerText s = true ∧ integerValue s = v ∧ inInt64 v := by
  cases s with
  | nil => simp [Atoi, isIntegerText, digitsOf]
  | cons c t =>
    have hd : digitsOf (c :: t) = if c = '-' ∨ c = '+' then t else c :: t := by
      simp only [digitsOf]
      by_cases h1 : c = '-' <;> by_cases h2 : c = '+' <;> simp [h1, h2]
    unfold Atoi isIntegerText integerValue inInt64
    simp only [hd, List.head?_cons, Option.some.injEq]
    generalize (if c = '-' ∨ c = '+' then t else c :: t) = ds
    by_cases he : ds = []
    · simp [he]
    · by_cases ha : ds.all Char.isDigit = true
      · rw [readDigits_of_digits ds 0 ha]
        have hne : (!ds.isEmpty) = true := by
          cases ds with
          | nil => exact absurd rfl he
          | cons _ _ => rfl
        simp only [he, if_false, ha, hne, Bool.and_self, true_and, Nat.zero_mul, Nat.zero_add]
        generalize (if c = '-' then
          -((Nat.ofDigits 10 (List.map (fun c => c.toNat - '0'.toNat) ds.reverse) : Nat) : Int)
          else ((Nat.ofDigits 10 (List.map (fun c => c.toNat - '0'.toNat) ds.reverse) : Nat) : Int))
          = w
        by_cases hr : -2 ^ 63 ≤ w ∧ w < 2 ^ 63
        · rw [if_pos hr]
          constructor
          · intro h
            injection h with h
            subst h
            exact ⟨rfl, hr⟩
          · rintro ⟨h1, _⟩
            rw [h1]
        · rw [if_neg hr]
          constructor
          · intro h; cases h
          · rintro ⟨h1, h2⟩
            subst h1
            exact absurd h2 hr
      · have ha2 : ds.all Char.isDigit = false := by simpa using ha
        rw [readDigits_of_not_digits ds 0 ha2]
        simp [he, ha2]

/-! ## The forms parseTime accepts -/

theorem not_mem_of_all_isDigit (ds : GoString) (h : ds.all Char.isDigit = true) : ' ' ∉ ds := by
  intro hm
  have := List.all_eq_true.mp h ' ' hm
  exact absurd this (by decide)

theorem isIntegerText_no_space (num : GoString) (h : isIntegerText num = true) : ' ' ∉ num := by
  unfold isIntegerText at h
  simp only [Bool.and_eq_true] at h
  cases num with
  | nil => simp
  | cons c t =>
    simp only [digitsOf] at h
    by_cases hc : c = '+' ∨ c = '-'
    · rw [if_pos hc] at h
      have := not_mem_of_all_isDigit t h.2
      simp only [List.mem_cons, not_or]
      refine ⟨?_, this⟩
      rcases hc with hc | hc <;> subst hc <;> decide
    · rw [if_neg hc] at h
      exact not_mem_of_all_isDigit _ h.2

/-- What the recognised forms are for a text that splits in two at its only
space. -/
theorem RecognisedInt64_pair (n a b : GoString) (hne : n ≠ "tomorrow".toList)
    (hs : Split n ' ' = [a, b]) :
    RecognisedInt64 n ↔
      (a = "next".toList ∧ (b = "week".toList ∨ b = "month".toList ∨ b = "year".toList)) ∨
      (isIntegerText a = true ∧ inInt64 (integerValue a) ∧
        ("second".toList <+: b ∨ "minute".toList <+: b ∨ "hour".toList <+: b)) := by
  have hn := (Split_eq_pair n a b ' ').mp hs
  constructor
  · rintro (h | h | h | h | ⟨num, word, h, hi, hr, hw, hp⟩)
    · exact absurd h hne
    · rw [h] at hs
      have e : [a, b] = ["next".toList, "week".toList] := hs.symm.trans rfl
      injection e with e1 e2
      injection e2 with e2 _
      exact Or.inl ⟨e1, Or.inl e2⟩
    · rw [h] at hs
      have e : [a, b] = ["next".toList, "month".toList] := hs.symm.trans rfl
      injection e with e1 e2
      injection e2 with e2 _
      exact Or.inl ⟨e1, Or.inr (Or.inl e2)⟩
    · rw [h] at hs
      have e : [a, b] = ["next".toList, "year".toList] := hs.symm.trans rfl
      injection e with e1 e2
      injection e2 with e2 _
      exact Or.inl ⟨e1, Or.inr (Or.inr e2)⟩
    · have := (Split_eq_pair n num word ' ').mpr ⟨h, isIntegerText_no_space num hi, hw⟩
      rw [hs] at this
      injection this with e1 e2
      injection e2 with e2 _
      subst e1 e2
      exact Or.inr ⟨hi, hr, hp⟩
  · rintro (⟨ha, hb | hb | hb⟩ | ⟨hi, hr, hp⟩)
    · right; left; rw [hn.1, ha, hb]; rfl
    · right; right; left; rw [hn.1, ha, hb]; rfl
    · right; right; right; left; rw [hn.1, ha, hb]; rfl
    · right; right; right; right
      exact ⟨a, b, hn.1, hi, hr, hn.2.2, hp⟩

theorem RecognisedInt64_split (n : GoString) (h : RecognisedInt64 n) :
    n = "tomorrow".toList ∨ ∃ a b, Split n ' ' = [a, b] := by
  rcases h with h | h | h | h | ⟨num, word, h, hi, _, hw, _⟩
  · exact Or.inl h
  · right; exact ⟨_, _, by rw [h]; rfl⟩
  · right; exact ⟨_, _, by rw [h]; rfl⟩
  · right; exact ⟨_, _, by rw [h]; rfl⟩
  · right
    exact ⟨num, word, (Split_eq_pair n num word ' ').mpr ⟨h, isIntegerText_no_space num hi, hw⟩⟩

theorem not_integerText_next : isIntegerText "next".toList = false := by decide

/-- The text `parseTime` works on: the input trimmed, then lower-cased. -/
theorem parseTime_ok_iff (uni : Char → Char) (now : Int) (str : GoString) :
    (∃ t, parseTime uni now str = Except.ok t) ↔ RecognisedInt64 (ToLower uni (Trim str)) := by
  unfold parseTime
  simp only []
  generalize ToLower uni (Trim str) = n
  by_cases h1 : n = "tomorrow".toList
  · rw [if_pos h1]
    exact ⟨fun _ => Or.inl h1, fun _ => ⟨_, rfl⟩⟩
  · rw [if_neg h1]
    rcases hs : Split n ' ' with _ | ⟨a, _ | ⟨b, _ | ⟨c, l⟩⟩⟩
    · exact absurd hs (Split_ne_nil n ' ')
    · simp only []
      constructor
      · rintro ⟨t, ht⟩; cases ht
      · intro hr
        rcases RecognisedInt64_split n hr with e | ⟨x, y, e⟩
        · exact absurd e h1
        · rw [hs] at e; simp at e
    · simp only []
      rw [RecognisedInt64_pair n a b h1 hs]
      by_cases ha : a = "next".toList
      · rw [if_pos ha]
        have hni : ¬ isIntegerText a = true := by rw [ha, not_integerText_next]; simp
        by_cases hw : b = "week".toList
        · rw [if_pos hw]; exact ⟨fun _ => Or.inl ⟨ha, Or.inl hw⟩, fun _ => ⟨_, rfl⟩⟩
        · rw [if_neg hw]
          by_cases hm : b = "month".toList
          · rw [if_pos hm]; exact ⟨fun _ => Or.inl ⟨ha, Or.inr (Or.inl hm)⟩, fun _ => ⟨_, rfl⟩⟩
          · rw [if_neg hm]
            by_cases hy : b = "year".toList
            · rw [if_pos hy]
              exact ⟨fun _ => Or.inl ⟨ha, Or.inr (Or.inr hy)⟩, fun _ => ⟨_, rfl⟩⟩
            · rw [if_neg hy]
              constructor
              · rintro ⟨t, ht⟩; cases ht
              · rintro (⟨_, hb | hb | hb⟩ | ⟨hi, _⟩)
                · exact absurd hb hw
                · exact absurd hb hm
                · exact absurd hb hy
                · exact absurd hi hni
      · rw [if_neg ha]
        cases hat : Atoi a with
        | none =>
          simp only []
          constructor
          · rintro ⟨t, ht⟩; cases ht
          · rintro (⟨e, _⟩ | ⟨hi, hr, _⟩)
            · exact absurd e ha
            · have := (Atoi_eq_some_iff a (integerValue a)).mpr ⟨hi, rfl, hr⟩
              rw [hat] at this; cases this
        | some i =>
          simp only []
          obtain ⟨hi, hv, hr⟩ := (Atoi_eq_some_iff a i).mp hat
          subst hv
          by_cases p1 : HasPrefix b "second".toList = true
          · rw [if_pos p1]
            exact ⟨fun _ => Or.inr ⟨hi, hr, Or.inl ((HasPrefix_iff _ _).mp p1)⟩, fun _ => ⟨_, rfl⟩⟩
          · rw [if_neg p1]
            by_cases p2 : HasPrefix b "minute".toList = true
            · rw [if_pos p2]
              exact ⟨fun _ => Or.inr ⟨hi, hr, Or.inr (Or.inl ((HasPrefix_iff _ _).mp p2))⟩,
                fun _ => ⟨_, rfl⟩⟩
            · rw [if_neg p2]
              by_cases p3 : HasPrefix b "hour".toList = true
              · rw [if_pos p3]
                exact ⟨fun _ => Or.inr ⟨hi, hr, Or.inr (Or.inr ((HasPrefix_iff _ _).mp p3))⟩,
                  fun _ => ⟨_, rfl⟩⟩
              · rw [if_neg p3]
                constructor
                · rintro ⟨t, ht⟩; cases ht
                · rintro (⟨e, _⟩ | ⟨_, _, hp | hp | hp⟩)
                  · exact absurd e ha
                  · exact absurd ((HasPrefix_iff _ _).mpr hp) p1
                  · exact absurd ((HasPrefix_iff _ _).mpr hp) p2
                  · exact absurd ((HasPrefix_iff _ _).mpr hp) p3
    · simp only []
      constructor
      · rintro ⟨t, ht⟩; cases ht
      · intro hr
        rcases RecognisedInt64_split n hr with e | ⟨x, y, e⟩
        · exact absurd e h1
        · rw [hs] at e; simp at e

/-! ## A number and a unit -/

theorem dropWhile_eq_self_of_head {α : Type} (f : α → Bool) (l : List α)
    (h : ∀ c, l.head? = some c → f c = false) : l.dropWhile f = l := by
  cases l with
  | nil => rfl
  | cons a l => simp [List.dropWhile_cons, h a rfl]

/-- Trimming leaves a text that neither starts nor ends with a space as it is. -/
theorem Trim_eq_self (s : GoString) (h1 : ∀ c, s.head? = some c → c ≠ ' ')
    (h2 : ∀ c, s.getLast? = some c → c ≠ ' ') : Trim s = s := by
  unfold Trim
  rw [dropWhile_eq_self_of_head _ s (fun c hc => by simpa using h1 c hc),
    dropWhile_eq_self_of_head _ s.reverse
      (fun c hc => by rw [List.head?_reverse] at hc; simpa using h2 c hc),
    List.reverse_reverse]

theorem wrap64_of_inInt64 (x : Int) (h : inInt64 x) : wrap64 x = x := by
  unfold wrap64
  unfold inInt64 at h
  rw [Int.emod_eq_of_lt (by omega) (by omega)]
  omega

theorem toLowerRune_of_not_upper (uni : Char → Char) (c : Char) (h1 : c.toNat < 65) :
    toLowerRune uni c = c := by
  unfold toLowerRune
  rw [if_pos (by omega), if_neg (by omega)]

theorem ToLower_integerText (uni : Char → Char) (num : GoString)
    (h : isIntegerText num = true) : ToLower uni num = num := by
  have hall : ∀ ds : GoString, ds.all Char.isDigit = true → ToLower uni ds = ds := by
    intro ds hd
    unfold ToLower
    conv_rhs => rw [← List.map_id ds]
    apply List.map_congr_left
    intro c hc
    have := (isDigit_iff c).mp (List.all_eq_true.mp hd c hc)
    exact toLowerRune_of_not_upper uni c (by omega)
  unfold isIntegerText at h
  simp only [Bool.and_eq_true] at h
  cases num with
  | nil => rfl
  | cons c t =>
    simp only [digitsOf] at h
    by_cases hc : c = '+' ∨ c = '-'
    · rw [if_pos hc] at h
      have ht := hall t h.2
      unfold ToLower at ht ⊢
      rw [List.map_cons, ht]
      rcases hc with hc | hc <;> subst hc <;> rfl
    · rw [if_neg hc] at h
      exact hall _ h.2

theorem unitWords_cases (kw : GoString) (unit : Int) (hu : (kw, unit) ∈ unitWords) :
    (kw = "second".toList ∧ unit = Second) ∨ (kw = "minute".toList ∧ unit = Minute) ∨
    (kw = "hour".toList ∧ unit = Hour) := by
  simpa [unitWords] using hu

theorem unit_branch (now i : Int) (kw r : GoString) (unit : Int)
    (hu : (kw, unit) ∈ unitWords) :
    (if HasPrefix (kw ++ r) "second".toList = true then Except.ok (now + wrap64 (i * Second))
      else if HasPrefix (kw ++ r) "minute".toList = true then
        Except.ok (now + wrap64 (i * Minute))
      else if HasPrefix (kw ++ r) "hour".toList = true then Except.ok (now + wrap64 (i * Hour))
      else (Except.error ParseError.invalidString : Except ParseError Int))
    = Except.ok (now + wrap64 (i * unit)) := by
  rcases unitWords_cases kw unit hu with ⟨rfl, rfl⟩ | ⟨rfl, rfl⟩ | ⟨rfl, rfl⟩ <;>
    simp [HasPrefix]

theorem inInt64_of_mul (v : Int) (kw : GoString) (unit : Int) (hu : (kw, unit) ∈ unitWords)
    (h : inInt64 (v * unit)) : inInt64 v := by
  unfold inInt64 at *
  rcases unitWords_cases kw unit hu with ⟨_, rfl⟩ | ⟨_, rfl⟩ | ⟨_, rfl⟩ <;>
    simp only [Second, Minute, Hour] at h <;> omega

theorem unitWords_word (uni : Char → Char) (kw : GoString) (unit : Int)
    (hu : (kw, unit) ∈ unitWords) :
    ToLower uni kw = kw ∧ ' ' ∉ kw ∧ kw ≠ [] := by
  rcases unitWords_cases kw unit hu with ⟨rfl, _⟩ | ⟨rfl, _⟩ | ⟨rfl, _⟩ <;>
    exact ⟨rfl, by decide, by decide⟩

/-- C9, amended: for every integer written in decimal whose product with the
unit (1 second, 1 minute or 1 hour, in nanoseconds) is in the range of a 64-bit
signed integer, and every unit word without a space that begins with `second`,
`minute` or `hour`, `parseTime` on the text of the integer, one space and the
unit word succeeds and returns exactly `now` plus the integer times the unit. -/
theorem C9_number_unit (uni : Char → Char) (now : Int) (num kw rest : GoString)
    (unit : Int) (hu : (kw, unit) ∈ unitWords) (hnum : isIntegerText num = true)
    (hrest : ∀ c ∈ rest, c ≠ ' ' ∧ toLowerRune uni c ≠ ' ')
    (hrange : inInt64 (integerValue num * unit)) :
    parseTime uni now (num ++ ' ' :: (kw ++ rest))
      = Except.ok (now + integerValue num * unit) := by
  obtain ⟨hk1, hk2, hk3⟩ := unitWords_word uni kw unit hu
  have hns := isIntegerText_no_space num hnum
  have hnn : num ≠ [] := by
    intro e; rw [e] at hnum; exact absurd hnum (by decide)
  have hword : ' ' ∉ kw ++ rest := by
    intro hm
    rcases List.mem_append.mp hm with hm | hm
    · exact hk2 hm
    · exact (hrest ' ' hm).1 rfl
  have hT : Trim (num ++ ' ' :: (kw ++ rest)) = num ++ ' ' :: (kw ++ rest) := by
    apply Trim_eq_self
    · intro c hc
      rw [List.head?_append_of_ne_nil _ hnn] at hc
      intro e
      exact hns (e ▸ List.mem_of_mem_head? hc)
    · intro c hc e
      have hne : ' ' :: (kw ++ rest) ≠ [] := by simp
      rw [List.getLast?_append_of_ne_nil _ hne] at hc
      have hne2 : kw ++ rest ≠ [] := by simp [hk3]
      obtain ⟨x, l, hl⟩ := List.exists_cons_of_ne_nil hne2
      rw [hl, List.getLast?_cons_cons, ← hl] at hc
      exact hword (e ▸ List.mem_of_getLast?_eq_some hc)
  have hL : ToLower uni (num ++ ' ' :: (kw ++ rest))
      = num ++ ' ' :: (kw ++ ToLower uni rest) := by
    have h1 := ToLower_integerText uni num hnum
    unfold ToLower at h1 hk1 ⊢
    rw [List.map_append, List.map_cons, List.map_append, h1, hk1]
    rfl
  have hword2 : ' ' ∉ kw ++ ToLower uni rest := by
    intro hm
    rcases List.mem_append.mp hm with hm | hm
    · exact hk2 hm
    · unfold ToLower at hm
      obtain ⟨c, hc, e⟩ := List.mem_map.mp hm
      exact (hrest c hc).2 e
  have hS := (Split_eq_pair (num ++ ' ' :: (kw ++ ToLower uni rest)) num
    (kw ++ ToLower uni rest) ' ').mpr ⟨rfl, hns, hword2⟩
  have hne1 : num ++ ' ' :: (kw ++ ToLower uni rest) ≠ "tomorrow".toList := by
    intro e
    have : ' ' ∈ "tomorrow".toList := by rw [← e]; simp
    exact absurd this (by decide)
  have hne2 : num ≠ "next".toList := by
    intro e; rw [e] at hnum; exact absurd hnum (by decide)
  have hA := (Atoi_eq_some_iff num (integerValue num)).mpr
    ⟨hnum, rfl, inInt64_of_mul _ kw unit hu hrange⟩
  unfold parseTime
  simp only []
  rw [hT, hL, if_neg hne1, hS]
  simp only []
  rw [if_neg hne2, hA]
  simp only []
  rw [unit_branch now _ kw _ unit hu, wrap64_of_inInt64 _ hrange]

/-- The witness of C9 reads ten minutes. -/
theorem ten_minutes : integerValue "10".toList * Minute = 10 * (60 * 1000000000) := by decide

theorem C9_number_unit_witness :
    ("minute".toList, Minute) ∈ unitWords ∧ isIntegerText "10".toList = true ∧
    (∀ c ∈ "s".toList, c ≠ ' ' ∧ toLowerRune (fun c => c) c ≠ ' ') ∧
    inInt64 (integerValue "10".toList * Minute) ∧
    parseTime (fun c => c) 0 ("10".toList ++ ' ' :: ("minute".toList ++ "s".toList))
      = Except.ok (0 + integerValue "10".toList * Minute) :=
  ⟨by decide, by decide, by decide, by unfold inInt64; decide,
   C9_number_unit (fun c => c) 0 "10".toList "minute".toList "s".toList Minute
     (by decide) (by decide) (by decide) (by unfold inInt64; decide)⟩

/-- C9, as stated, fails: 9223372037 seconds is more than a `time.Duration`
holds, the product wraps, and `parseTime` returns an instant before `now`
instead of `now` + 9223372037 seconds. -/
theorem C9_counterexample :
    isIntegerText "9223372037".toList = true ∧
    integerValue "9223372037".toList = 9223372037 ∧
    parseTime (fun c => c) 0 ("9223372037".toList ++ ' ' :: "seconds".toList)
      = Except.ok (-9223372036709551616) ∧
    (-9223372036709551616 : Int) ≠ 0 + 9223372037 * Second := by
  refine ⟨by decide, by decide, rfl, by decide⟩

/-! ## The inputs parseTime rejects -/

theorem Recognised_of_RecognisedInt64 (n : GoString) (h : RecognisedInt64 n) : Recognised n := by
  rcases h with h | h | h | h | ⟨num, word, h, hi, _, hw, hp⟩
  · exact Or.inl h
  · exact Or.inr (Or.inl h)
  · exact Or.inr (Or.inr (Or.inl h))
  · exact Or.inr (Or.inr (Or.inr (Or.inl h)))
  · exact Or.inr (Or.inr (Or.inr (Or.inr ⟨num, word, h, hi, hw, hp⟩)))

theorem not_Recognised_next (X : GoString) (hw : X ≠ "week".toList) (hm : X ≠ "month".toList)
    (hy : X ≠ "year".toList) : ¬ Recognised ("next ".toList ++ X) := by
  rintro (h | h | h | h | ⟨num, word, h, hi, _, _⟩)
  · exact absurd h (by simp)
  · exact hw (List.append_cancel_left (h.trans (rfl : _ = "next ".toList ++ "week".toList)))
  · exact hm (List.append_cancel_left (h.trans (rfl : _ = "next ".toList ++ "month".toList)))
  · exact hy (List.append_cancel_left (h.trans (rfl : _ = "next ".toList ++ "year".toList)))
  · cases num with
    | nil => exact absurd hi (by decide)
    | cons c t =>
      have hc : 'n' = c := by
        have := congrArg List.head? h
        simpa using this
      subst hc
      simp [isIntegerText, digitsOf, Char.isDigit] at hi

/-- C10, as stated, fails: `9223372036854775808 seconds` is an integer followed
by one space and a word starting with `second`, yet `parseTime` returns the
error of `strconv.Atoi`, the integer being `2^63`. -/
theorem C10_counterexample :
    Recognised (ToLower (fun c => c) (Trim "9223372036854775808 seconds".toList)) ∧
    parseTime (fun c => c) 0 "9223372036854775808 seconds".toList
      = Except.error ParseError.atoi := by
  refine ⟨?_, rfl⟩
  right; right; right; right
  exact ⟨"9223372036854775808".toList, "seconds".toList, by decide, by decide, by decide,
    Or.inl ⟨"s".toList, rfl⟩⟩

/-- C10, amended: `parseTime` succeeds if and only if the input, trimmed and
lower-cased, is `tomorrow`; `next week`, `next month` or `next year`; or an
integer in the range of a 64-bit signed integer followed by one space and a word
starting with `second`, `minute` or `hour`. It returns an error for every input
that has none of the forms the specification lists; in particular for `banana`
and for every `next X` with `X` other than `week`, `month` or `year`. -/
theorem C10_accepted_forms (uni : Char → Char) (now : Int) (str : GoString) :
    ((∃ t, parseTime uni now str = Except.ok t) ↔ RecognisedInt64 (ToLower uni (Trim str))) ∧
    (Recognised (ToLower uni (Trim str)) ∨ ∃ e, parseTime uni now str = Except.error e) ∧
    parseTime uni now "banana".toList = Except.error ParseError.invalidString ∧
    ∀ X : GoString, X ≠ "week".toList → X ≠ "month".toList → X ≠ "year".toList →
      ToLower uni (Trim str) = "next ".toList ++ X → ∃ e, parseTime uni now str = Except.error e := by
  have hiff := parseTime_ok_iff uni now str
  have hor : Recognised (ToLower uni (Trim str)) ∨ ∃ e, parseTime uni now str = Except.error e := by
    cases hp : parseTime uni now str with
    | error e => exact Or.inr ⟨e, rfl⟩
    | ok t => exact Or.inl (Recognised_of_RecognisedInt64 _ (hiff.mp ⟨t, hp⟩))
  refine ⟨hiff, hor, rfl, ?_⟩
  intro X hw hm hy hX
  rcases hor with h | h
  · rw [hX] at h
    exact absurd h (not_Recognised_next X hw hm hy)
  · exact h

/-! ## The handler -/

/-- What the handler has checked and computed when it builds a Reminder. -/
theorem validate_built (h : Host) (k1 k2 : Nat) (now0 now : Int) (service : Service)
    (message : Message) (r : Reminder)
    (hv : validate h k1 k2 now0 now service message = Validation.built r) :
    service.IsMe = false ∧
    (h.matchesCommand service "remindme".toList message
      || h.matchesCommand service "remindchannel".toList message) = true ∧
    (h.parseCommand service message).2 ≠ [] ∧
    ∃ s0 s1 t, Split (h.parseCommand service message).1 '|' = [s0, s1] ∧
      parseTime h.uni now0 s0 = Except.ok t ∧ ¬ t < now ∧
      r = { StartTime := now
            Time := t
            Requester := if service.Name = h.DiscordServiceName then
                "<@".toList ++ message.UserID ++ ">".toList else message.UserName
            IsPrivate := h.matchesCommand service "remindme".toList message
            Target := if h.matchesCommand service "remindme".toList message = true
                then message.UserID else message.Channel
            Message := Trim ((Split message.RawMessage '|').getLastD []) } := by
  unfold validate at hv
  split at hv
  · cases hv
  · rename_i hme
    simp only at hv
    split at hv
    · rename_i hm
      split at hv
      · cases hv
      · rename_i hparts
        split at hv
        · rename_i s0 s1 hsplit
          split at hv
          · cases hv
          · rename_i t hparse
            split at hv
            · cases hv
            · rename_i hlt
              injection hv with hv
              refine ⟨by simpa using hme, hm, ?_, s0, s1, t, hsplit, hparse, hlt, hv.symm⟩
              intro e
              rw [e] at hparts
              exact hparts rfl
        · cases hv
    · cases hv

/-- A validation that ends in a reply leaves the plugin as it is. -/
theorem messageFunc_of_rejected (h : Host) (k1 k2 : Nat) (now0 now : Int) (service : Service)
    (message : Message) (p : ReminderPlugin) (reply : Outbound)
    (hv : validate h k1 k2 now0 now service message = Validation.rejected reply) :
    messageFunc h k1 k2 now0 now service message p = ([reply], p) := by
  simp [messageFunc, hv]

theorem messageFunc_of_ignored (h : Host) (k1 k2 : Nat) (now0 now : Int) (service : Service)
    (message : Message) (p : ReminderPlugin)
    (hv : validate h k1 k2 now0 now service message = Validation.ignored) :
    messageFunc h k1 k2 now0 now service message p = ([], p) := by
  simp [messageFunc, hv]

theorem messageFunc_of_built (h : Host) (k1 k2 : Nat) (now0 now : Int) (service : Service)
    (message : Message) (p : ReminderPlugin) (r : Reminder)
    (hv : validate h k1 k2 now0 now service message = Validation.built r) :
    (messageFunc h k1 k2 now0 now service message p).2 = (AddReminder p r).2 := by
  simp only [messageFunc, hv]
  split <;> rename_i he <;> rw [he]

/-- The handler turns down a time that is before `now`. -/
theorem validate_of_past (h : Host) (k1 k2 : Nat) (now0 now : Int) (service : Service)
    (message : Message) (s0 s1 : GoString) (t : Int)
    (hme : service.IsMe = false)
    (hm : (h.matchesCommand service "remindme".toList message
      || h.matchesCommand service "remindchannel".toList message) = true)
    (hparts : (h.parseCommand service message).2 ≠ [])
    (hsplit : Split (h.parseCommand service message).1 '|' = [s0, s1])
    (hparse : parseTime h.uni now0 s0 = Except.ok t) (hlt : t < now) :
    validate h k1 k2 now0 now service message = Validation.rejected (invalidTimeReply message) := by
  have hl : ¬ (h.parseCommand service message).2.length = 0 := by
    intro e; exact hparts (List.length_eq_zero.mp e)
  unfold validate
  simp only [hme, Bool.false_eq_true, if_false, hm, if_true, hl, hsplit, hparse, hlt,
    invalidTimeReply]

/-- The reminders in the store after a call of `AddReminder` are the ones that
were there and, possibly, the new one. -/
theorem mem_AddReminder (p : ReminderPlugin) (r x : Reminder)
    (hx : x ∈ (AddReminder p r).2.Reminders) : x ∈ p.Reminders ∨ x = r := by
  by_cases hq : quotaLoop r.Requester p.Reminders 0 = true
  · rw [AddReminder_of_fail p r hq] at hx; exact Or.inl hx
  · rw [AddReminder_of_pass p r (by simpa using hq)] at hx
    rcases List.mem_append.mp hx with hx | hx
    · exact Or.inl ((List.takeWhile_sublist _).subset hx)
    · rcases List.mem_cons.mp hx with hx | hx
      · exact Or.inr hx
      · exact Or.inl ((List.dropWhile_sublist _).subset hx)

/-- C11, as stated, fails: with both clock reads showing the same instant,
`0 seconds` is accepted, and the reminder the handler adds has a `Time` equal to
its `StartTime`. -/
theorem C11_counterexample :
    (messageFunc sampleHost 0 0 5 5 sampleService
        (sampleMessage "remindme 0 seconds | walk the dog".toList) NewReminderPlugin).2.Reminders
      = [{ StartTime := 5, Time := 5, Requester := "R".toList, Target := "42".toList,
           Message := "walk the dog".toList, IsPrivate := true }] := by
  decide

/-- The handler builds the Reminder for a time that is not before `now`. -/
theorem validate_of_not_past (h : Host) (k1 k2 : Nat) (now0 now : Int) (service : Service)
    (message : Message) (s0 s1 : GoString) (t : Int)
    (hme : service.IsMe = false)
    (hm : (h.matchesCommand service "remindme".toList message
      || h.matchesCommand service "remindchannel".toList message) = true)
    (hparts : (h.parseCommand service message).2 ≠ [])
    (hsplit : Split (h.parseCommand service message).1 '|' = [s0, s1])
    (hparse : parseTime h.uni now0 s0 = Except.ok t) (hge : ¬ t < now) :
    ∃ r, validate h k1 k2 now0 now service message = Validation.built r ∧
      r.Time = t ∧ r.StartTime = now := by
  have hl : ¬ (h.parseCommand service message).2.length = 0 := by
    intro e; exact hparts (List.length_eq_zero.mp e)
  unfold validate
  simp only [hme, Bool.false_eq_true, if_false, hm, if_true, hl, hsplit, hparse, hge]
  exact ⟨_, rfl, rfl, rfl⟩

/-- C11, amended: every Reminder the handler adds to the store has a `Time` that
is not before its `StartTime` (it may be equal to it), the `StartTime` being the
handler's `now`; an invocation whose parsed fire time is strictly before `now`
is rejected with the `Invalid time` reply and adds nothing; a parsed fire time
that is equal to `now` or after it passes the check of the time. -/
theorem C11_time_not_before_start (h : Host) (k1 k2 : Nat) (now0 now : Int)
    (service : Service) (message : Message) (p : ReminderPlugin) :
    (∀ x ∈ (messageFunc h k1 k2 now0 now service message p).2.Reminders,
      x ∈ p.Reminders ∨ (x.StartTime = now ∧ x.StartTime ≤ x.Time)) ∧
    (∀ s0 s1 t, service.IsMe = false →
      (h.matchesCommand service "remindme".toList message
        || h.matchesCommand service "remindchannel".toList message) = true →
      (h.parseCommand service message).2 ≠ [] →
      Split (h.parseCommand service message).1 '|' = [s0, s1] →
      parseTime h.uni now0 s0 = Except.ok t →
      (t < now →
        messageFunc h k1 k2 now0 now service message p =
          ([Outbound.SendMessage message.Channel
            ("Invalid time. eg: 1 minute, 10 minutes, 1 hour, 4 hours, tomorrow, next week".toList)],
           p)) ∧
      (¬ t < now →
        ∃ r, validate h k1 k2 now0 now service message = Validation.built r ∧
          r.Time = t ∧ r.StartTime = now)) := by
  constructor
  · intro x hx
    cases hv : validate h k1 k2 now0 now service message with
    | ignored => rw [messageFunc_of_ignored h k1 k2 now0 now service message p hv] at hx
                 exact Or.inl hx
    | rejected reply =>
      rw [messageFunc_of_rejected h k1 k2 now0 now service message p reply hv] at hx
      exact Or.inl hx
    | built r =>
      rw [messageFunc_of_built h k1 k2 now0 now service message p r hv] at hx
      rcases mem_AddReminder p r x hx with hx | hx
      · exact Or.inl hx
      · right
        have := validate_built_time h k1 k2 now0 now service message r hv
        rw [hx]
        exact ⟨this.2, by rw [this.2]; exact this.1⟩
  · intro s0 s1 t hme hm hparts hsplit hparse
    constructor
    · intro hlt
      rw [messageFunc_of_rejected h k1 k2 now0 now service message p _
        (validate_of_past h k1 k2 now0 now service message s0 s1 t hme hm hparts hsplit hparse
          hlt)]
      rfl
    · intro hge
      exact validate_of_not_past h k1 k2 now0 now service message s0 s1 t hme hm hparts hsplit
        hparse hge

/-- A time before `now` is turned down: two minutes back, read at clock 0 and
checked at clock 0. -/
theorem sample_past_rejected :
    messageFunc sampleHost 0 0 0 0 sampleService
        (sampleMessage "remindme -2 minutes | walk the dog".toList) NewReminderPlugin
      = ([invalidTimeReply (sampleMessage "remindme -2 minutes | walk the dog".toList)],
         NewReminderPlugin) := by
  decide

/-- C12: for every invocation of a command that the handler rejects on
validation (empty command body, body that does not split on `|` into exactly
two segments, unparseable time expression, or a fire time before `now`), the
handler does not get to the call of `AddReminder` and the plugin, with its
`Reminders` list, is unchanged. -/
theorem C12_rejected_unchanged (h : Host) (k1 k2 : Nat) (now0 now : Int) (service : Service)
    (message : Message) (p : ReminderPlugin)
    (hrej : RejectedOnValidation h now0 now service message) :
    (∀ r, validate h k1 k2 now0 now service message ≠ Validation.built r) ∧
    (messageFunc h k1 k2 now0 now service message p).2 = p := by
  have hnb : ∀ r, validate h k1 k2 now0 now service message ≠ Validation.built r := by
    intro r hv
    obtain ⟨_, _, hparts, s0, s1, t, hsplit, hparse, hlt, _⟩ :=
      validate_built h k1 k2 now0 now service message r hv
    rcases hrej with e | e | ⟨a, b, e, e2 | ⟨u, e2, e3⟩⟩
    · exact hparts e
    · rw [hsplit] at e; exact e rfl
    · rw [hsplit] at e
      injection e with e1 _
      subst e1
      obtain ⟨err, e2⟩ := e2
      rw [hparse] at e2
      cases e2
    · rw [hsplit] at e
      injection e with e1 _
      subst e1
      rw [hparse] at e2
      injection e2 with e2
      subst e2
      exact hlt e3
  refine ⟨hnb, ?_⟩
  cases hv : validate h k1 k2 now0 now service message with
  | ignored => rw [messageFunc_of_ignored h k1 k2 now0 now service message p hv]
  | rejected reply => rw [messageFunc_of_rejected h k1 k2 now0 now service message p reply hv]
  | built r => exact absurd hv (hnb r)

theorem C12_rejected_unchanged_witness :
    RejectedOnValidation sampleHost 0 0 sampleService
      (sampleMessage "remindchannel gibberish | test".toList) ∧
    (∀ r, validate sampleHost 0 0 0 0 sampleService
      (sampleMessage "remindchannel gibberish | test".toList) ≠ Validation.built r) ∧
    (messageFunc sampleHost 0 0 0 0 sampleService
      (sampleMessage "remindchannel gibberish | test".toList) (sampleStore 2)).2 = sampleStore 2 :=
  ⟨Or.inr (Or.inr ⟨"gibberish ".toList, " test".toList, by decide,
      Or.inl ⟨ParseError.invalidString, rfl⟩⟩),
   C12_rejected_unchanged sampleHost 0 0 0 0 sampleService
     (sampleMessage "remindchannel gibberish | test".toList) (sampleStore 2)
     (Or.inr (Or.inr ⟨"gibberish ".toList, " test".toList, by decide,
      Or.inl ⟨ParseError.invalidString, rfl⟩⟩))⟩

/-- The reply to `remindchannel gibberish | test` is the `Invalid time` reply. -/
theorem sample_gibberish_reply :
    messageFunc sampleHost 0 0 0 0 sampleService
        (sampleMessage "remindchannel gibberish | test".toList) NewReminderPlugin
      = ([invalidTimeReply (sampleMessage "remindchannel gibberish | test".toList)],
         NewReminderPlugin) := by
  decide

/-- C15: for every command the handler accepts, the Reminder handed to
`AddReminder` has `IsPrivate = true` and the sender's user id as `Target` when
the command is `remindme`, and `IsPrivate = false` and the originating channel
id as `Target` when it is not `remindme`, in which case it is `remindchannel`. -/
theorem C15_target (h : Host) (k1 k2 : Nat) (now0 now : Int) (service : Service)
    (message : Message) (r : Reminder)
    (hv : validate h k1 k2 now0 now service message = Validation.built r) :
    (h.matchesCommand service "remindme".toList message = true →
      r.IsPrivate = true ∧ r.Target = message.UserID) ∧
    (h.matchesCommand service "remindme".toList message = false →
      h.matchesCommand service "remindchannel".toList message = true ∧
      r.IsPrivate = false ∧ r.Target = message.Channel) := by
  obtain ⟨_, hm, _, s0, s1, t, _, _, _, hr⟩ := validate_built h k1 k2 now0 now service message r hv
  subst hr
  constructor
  · intro e
    refine ⟨e, ?_⟩
    show (if h.matchesCommand service "remindme".toList message = true
      then message.UserID else message.Channel) = message.UserID
    rw [if_pos e]
  · intro e
    rw [e, Bool.false_or] at hm
    refine ⟨hm, e, ?_⟩
    show (if h.matchesCommand service "remindme".toList message = true
      then message.UserID else message.Channel) = message.Channel
    rw [e]
    rfl

theorem C15_target_witness :
    validate sampleHost 0 0 0 0 sampleService
        sampleFeedMessage
      = Validation.built sampleFeed ∧
    (sampleHost.matchesCommand sampleService "remindme".toList
        sampleFeedMessage = true →
      sampleFeed.IsPrivate = true ∧
      sampleFeed.Target
        = sampleFeedMessage.UserID) ∧
    (sampleHost.matchesCommand sampleService "remindme".toList
        sampleFeedMessage = false →
      sampleHost.matchesCommand sampleService "remindchannel".toList
        sampleFeedMessage = true ∧
      sampleFeed.IsPrivate = false ∧
      sampleFeed.Target
        = sampleFeedMessage.Channel) :=
  ⟨by decide,
   C15_target sampleHost 0 0 0 0 sampleService
     sampleFeedMessage _ (by decide)⟩

/-! ## The text of the reminder -/

theorem Split_cons_sep (cs : GoString) (sep : Char) :
    Split (sep :: cs) sep = [] :: Split cs sep := by
  rw [Split]; simp

theorem Split_cons_of_ne (c : Char) (cs w : GoString) (ws : List GoString) (sep : Char)
    (hc : c ≠ sep) (hs : Split cs sep = w :: ws) :
    Split (c :: cs) sep = (c :: w) :: ws := by
  rw [Split]; simp [hc, hs]

theorem Split_append_sep (x y : GoString) (sep : Char) :
    Split (x ++ sep :: y) sep = Split x sep ++ Split y sep := by
  induction x with
  | nil => rw [List.nil_append, Split_cons_sep]; rfl
  | cons c x ih =>
    rw [List.cons_append]
    by_cases hc : c = sep
    · subst hc
      rw [Split_cons_sep, Split_cons_sep, ih, List.cons_append]
    · cases hs : Split x sep with
      | nil => exact absurd hs (Split_ne_nil x sep)
      | cons w ws =>
        rw [Split_cons_of_ne c x w ws sep hc hs,
          Split_cons_of_ne c (x ++ sep :: y) w (ws ++ Split y sep) sep hc (by rw [ih, hs]; rfl)]
        rfl

/-- The last piece of the raw text is the second segment of the command body,
whatever stands before the body. -/
theorem getLastD_Split_append (pre s0 s1 : GoString) (sep : Char) (h1 : sep ∉ s1) :
    (Split (pre ++ (s0 ++ sep :: s1)) sep).getLastD [] = s1 := by
  rw [← List.append_assoc, Split_append_sep, (Split_eq_single s1 s1 sep).mpr ⟨rfl, h1⟩]
  simp [List.getLastD_eq_getLast?]

/-- C16: for every command the handler accepts whose raw message text is the
command prefix followed by the command body, the `Message` of the Reminder
handed to `AddReminder` is the second `|`-separated segment of the command body
with its leading and trailing spaces removed. -/
theorem C16_message (h : Host) (k1 k2 : Nat) (now0 now : Int) (service : Service)
    (message : Message) (r : Reminder) (commandPrefix : GoString)
    (hv : validate h k1 k2 now0 now service message = Validation.built r)
    (hraw : message.RawMessage = commandPrefix ++ (h.parseCommand service message).1) :
    ∃ s0 s1, Split (h.parseCommand service message).1 '|' = [s0, s1] ∧
      r.Message = Trim s1 := by
  obtain ⟨_, _, _, s0, s1, t, hsplit, _, _, hr⟩ :=
    validate_built h k1 k2 now0 now service message r hv
  refine ⟨s0, s1, hsplit, ?_⟩
  have hq := (Split_eq_pair _ s0 s1 '|').mp hsplit
  subst hr
  show Trim ((Split message.RawMessage '|').getLastD []) = Trim s1
  rw [hraw, hq.1, getLastD_Split_append _ _ _ _ hq.2.2]

theorem C16_message_witness :
    validate sampleHost 0 0 0 0 sampleService sampleFeedMessage = Validation.built sampleFeed ∧
    sampleFeedMessage.RawMessage
      = "remindchannel ".toList ++ (sampleHost.parseCommand sampleService sampleFeedMessage).1 ∧
    ∃ s0 s1, Split (sampleHost.parseCommand sampleService sampleFeedMessage).1 '|' = [s0, s1] ∧
      sampleFeed.Message = Trim s1 :=
  ⟨by decide, by decide,
   C16_message sampleHost 0 0 0 0 sampleService sampleFeedMessage sampleFeed
     "remindchannel ".toList (by decide) (by decide)⟩

/-- C14: for every reminder, `ReminderMessage` is the human-relative-time phrase
of `StartTime`, then `you set a reminder:` and the `Message` when `IsPrivate` is
true, and the phrase, the `Requester`, `set a reminder:` and the `Message` when
it is false, the parts joined by single spaces. -/
theorem C14_message_text (humanize : Int → GoString) (r : Reminder) :
    (r.IsPrivate = true ∧
      ReminderMessage humanize r
        = Join [humanize r.StartTime, "you set a reminder:".toList, r.Message] " ".toList ∧
      ReminderMessage humanize r
        = humanize r.StartTime ++ " you set a reminder: ".toList ++ r.Message) ∨
    (r.IsPrivate = false ∧
      ReminderMessage humanize r
        = Join [humanize r.StartTime, r.Requester, "set a reminder:".toList, r.Message]
            " ".toList ∧
      ReminderMessage humanize r
        = humanize r.StartTime ++ " ".toList ++ r.Requester ++ " set a reminder: ".toList
            ++ r.Message) := by
  cases hp : r.IsPrivate with
  | true =>
    left
    refine ⟨rfl, ?_, by simp [ReminderMessage, hp]⟩
    simp [ReminderMessage, hp, Join]
  | false =>
    right
    refine ⟨rfl, ?_, by simp [ReminderMessage, hp]⟩
    simp [ReminderMessage, hp, Join]

/-! ## The delivery -/

/-- C13: for every store whose first entry `r` is due (`r.Time` before `now`),
one scheduler pass makes exactly one call on the service: a private message to
`r.Target` when `r.IsPrivate`, otherwise a channel message to `r.Target`, with
the text `ReminderMessage r`; afterwards the store is the old list without its
first entry. In particular, when the store holds only that reminder, it is
private and its message is `walk the dog`, the single delivery is a private
message to its `Target`, the text ends in `you set a reminder: walk the dog`,
and the store is empty afterwards. -/
theorem C13_delivery (humanize : Int → GoString) (now : Int) (p : ReminderPlugin)
    (r : Reminder) (rest : List Reminder) (hp : p.Reminders = r :: rest)
    (hdue : r.Time < now) :
    (RunIter humanize now p).sent =
      [if r.IsPrivate = true then Outbound.PrivateMessage r.Target (ReminderMessage humanize r)
       else Outbound.SendMessage r.Target (ReminderMessage humanize r)] ∧
    (RunIter humanize now p).plugin.Reminders = rest ∧
    (rest = [] → r.IsPrivate = true → r.Message = "walk the dog".toList →
      (∃ text, (RunIter humanize now p).sent = [Outbound.PrivateMessage r.Target text] ∧
        "you set a reminder: walk the dog".toList <:+ text) ∧
      (RunIter humanize now p).plugin.Reminders = []) := by
  obtain ⟨rs⟩ := p
  simp only at hp
  subst hp
  have hgt : now > r.Time := hdue
  have e : RunIter humanize now ⟨r :: rest⟩
      = ⟨some r, [SendReminder humanize r], ⟨rest⟩, false⟩ := by
    simp [RunIter, hgt]
  rw [e]
  refine ⟨?_, rfl, ?_⟩
  · show [SendReminder humanize r] = _
    unfold SendReminder
    rfl
  · intro hrest hpriv hmsg
    refine ⟨⟨ReminderMessage humanize r, ?_, ?_⟩, hrest⟩
    · show [SendReminder humanize r] = _
      unfold SendReminder
      rw [if_pos hpriv]
    · unfold ReminderMessage
      rw [if_pos hpriv, hmsg, List.append_assoc]
      exact ⟨humanize r.StartTime ++ " ".toList, by simp⟩

theorem C13_delivery_witness :
    (⟨[sampleWalk]⟩ : ReminderPlugin).Reminders = sampleWalk :: [] ∧
    sampleWalk.Time < 61 * Second ∧
    (RunIter sampleHumanize (61 * Second) ⟨[sampleWalk]⟩).sent =
      [if sampleWalk.IsPrivate = true then
         Outbound.PrivateMessage sampleWalk.Target (ReminderMessage sampleHumanize sampleWalk)
       else Outbound.SendMessage sampleWalk.Target (ReminderMessage sampleHumanize sampleWalk)] ∧
    (RunIter sampleHumanize (61 * Second) ⟨[sampleWalk]⟩).plugin.Reminders = [] ∧
    (([] : List Reminder) = [] → sampleWalk.IsPrivate = true →
      sampleWalk.Message = "walk the dog".toList →
      (∃ text, (RunIter sampleHumanize (61 * Second) ⟨[sampleWalk]⟩).sent
          = [Outbound.PrivateMessage sampleWalk.Target text] ∧
        "you set a reminder: walk the dog".toList <:+ text) ∧
      (RunIter sampleHumanize (61 * Second) ⟨[sampleWalk]⟩).plugin.Reminders = []) :=
  ⟨rfl, by decide,
   C13_delivery sampleHumanize (61 * Second) ⟨[sampleWalk]⟩ sampleWalk [] rfl (by decide)⟩

/-- The scenario of the specification: `remindme 1 minute | walk the dog` of
user 42 at clock 0, then one scheduler pass 61 seconds later. The one delivery
is a private message to user 42 and the store is empty afterwards. -/
theorem sample_walk_scenario :
    (execute sampleHost
      [Event.command 0 0 0 0 sampleService
         (sampleMessage "remindme 1 minute | walk the dog".toList),
       Event.tick (61 * Second)]).dispatched = [sampleWalk] ∧
    (execute sampleHost
      [Event.command 0 0 0 0 sampleService
         (sampleMessage "remindme 1 minute | walk the dog".toList),
       Event.tick (61 * Second)]).sent.getLast? =
      some (Outbound.PrivateMessage "42".toList "now you set a reminder: walk the dog".toList) ∧
    (execute sampleHost
      [Event.command 0 0 0 0 sampleService
         (sampleMessage "remindme 1 minute | walk the dog".toList),
       Event.tick (61 * Second)]).plugin.Reminders = [] := by
  decide

/-! ## The outcome of AddReminder -/

theorem pendingOf_remove (requester : GoString) (front back : List Reminder) (other : Reminder)
    (h : other.Requester ≠ requester) :
    pendingOf requester (front ++ other :: back) = pendingOf requester (front ++ back) := by
  unfold pendingOf
  rw [List.countP_append, List.countP_append, List.countP_cons]
  simp [h]

theorem AddReminder_error_eq (p : ReminderPlugin) (r : Reminder) :
    (AddReminder p r).1 =
      if 6 ≤ pendingOf r.Requester p.Reminders then some tooManyReminders else none := by
  by_cases h : 6 ≤ pendingOf r.Requester p.Reminders
  · rw [if_pos h]; exact (AddReminder_error_iff p r).mpr h
  · rw [if_neg h]
    by_cases hq : quotaLoop r.Requester p.Reminders 0 = true
    · have := (AddReminder_error_iff p r).mp (by rw [AddReminder_of_fail p r hq])
      exact absurd this h
    · rw [AddReminder_of_pass p r (by simpa using hq)]

/-- C20: `AddReminder` returns the quota error if and only if the store already
holds at least 6 reminders whose `Requester` equals the new reminder's; in every
other case the call succeeds (it returns `nil`); a reminder of another requester
in the store never changes the outcome. -/
theorem C20_quota_iff (p : ReminderPlugin) (r : Reminder) :
    ((AddReminder p r).1 = some "You have too many reminders already.".toList ↔
      6 ≤ pendingOf r.Requester p.Reminders) ∧
    ((AddReminder p r).1 = none ↔ pendingOf r.Requester p.Reminders < 6) ∧
    (∀ front back other, p.Reminders = front ++ other :: back →
      other.Requester ≠ r.Requester →
      (AddReminder ⟨front ++ back⟩ r).1 = (AddReminder p r).1) := by
  have he := AddReminder_error_eq p r
  refine ⟨AddReminder_error_iff p r, ?_, ?_⟩
  · rw [he]
    by_cases h : 6 ≤ pendingOf r.Requester p.Reminders
    · rw [if_pos h]; simp; omega
    · rw [if_neg h]; simp; omega
  · intro front back other hp ho
    rw [he, AddReminder_error_eq ⟨front ++ back⟩ r, hp, pendingOf_remove _ _ _ _ ho]

/-- Six reminders of `R` and one of `S` in the store: a further one of `R` is
turned down, a further one of `S` is taken. -/
theorem sample_quota :
    (AddReminder ⟨sampleReminder "S".toList 3 :: (sampleStore 6).Reminders⟩
      (sampleReminder "R".toList 1)).1 = some tooManyReminders ∧
    (AddReminder ⟨sampleReminder "S".toList 3 :: (sampleStore 6).Reminders⟩
      (sampleReminder "S".toList 1)).1 = none := by
  decide

/-! ## The lock around the send -/

theorem RunTrace_cases (humanize : Int → GoString) (now : Int) (p : ReminderPlugin) :
    (∃ r rest, p.Reminders = r :: rest ∧ r.Time < now ∧
      RunTrace humanize now p = [Action.RLock, Action.Send (SendReminder humanize r),
        Action.Write rest, Action.RUnlock]) ∨
    ((¬ ∃ r rest, p.Reminders = r :: rest ∧ r.Time < now) ∧
      RunTrace humanize now p = [Action.RLock, Action.RUnlock, Action.Sleep]) := by
  obtain ⟨rs⟩ := p
  cases rs with
  | nil => right; simp [RunTrace]
  | cons r rest =>
    by_cases h : now > r.Time
    · left; exact ⟨r, rest, rfl, h, by simp [RunTrace, h]⟩
    · right; simp [RunTrace, h]

/-- The steps of a pass make the calls and leave the list that `RunIter` gives. -/
theorem RunTrace_RunIter (humanize : Int → GoString) (now : Int) (p : ReminderPlugin) :
    sendsOf (RunTrace humanize now p) = (RunIter humanize now p).sent := by
  rcases RunTrace_cases humanize now p with ⟨r, rest, hp, hlt, e⟩ | ⟨hn, e⟩
  · rcases RunIter_cases humanize now p with ⟨r2, rest2, hp2, _, e2⟩ | ⟨hn2, _⟩
    · rw [hp] at hp2
      injection hp2 with h1 h2
      subst h1 h2
      rw [e, e2]
      rfl
    · exact absurd ⟨r, rest, hp, hlt⟩ hn2
  · rcases RunIter_cases humanize now p with ⟨r2, rest2, hp2, hlt2, _⟩ | ⟨_, e2⟩
    · exact absurd ⟨r2, rest2, hp2, hlt2⟩ hn
    · rw [e, e2]
      rfl

/-- C19, as stated, fails: in a pass that finds a due reminder, the call on the
service is made with the read lock of the plugin held. -/
theorem C19_counterexample :
    RunTrace sampleHumanize 101 (sampleStore 1) =
      [Action.RLock, Action.Send (SendReminder sampleHumanize (sampleReminder "R".toList 100)),
       Action.Write [], Action.RUnlock] ∧
    locksAtSends 0 (RunTrace sampleHumanize 101 (sampleStore 1)) = [1] := by
  decide

/-- C19, amended: the send of the scheduler runs inside the critical section of
the store: in every scheduler pass, each call on the service is made between
`p.RLock()` and `p.RUnlock()`, with one read lock held, so that the `p.Lock()`
of `AddReminder` does not go through until the send has returned. -/
theorem C19_send_under_lock (humanize : Int → GoString) (now : Int) (p : ReminderPlugin) :
    sendsOf (RunTrace humanize now p) = (RunIter humanize now p).sent ∧
    ∀ n ∈ locksAtSends 0 (RunTrace humanize now p), n = 1 ∧ canLock n = false := by
  refine ⟨RunTrace_RunIter humanize now p, ?_⟩
  rcases RunTrace_cases humanize now p with ⟨r, rest, _, _, e⟩ | ⟨_, e⟩
  · rw [e]
    intro n hn
    simp only [locksAtSends, List.mem_singleton] at hn
    subst hn
    exact ⟨rfl, rfl⟩
  · rw [e]
    intro n hn
    simp [locksAtSends] at hn

/-! ## Strings written and read back -/

theorem hexDigit_spec (n : Nat) (h : n < 16) :
    isHex (hexDigit n) = true ∧ hexVal (hexDigit n) = n := by
  interval_cases n <;> decide

theorem scanString_plain (c : Char) (X : List Char) (h1 : c ≠ '"') (h2 : c ≠ '\\')
    (h3 : ¬ c.toNat < 32) :
    scanStringFrom StringState.plain (c :: X)
      = pushChar c (scanStringFrom StringState.plain X) := by
  rw [scanStringFrom]
  simp only [h1, h2, h3, if_false]

theorem scanString_escape1 (e : Char) (X : List Char)
    (he : e = '"' ∨ e = '\\' ∨ e = '/' ∨ e = 'b' ∨ e = 'f' ∨ e = 'n' ∨ e = 'r' ∨ e = 't') :
    scanStringFrom StringState.plain ('\\' :: e :: X)
      = pushChar '\\' (pushChar e (scanStringFrom StringState.plain X)) := by
  rw [scanStringFrom, if_neg (by decide), if_pos rfl, scanStringFrom, if_pos he]

theorem scanString_escapeU (h1 h2 h3 h4 : Char) (X : List Char)
    (e1 : isHex h1 = true) (e2 : isHex h2 = true) (e3 : isHex h3 = true)
    (e4 : isHex h4 = true) :
    scanStringFrom StringState.plain ('\\' :: 'u' :: h1 :: h2 :: h3 :: h4 :: X)
      = pushChar '\\' (pushChar 'u' (pushChar h1 (pushChar h2 (pushChar h3 (pushChar h4
          (scanStringFrom StringState.plain X)))))) := by
  simp [scanStringFrom, e1, e2, e3, e4]

theorem escapeHex_lt (c : Char)
    (hc : c.toNat < 32 ∨ c = '<' ∨ c = '>' ∨ c = '&') : c.toNat < 256 := by
  rcases hc with hc | hc | hc | hc
  · omega
  · subst hc; decide
  · subst hc; decide
  · subst hc; decide

theorem scanString_escapeChar (c : Char) (X raw after : List Char)
    (h : scanStringFrom StringState.plain X = some (raw, after)) :
    scanStringFrom StringState.plain (escapeChar c ++ X) = some (escapeChar c ++ raw, after) := by
  unfold escapeChar
  split
  · rw [List.cons_append, List.cons_append, List.nil_append,
      scanString_escape1 _ _ (by simp), h]; rfl
  split
  · rw [List.cons_append, List.cons_append, List.nil_append,
      scanString_escape1 _ _ (by simp), h]; rfl
  split
  · rw [List.cons_append, List.cons_append, List.nil_append,
      scanString_escape1 _ _ (by simp), h]; rfl
  split
  · rw [List.cons_append, List.cons_append, List.nil_append,
      scanString_escape1 _ _ (by simp), h]; rfl
  split
  · rw [List.cons_append, List.cons_append, List.nil_append,
      scanString_escape1 _ _ (by simp), h]; rfl
  split
  · rename_i hc
    have hlt := escapeHex_lt c hc
    have hd1 := (hexDigit_spec (c.toNat / 16) (by omega)).1
    have hd2 := (hexDigit_spec (c.toNat % 16) (Nat.mod_lt _ (by norm_num))).1
    unfold escapeHex
    simp only [List.cons_append, List.nil_append]
    rw [scanString_escapeU _ _ _ _ _ (by decide) (by decide) hd1 hd2, h]
    rfl
  split
  · show scanStringFrom StringState.plain ('\\' :: 'u' :: '2' :: '0' :: '2' :: '8' :: X) = _
    rw [scanString_escapeU _ _ _ _ _ (by decide) (by decide) (by decide) (by decide), h]; rfl
  split
  · show scanStringFrom StringState.plain ('\\' :: 'u' :: '2' :: '0' :: '2' :: '9' :: X) = _
    rw [scanString_escapeU _ _ _ _ _ (by decide) (by decide) (by decide) (by decide), h]; rfl
  · rename_i n1 n2 n3 n4 n5 n6 n7 n8
    rw [List.cons_append, List.nil_append, scanString_plain c X n1 n2 (by
      intro hlt; exact n6 (Or.inl hlt)), h]
    rfl

/-- The scan of the text the encoder writes for a string stops at its closing
quote. -/
theorem scanString_escaped (s : GoString) (X : List Char) :
    scanString (s.flatMap escapeChar ++ '"' :: X) = some (s.flatMap escapeChar, X) := by
  unfold scanString
  induction s with
  | nil => rw [List.flatMap_nil, List.nil_append, scanStringFrom]; simp
  | cons c s ih =>
    rw [List.flatMap_cons, List.append_assoc]
    exact scanString_escapeChar c _ _ _ ih

theorem stringUnits_escapeChar (c : Char) (X : List Char) :
    stringUnitsFrom UnquoteState.plain (escapeChar c ++ X)
      = Sum.inl c :: stringUnitsFrom UnquoteState.plain X := by
  unfold escapeChar
  split
  · rename_i h; subst h; simp [stringUnitsFrom, unescape]
  split
  · rename_i h; subst h; simp [stringUnitsFrom, unescape]
  split
  · rename_i h; subst h; simp [stringUnitsFrom, unescape]
  split
  · rename_i h; subst h; simp [stringUnitsFrom, unescape]
  split
  · rename_i h; subst h; simp [stringUnitsFrom, unescape]
  split
  · rename_i hc
    have hlt := escapeHex_lt c hc
    have hd1 := (hexDigit_spec (c.toNat / 16) (by omega)).2
    have hd2 := (hexDigit_spec (c.toNat % 16) (Nat.mod_lt _ (by norm_num))).2
    unfold escapeHex
    simp only [List.cons_append, List.nil_append]
    have h0 : hexVal '0' = 0 := by decide
    have e : c.toNat / 16 * 16 + c.toNat % 16 = c.toNat := by omega
    have hn : ¬ (55296 ≤ c.toNat ∧ c.toNat < 57344) := by omega
    simp [stringUnitsFrom, h0, hd1, hd2, e, hn]
  split
  · rename_i hc
    have e : c = Char.ofNat 0x2028 := by rw [← hc, Char.ofNat_toNat]
    subst e
    rfl
  split
  · rename_i hc
    have e : c = Char.ofNat 0x2029 := by rw [← hc, Char.ofNat_toNat]
    subst e
    rfl
  · rename_i n1 n2 n3 n4 n5 n6 n7 n8
    rw [List.cons_append, List.nil_append, stringUnitsFrom, if_neg n2]

theorem joinUnits_inl (s : GoString) : joinUnits (s.map Sum.inl) = s := by
  induction s with
  | nil => rfl
  | cons c s ih => rw [List.map_cons, joinUnits, ih]

/-- The string read from the text the encoder writes for it is the string. -/
theorem unquote_escaped (s : GoString) : unquote (s.flatMap escapeChar) = s := by
  have h : stringUnitsFrom UnquoteState.plain (s.flatMap escapeChar) = s.map Sum.inl := by
    induction s with
    | nil => rfl
    | cons c s ih =>
      rw [List.flatMap_cons, stringUnits_escapeChar, ih, List.map_cons]
  unfold unquote
  rw [h, joinUnits_inl]

/-! ## The text of Marshal read by the scanner -/

theorem escapeChar_of_code (c : Char) (h1 : c.toNat ≠ 34) (h2 : c.toNat ≠ 92)
    (h3 : ¬ c.toNat < 32) (h4 : c.toNat ≠ 60) (h5 : c.toNat ≠ 62) (h6 : c.toNat ≠ 38)
    (h7 : c.toNat ≠ 0x2028) (h8 : c.toNat ≠ 0x2029) :
    escapeChar c = [c] ∧ compactChar c = [c] := by
  have e1 : c ≠ '"' := fun e => h1 (by rw [e]; rfl)
  have e2 : c ≠ '\\' := fun e => h2 (by rw [e]; rfl)
  have e3 : c ≠ '\n' := fun e => h3 (by rw [e]; decide)
  have e4 : c ≠ '\r' := fun e => h3 (by rw [e]; decide)
  have e5 : c ≠ '\t' := fun e => h3 (by rw [e]; decide)
  have e6 : c ≠ '<' := fun e => h4 (by rw [e]; rfl)
  have e7 : c ≠ '>' := fun e => h5 (by rw [e]; rfl)
  have e8 : c ≠ '&' := fun e => h6 (by rw [e]; rfl)
  constructor
  · unfold escapeChar
    simp only [e1, e2, e3, e4, e5, e6, e7, e8, h3, h7, h8, if_false, or_self]
  · unfold compactChar
    simp only [e6, e7, e8, h7, h8, if_false, or_self]

theorem isTimeChar_code (c : Char) (h : isTimeChar c = true) :
    (48 ≤ c.toNat ∧ c.toNat ≤ 57) ∨ c.toNat = 45 ∨ c.toNat = 58 ∨ c.toNat = 84 ∨ c.toNat = 90
      ∨ c.toNat = 43 ∨ c.toNat = 46 := by
  unfold isTimeChar isDigit09 at h
  simp only [Bool.or_eq_true, Bool.and_eq_true, decide_eq_true_eq] at h
  rcases h with (((((h | h) | h) | h) | h) | h) | h
  · exact Or.inl h
  · subst h; decide
  · subst h; decide
  · subst h; decide
  · subst h; decide
  · subst h; decide
  · subst h; decide

theorem timeText_plain (text : GoString) (h : text.all isTimeChar = true) :
    text.flatMap escapeChar = text ∧ text.flatMap compactChar = text := by
  induction text with
  | nil => exact ⟨rfl, rfl⟩
  | cons c text ih =>
    simp only [List.all_cons, Bool.and_eq_true] at h
    have hc := isTimeChar_code c h.1
    have := escapeChar_of_code c (by omega) (by omega) (by omega) (by omega) (by omega)
      (by omega) (by omega) (by omega)
    rw [List.flatMap_cons, List.flatMap_cons, this.1, this.2, (ih h.2).1, (ih h.2).2]
    exact ⟨rfl, rfl⟩

/-- The text the encoder writes for a time that `time.Time` writes in the
characters of RFC 3339. -/
theorem marshalTime_of_text (tj : TimeJSON) (t : Int) (text : GoString)
    (hf : tj.format t = some text) (hc : text.all isTimeChar = true) :
    marshalTime tj t = some ('"' :: (text ++ ['"'])) ∧
      ∀ X, scanString (text ++ '"' :: X) = some (text, X) := by
  have hp := timeText_plain text hc
  have hs : ∀ X, scanString (text ++ '"' :: X) = some (text, X) := by
    intro X
    have := scanString_escaped text X
    rw [hp.1] at this
    exact this
  refine ⟨?_, hs⟩
  unfold marshalTime
  rw [hf]
  simp only [hs [], hp.2]

theorem skipSpace_cons (c : Char) (X : List Char) (h : isSpace c = false) :
    skipSpace (c :: X) = c :: X := by
  unfold skipSpace
  rw [List.dropWhile_cons, h]
  rfl

theorem parseValue_string (fuel : Nat) (raw X : List Char)
    (h : scanString (raw ++ '"' :: X) = some (raw, X)) :
    parseValue (fuel + 1) ('"' :: (raw ++ '"' :: X)) = some (Json.string raw, X) := by
  rw [parseValue]
  simp [h]

theorem parseValue_bool (fuel : Nat) (b : Bool) (X : List Char) :
    parseValue (fuel + 1) (marshalBool b ++ X) = some (Json.bool b, X) := by
  cases b
  · show parseValue (fuel + 1) ('f' :: 'a' :: 'l' :: 's' :: 'e' :: X) = _
    rw [parseValue]
    simp [scanName, HasPrefix]
  · show parseValue (fuel + 1) ('t' :: 'r' :: 'u' :: 'e' :: X) = _
    rw [parseValue]
    simp [scanName, HasPrefix]

theorem parseMembers_more (fuel : Nat) (key V Y Z : List Char) (v : Json)
    (ms : List (GoString × Json))
    (hk : scanString (key ++ '"' :: ':' :: V) = some (key, ':' :: V))
    (hV : skipSpace V = V)
    (hv : parseValue fuel V = some (v, ',' :: '"' :: Y))
    (hrest : parseMembers fuel ('"' :: Y) = some (ms, Z)) :
    parseMembers (fuel + 1) ('"' :: (key ++ '"' :: ':' :: V)) = some ((key, v) :: ms, Z) := by
  rw [parseMembers]
  simp only [if_true, hk]
  rw [skipSpace_cons ':' V (by decide)]
  simp only [if_true, hV, hv]
  rw [skipSpace_cons ',' _ (by decide)]
  simp only [if_true]
  rw [skipSpace_cons '"' _ (by decide), hrest]

theorem parseMembers_last (fuel : Nat) (key V Z : List Char) (v : Json)
    (hk : scanString (key ++ '"' :: ':' :: V) = some (key, ':' :: V))
    (hV : skipSpace V = V)
    (hv : parseValue fuel V = some (v, '\x7d' :: Z)) :
    parseMembers (fuel + 1) ('"' :: (key ++ '"' :: ':' :: V)) = some ([(key, v)], Z) := by
  rw [parseMembers]
  simp only [if_true, hk]
  rw [skipSpace_cons ':' V (by decide)]
  simp only [if_true, hV, hv]
  rw [skipSpace_cons '\x7d' _ (by decide)]
  simp

theorem scanString_key (key : GoString) (hkey : key.flatMap escapeChar = key) (X : List Char) :
    scanString (key ++ '"' :: X) = some (key, X) := by
  have := scanString_escaped key X
  rw [hkey] at this
  exact this

theorem skipSpace_bool (b : Bool) (X : List Char) :
    skipSpace (marshalBool b ++ X) = marshalBool b ++ X := by
  cases b
  · exact skipSpace_cons 'f' _ (by decide)
  · exact skipSpace_cons 't' _ (by decide)

/-- The text of a `Reminder` with the text behind it, as one list. -/
theorem reminderText_append (startTime time : GoString) (r : Reminder) (X : List Char) :
    reminderText startTime time r ++ X
    = '\x7b' :: '"' :: ("StartTime".toList ++ '"' :: ':' :: '"' :: (startTime ++ '"' ::
        ',' :: '"' :: ("Time".toList ++ '"' :: ':' :: '"' :: (time ++ '"' ::
        ',' :: '"' :: ("Requester".toList ++ '"' :: ':' :: '"' ::
          (r.Requester.flatMap escapeChar ++ '"' ::
        ',' :: '"' :: ("Target".toList ++ '"' :: ':' :: '"' ::
          (r.Target.flatMap escapeChar ++ '"' ::
        ',' :: '"' :: ("Message".toList ++ '"' :: ':' :: '"' ::
          (r.Message.flatMap escapeChar ++ '"' ::
        ',' :: '"' :: ("IsPrivate".toList ++ '"' :: ':' ::
          (marshalBool r.IsPrivate ++ '\x7d' :: X)))))))))))) := by
  simp only [reminderText, memberText, marshalString, List.cons_append, List.append_assoc,
    List.nil_append]

/-- The scanner reads the text of a `Reminder` as the object of its six
fields. -/
theorem parseValue_reminder (startTime time : GoString) (r : Reminder)
    (hs : ∀ X, scanString (startTime ++ '"' :: X) = some (startTime, X))
    (ht : ∀ X, scanString (time ++ '"' :: X) = some (time, X))
    (fuel : Nat) (X : List Char) :
    parseValue (fuel + 8)
      (reminderText startTime time r ++ X)
      = some (reminderJson startTime time r, X) := by
  rw [reminderText_append]
  have q : ∀ Y : List Char, skipSpace ('"' :: Y) = '"' :: Y :=
    fun Y => skipSpace_cons '"' Y (by decide)
  have m6 := parseMembers_last (fuel + 1) "IsPrivate".toList
    (marshalBool r.IsPrivate ++ '\x7d' :: X) X (Json.bool r.IsPrivate)
    (scanString_key _ (by decide) _) (skipSpace_bool _ _) (parseValue_bool fuel _ _)
  have m5 := parseMembers_more (fuel + 2) "Message".toList _ _ X
    (Json.string (r.Message.flatMap escapeChar)) _
    (scanString_key _ (by decide) _) (q _)
    (parseValue_string (fuel + 1) _ _ (scanString_escaped r.Message _)) m6
  have m4 := parseMembers_more (fuel + 3) "Target".toList _ _ X
    (Json.string (r.Target.flatMap escapeChar)) _
    (scanString_key _ (by decide) _) (q _)
    (parseValue_string (fuel + 2) _ _ (scanString_escaped r.Target _)) m5
  have m3 := parseMembers_more (fuel + 4) "Requester".toList _ _ X
    (Json.string (r.Requester.flatMap escapeChar)) _
    (scanString_key _ (by decide) _) (q _)
    (parseValue_string (fuel + 3) _ _ (scanString_escaped r.Requester _)) m4
  have m2 := parseMembers_more (fuel + 5) "Time".toList _ _ X (Json.string time) _
    (scanString_key _ (by decide) _) (q _)
    (parseValue_string (fuel + 4) _ _ (ht _)) m3
  have m1 := parseMembers_more (fuel + 6) "StartTime".toList _ _ X (Json.string startTime) _
    (scanString_key _ (by decide) _) (q _)
    (parseValue_string (fuel + 5) _ _ (hs _)) m2
  rw [parseValue]
  simp only [if_true]
  rw [q]
  have hq : ¬ ('"' = '\x7d') := by decide
  simp only [hq, if_false, m1]
  rfl

/-! ## The value read back into the plugin -/

theorem decodeField_StartTime (tj : TimeJSON) (r : Reminder) (saved : Option JsonError)
    (v : Json) :
    decodeField tj r saved "StartTime".toList v
      = ⟨{ r with StartTime := (decodeTime tj r.StartTime v).1 }, saved,
          (decodeTime tj r.StartTime v).2⟩ := by
  unfold decodeField
  rw [if_pos (by decide)]

theorem decodeField_Time (tj : TimeJSON) (r : Reminder) (saved : Option JsonError) (v : Json) :
    decodeField tj r saved "Time".toList v
      = ⟨{ r with Time := (decodeTime tj r.Time v).1 }, saved, (decodeTime tj r.Time v).2⟩ := by
  unfold decodeField
  rw [if_neg (by decide), if_pos (by decide)]

theorem decodeField_Requester (tj : TimeJSON) (r : Reminder) (saved : Option JsonError)
    (v : Json) :
    decodeField tj r saved "Requester".toList v
      = ⟨{ r with Requester := (decodeString r.Requester saved v).1 },
          (decodeString r.Requester saved v).2, none⟩ := by
  unfold decodeField
  rw [if_neg (by decide), if_neg (by decide), if_pos (by decide)]

theorem decodeField_Target (tj : TimeJSON) (r : Reminder) (saved : Option JsonError)
    (v : Json) :
    decodeField tj r saved "Target".toList v
      = ⟨{ r with Target := (decodeString r.Target saved v).1 },
          (decodeString r.Target saved v).2, none⟩ := by
  unfold decodeField
  rw [if_neg (by decide), if_neg (by decide), if_neg (by decide), if_pos (by decide)]

theorem decodeField_Message (tj : TimeJSON) (r : Reminder) (saved : Option JsonError)
    (v : Json) :
    decodeField tj r saved "Message".toList v
      = ⟨{ r with Message := (decodeString r.Message saved v).1 },
          (decodeString r.Message saved v).2, none⟩ := by
  unfold decodeField
  rw [if_neg (by decide), if_neg (by decide), if_neg (by decide), if_neg (by decide),
    if_pos (by decide)]

theorem decodeField_IsPrivate (tj : TimeJSON) (r : Reminder) (saved : Option JsonError)
    (v : Json) :
    decodeField tj r saved "IsPrivate".toList v
      = ⟨{ r with IsPrivate := (decodeBool r.IsPrivate saved v).1 },
          (decodeBool r.IsPrivate saved v).2, none⟩ := by
  unfold decodeField
  rw [if_neg (by decide), if_neg (by decide), if_neg (by decide), if_neg (by decide),
    if_neg (by decide), if_pos (by decide)]

/-- The object the encoder writes for a `Reminder` is decoded into that
`Reminder`, whatever the element held before. -/
theorem decodeElem_reminderJson (tj : TimeJSON) (r : Reminder) (startTime time : GoString)
    (hs : tj.parse startTime = some r.StartTime) (ht : tj.parse time = some r.Time)
    (old : Option Reminder) (saved : Option JsonError) :
    decodeElem tj old saved (reminderJson startTime time r) = ⟨some r, saved, none⟩ := by
  have h : decodeFields tj (old.getD zeroReminder) saved
      [("StartTime".toList, Json.string startTime), ("Time".toList, Json.string time),
       ("Requester".toList, Json.string (r.Requester.flatMap escapeChar)),
       ("Target".toList, Json.string (r.Target.flatMap escapeChar)),
       ("Message".toList, Json.string (r.Message.flatMap escapeChar)),
       ("IsPrivate".toList, Json.bool r.IsPrivate)] = ⟨r, saved, none⟩ := by
    simp only [decodeFields, decodeField_StartTime, decodeField_Time, decodeField_Requester,
      decodeField_Target, decodeField_Message, decodeField_IsPrivate, decodeTime, decodeString,
      decodeBool, hs, ht, unquote_escaped]
  unfold decodeElem reminderJson
  simp only [h]

theorem marshalReminder_spec (tj : TimeJSON) (r : Reminder)
    (hs : TimeWritable tj r.StartTime) (ht : TimeWritable tj r.Time) :
    ∃ text j, marshalReminder tj r = some text ∧ 1 ≤ text.length ∧
      (∀ fuel X, parseValue (fuel + 8) (text ++ X) = some (j, X)) ∧
      (∀ X, ∃ Y, text ++ X = '\x7b' :: Y) ∧
      (∀ old saved, decodeElem tj old saved j = ⟨some r, saved, none⟩) := by
  obtain ⟨st, hsf, hsc, hsp⟩ := hs
  obtain ⟨tt, htf, htc, htp⟩ := ht
  have ms := marshalTime_of_text tj r.StartTime st hsf hsc
  have mt := marshalTime_of_text tj r.Time tt htf htc
  refine ⟨reminderText st tt r, reminderJson st tt r, ?_, ?_, ?_, ?_, ?_⟩
  · unfold marshalReminder
    rw [ms.1, mt.1]
    rfl
  · simp [reminderText]
  · intro fuel X
    exact parseValue_reminder st tt r ms.2 mt.2 fuel X
  · intro X
    exact ⟨_, rfl⟩
  · intro old saved
    exact decodeElem_reminderJson tj r st tt hsp htp old saved

theorem decodeElems_cons (tj : TimeJSON) (r : Reminder) (j : Json) (js : List Json)
    (hj : ∀ old saved, decodeElem tj old saved j = ⟨some r, saved, none⟩)
    (old done : List (Option Reminder)) (saved : Option JsonError) :
    decodeElems tj old done saved (j :: js)
      = decodeElems tj old.tail (done ++ [some r]) saved js := by
  rw [decodeElems]
  simp only [hj]

/-- The texts of the elements of a slice that is not empty are read as the
objects of its reminders, and these are decoded into the reminders, in order;
one unit of fuel for each element and eight for an object are enough. -/
theorem marshalElems_spec (tj : TimeJSON) (rs : List Reminder) (hne : rs ≠ [])
    (hw : ∀ r ∈ rs, TimeWritable tj r.StartTime ∧ TimeWritable tj r.Time) :
    ∃ text js, marshalElems tj rs = some text ∧ rs.length ≤ text.length ∧
      (∀ fuel X, parseElems (fuel + 8 + rs.length) (text ++ X) = some (js, X)) ∧
      (∀ X, ∃ Y, text ++ X = '\x7b' :: Y) ∧
      (∀ old done saved,
        decodeElems tj old done saved js = ⟨done ++ rs.map some, saved, none⟩) := by
  induction rs with
  | nil => exact absurd rfl hne
  | cons r rest ih =>
    obtain ⟨a, j, ha, hlen, hparse, hhead, hdec⟩ :=
      marshalReminder_spec tj r (hw r (List.mem_cons_self _ _)).1 (hw r (List.mem_cons_self _ _)).2
    by_cases hrest : rest = []
    · subst hrest
      refine ⟨a ++ [']'], [j], ?_, ?_, ?_, ?_, ?_⟩
      · simp [marshalElems, ha]
      · simp
      · intro fuel X
        show parseElems ((fuel + 8) + 1) _ = _
        rw [parseElems, List.append_assoc, hparse fuel]
        simp only [List.singleton_append]
        rw [skipSpace_cons ']' X (by decide)]
        simp
      · intro X
        obtain ⟨Y, hY⟩ := hhead ([']'] ++ X)
        exact ⟨Y, by rw [List.append_assoc, hY]⟩
      · intro old done saved
        rw [decodeElems_cons tj r j [] hdec, decodeElems]
        simp
    · obtain ⟨b, js, hb, hblen, hbparse, hbhead, hbdec⟩ :=
        ih hrest (fun x hx => hw x (List.mem_cons_of_mem _ hx))
      refine ⟨a ++ ',' :: b, j :: js, ?_, ?_, ?_, ?_, ?_⟩
      · simp [marshalElems, ha, hb, hrest]
      · simp only [List.length_append, List.length_cons]
        omega
      · intro fuel X
        show parseElems ((fuel + 8 + rest.length) + 1) _ = _
        have e : fuel + 8 + rest.length = (fuel + rest.length) + 8 := by omega
        rw [parseElems, List.append_assoc, e, hparse (fuel + rest.length)]
        simp only [List.cons_append]
        rw [skipSpace_cons ',' _ (by decide)]
        simp only [if_true]
        obtain ⟨Y, hY⟩ := hbhead X
        have hsk : skipSpace (b ++ X) = b ++ X := by
          rw [hY]; exact skipSpace_cons '\x7b' Y (by decide)
        rw [hsk, ← e, hbparse fuel X]
      · intro X
        obtain ⟨Y, hY⟩ := hhead ((',' :: b) ++ X)
        exact ⟨Y, by rw [List.append_assoc, hY]⟩
      · intro old done saved
        rw [decodeElems_cons tj r j js hdec, hbdec]
        simp

/-- The text of `Marshal` with the text of the elements given. -/
theorem pluginText_eq (elems : GoString) :
    '\x7b' :: (memberText pluginField ('[' :: elems) ++ ['\x7d'])
      = '\x7b' :: '"' :: (pluginField ++ '"' :: ':' :: '[' :: (elems ++ ['\x7d'])) := by
  simp only [memberText, List.cons_append, List.append_assoc]

theorem parseJson_plugin (elems : GoString) (js : List Json) (k : Nat) (hk : k ≤ elems.length)
    (hparse : ∀ fuel X, parseElems (fuel + 8 + k) (elems ++ X) = some (js, X))
    (hhead : ∀ X, ∃ Y, elems ++ X = '\x7b' :: Y) :
    parseJson ('\x7b' :: (memberText pluginField ('[' :: elems) ++ ['\x7d']))
      = some (Json.object [(pluginField, Json.array js)]) := by
  rw [pluginText_eq]
  have hlen : ('\x7b' :: '"' :: (pluginField ++ '"' :: ':' :: '[' ::
      (elems ++ ['\x7d']))).length + 1 = (elems.length + 14 + 1) + 1 := by
    simp [pluginField]
  have hv : parseValue (elems.length + 13 + 1) ('[' :: (elems ++ ['\x7d']))
      = some (Json.array js, ['\x7d']) := by
    obtain ⟨Y, hY⟩ := hhead ['\x7d']
    have e : elems.length + 13 = (elems.length + 5 - k) + 8 + k := by omega
    have hp := hparse (elems.length + 5 - k) ['\x7d']
    rw [← e, hY] at hp
    rw [parseValue]
    have h1 : ¬ ('[' = '\x7b') := by decide
    simp only [h1, if_false, if_true, hY]
    rw [skipSpace_cons '\x7b' Y (by decide)]
    have h2 : ¬ ('\x7b' = ']') := by decide
    simp only [h2, if_false, hp]
  have hm := parseMembers_last (elems.length + 14) pluginField
    ('[' :: (elems ++ ['\x7d'])) [] (Json.array js)
    (scanString_key _ (by decide) _) (skipSpace_cons '[' _ (by decide)) hv
  unfold parseJson
  rw [hlen, skipSpace_cons '\x7b' _ (by decide), parseValue]
  simp only [if_true]
  rw [skipSpace_cons '"' _ (by decide)]
  have h3 : ¬ ('"' = '\x7d') := by decide
  simp only [h3, if_false, hm]
  rfl

theorem decodePlugin_reminders (tj : TimeJSON) (js : List Json) (rs : List Reminder)
    (hdec : ∀ old done saved,
      decodeElems tj old done saved js = ⟨done ++ rs.map some, saved, none⟩)
    (old : List (Option Reminder)) :
    decodePlugin tj old (Json.object [(pluginField, Json.array js)])
      = ⟨rs.map some, none, none⟩ := by
  unfold decodePlugin
  simp only
  rw [decodePluginFields, if_pos (by decide)]
  simp only [decodeReminders, hdec, List.nil_append, decodePluginFields]

/-- What `Save` returns for a plugin whose times `time.Time` writes and reads
back, and what `Load` makes of it, whatever the slice held before. -/
theorem Load_Save (tj : TimeJSON) (p q : ReminderPlugin)
    (hw : ∀ r ∈ p.Reminders, TimeWritable tj r.StartTime ∧ TimeWritable tj r.Time) :
    ∃ data, Save tj p = Except.ok data ∧
      Load tj (some data) q = ⟨none, none, p.Reminders.map some, true⟩ := by
  by_cases hne : p.Reminders = []
  · refine ⟨"\x7b\"Reminders\":[]\x7d".toList, ?_, ?_⟩
    · unfold Save Marshal
      rw [hne]
      rfl
    · have hp : parseJson "\x7b\"Reminders\":[]\x7d".toList
          = some (Json.object [(pluginField, Json.array [])]) := by rfl
      unfold Load Unmarshal
      simp only [hp, hne]
      rw [decodePlugin_reminders tj [] [] (fun old done saved => by simp [decodeElems])]
  · obtain ⟨elems, js, hm, hlen, hparse, hhead, hdec⟩ := marshalElems_spec tj p.Reminders hne hw
    refine ⟨'\x7b' :: (memberText pluginField ('[' :: elems) ++ ['\x7d']), ?_, ?_⟩
    · unfold Save Marshal
      rw [hm]
    · have hp := parseJson_plugin elems js p.Reminders.length hlen hparse hhead
      unfold Load Unmarshal
      simp only [hp]
      rw [decodePlugin_reminders tj js p.Reminders hdec]

/-! ## The fuel of the scanner -/

theorem skipSpace_length_le (cs : List Char) : (skipSpace cs).length ≤ cs.length := by
  unfold skipSpace
  induction cs with
  | nil => simp
  | cons c cs ih =>
    rw [List.dropWhile_cons]
    split
    · simp only [List.length_cons]; omega
    · exact Nat.le_refl _

theorem length_dropWhile_le {α : Type} (f : α → Bool) (l : List α) :
    (l.dropWhile f).length ≤ l.length := by
  induction l with
  | nil => simp
  | cons a l ih =>
    rw [List.dropWhile_cons]
    split
    · simp only [List.length_cons]; omega
    · exact Nat.le_refl _

theorem pushChar_eq_some (c : Char) (r : Option (GoString × List Char)) (raw after : List Char)
    (h : pushChar c r = some (raw, after)) : ∃ raw1, r = some (raw1, after) := by
  cases r with
  | none => simp [pushChar] at h
  | some x =>
    obtain ⟨raw1, after1⟩ := x
    simp only [pushChar, Option.some.injEq, Prod.mk.injEq] at h
    exact ⟨raw1, by rw [h.2]⟩

theorem scanStringFrom_length (st : StringState) (cs raw after : List Char)
    (h : scanStringFrom st cs = some (raw, after)) : after.length < cs.length := by
  induction cs generalizing st raw with
  | nil => cases st <;> simp [scanStringFrom] at h
  | cons c cs ih =>
    cases st with
    | plain =>
      rw [scanStringFrom] at h
      split at h
      · simp only [Option.some.injEq, Prod.mk.injEq] at h
        rw [← h.2]; simp
      · split at h
        · obtain ⟨raw1, h1⟩ := pushChar_eq_some _ _ _ _ h
          have := ih _ _ h1
          simp only [List.length_cons]; omega
        · split at h
          · cases h
          · obtain ⟨raw1, h1⟩ := pushChar_eq_some _ _ _ _ h
            have := ih _ _ h1
            simp only [List.length_cons]; omega
    | escape =>
      rw [scanStringFrom] at h
      split at h
      · obtain ⟨raw1, h1⟩ := pushChar_eq_some _ _ _ _ h
        have := ih _ _ h1
        simp only [List.length_cons]; omega
      · split at h
        · obtain ⟨raw1, h1⟩ := pushChar_eq_some _ _ _ _ h
          have := ih _ _ h1
          simp only [List.length_cons]; omega
        · cases h
    | hex more =>
      rw [scanStringFrom] at h
      split at h
      · obtain ⟨raw1, h1⟩ := pushChar_eq_some _ _ _ _ h
        have := ih _ _ h1
        simp only [List.length_cons]; omega
      · cases h

theorem scanDigits_length (cs raw after : List Char) (h : scanDigits cs = some (raw, after)) :
    after.length ≤ cs.length := by
  unfold scanDigits at h
  split at h
  · cases h
  · simp only [Option.some.injEq, Prod.mk.injEq] at h
    rw [← h.2]
    exact length_dropWhile_le _ _

theorem scanExponent_length (cs raw after : List Char)
    (h : scanExponent cs = some (raw, after)) : after.length ≤ cs.length := by
  unfold scanExponent at h
  split at h
  · simp only [Option.some.injEq, Prod.mk.injEq] at h
    rw [← h.2]
  · split at h
    · split at h
      · cases h
      · split at h
        · split at h
          · rename_i ds after1 hd
            simp only [Option.some.injEq, Prod.mk.injEq] at h
            have := scanDigits_length _ _ _ hd
            rw [← h.2]
            simp only [List.length_cons]; omega
          · cases h
        · split at h
          · rename_i ds after1 hd
            simp only [Option.some.injEq, Prod.mk.injEq] at h
            have := scanDigits_length _ _ _ hd
            rw [← h.2]
            simp only [List.length_cons] at this ⊢; omega
          · cases h
    · simp only [Option.some.injEq, Prod.mk.injEq] at h
      rw [← h.2]

theorem scanFraction_length (cs raw after : List Char)
    (h : scanFraction cs = some (raw, after)) : after.length ≤ cs.length := by
  unfold scanFraction at h
  split at h
  · simp only [Option.some.injEq, Prod.mk.injEq] at h
    rw [← h.2]
  · split at h
    · split at h
      · rename_i ds after1 hd
        split at h
        · rename_i ex after2 he
          simp only [Option.some.injEq, Prod.mk.injEq] at h
          have h1 := scanDigits_length _ _ _ hd
          have h2 := scanExponent_length _ _ _ he
          rw [← h.2]
          simp only [List.length_cons]; omega
        · cases h
      · cases h
    · exact scanExponent_length _ _ _ h

theorem scanUnsigned_length (cs raw after : List Char)
    (h : scanUnsigned cs = some (raw, after)) : after.length < cs.length := by
  cases cs with
  | nil => simp [scanUnsigned] at h
  | cons d rest =>
    simp only [scanUnsigned] at h
    split at h
    · split at h
      · rename_i fr after1 hf
        simp only [Option.some.injEq, Prod.mk.injEq] at h
        have := scanFraction_length _ _ _ hf
        rw [← h.2]
        simp only [List.length_cons]; omega
      · cases h
    · split at h
      · split at h
        · rename_i fr after1 hf
          simp only [Option.some.injEq, Prod.mk.injEq] at h
          have h1 := scanFraction_length _ _ _ hf
          have h2 := length_dropWhile_le isDigit09 rest
          rw [← h.2]
          simp only [List.length_cons]; omega
        · cases h
      · cases h

theorem scanNumber_length (cs raw after : List Char)
    (h : scanNumber cs = some (raw, after)) : after.length < cs.length := by
  unfold scanNumber at h
  split at h
  · cases h
  · split at h
    · split at h
      · rename_i raw1 after1 hu
        simp only [Option.some.injEq, Prod.mk.injEq] at h
        have := scanUnsigned_length _ _ _ hu
        rw [← h.2]
        simp only [List.length_cons]; omega
      · cases h
    · exact scanUnsigned_length _ _ _ h

theorem scanName_length (name cs after : List Char) (hn : name ≠ [])
    (h : scanName name cs = some after) : after.length < cs.length := by
  unfold scanName at h
  split at h
  · rename_i hp
    simp only [Option.some.injEq] at h
    obtain ⟨t, ht⟩ := (HasPrefix_iff cs name).mp hp
    rw [← h, ← ht]
    cases name with
    | nil => exact absurd rfl hn
    | cons a name => simp; omega
  · cases h

theorem parseValue_zero (cs : List Char) : parseValue 0 cs = none := by
  rw [parseValue]

theorem parseElems_zero (cs : List Char) : parseElems 0 cs = none := by
  rw [parseElems]

theorem parseMembers_zero (cs : List Char) : parseMembers 0 cs = none := by
  rw [parseMembers]

theorem parseValue_leaf (a b : Nat) (c : Char) (cs : List Char) (h1 : c ≠ '\x7b')
    (h2 : c ≠ '[') : parseValue (a + 1) (c :: cs) = parseValue (b + 1) (c :: cs) := by
  rw [parseValue, parseValue]
  simp only [h1, h2, if_false]

theorem parseValue_leaf_length (a : Nat) (c : Char) (cs : List Char) (v : Json)
    (rest : List Char) (h1 : c ≠ '\x7b') (h2 : c ≠ '[')
    (h : parseValue (a + 1) (c :: cs) = some (v, rest)) : rest.length < (c :: cs).length := by
  rw [parseValue] at h
  simp only [h1, h2, if_false] at h
  split at h
  · split at h
    · rename_i raw after hs
      simp only [Option.some.injEq, Prod.mk.injEq] at h
      have := scanStringFrom_length _ _ _ _ hs
      rw [← h.2]
      simp only [List.length_cons]; omega
    · cases h
  · split at h
    · split at h
      · rename_i after hs
        simp only [Option.some.injEq, Prod.mk.injEq] at h
        have := scanName_length _ _ _ (by decide) hs
        rw [← h.2]; exact this
      · cases h
    · split at h
      · split at h
        · rename_i after hs
          simp only [Option.some.injEq, Prod.mk.injEq] at h
          have := scanName_length _ _ _ (by decide) hs
          rw [← h.2]; exact this
        · cases h
      · split at h
        · split at h
          · rename_i after hs
            simp only [Option.some.injEq, Prod.mk.injEq] at h
            have := scanName_length _ _ _ (by decide) hs
            rw [← h.2]; exact this
          · cases h
        · split at h
          · rename_i raw after hs
            simp only [Option.some.injEq, Prod.mk.injEq] at h
            have := scanNumber_length _ _ _ hs
            rw [← h.2]; exact this
          · cases h

/-- The result of a scan does not depend on the fuel, once the fuel is at
least the number of characters the scan takes. -/
theorem fuel_enough (n : Nat) :
    (∀ cs v rest, parseValue n cs = some (v, rest) → rest.length < cs.length ∧
      ∀ m, cs.length ≤ m + rest.length → parseValue m cs = some (v, rest)) ∧
    (∀ cs vs rest, parseElems n cs = some (vs, rest) → rest.length < cs.length ∧
      ∀ m, cs.length ≤ m + rest.length → parseElems m cs = some (vs, rest)) ∧
    (∀ cs ms rest, parseMembers n cs = some (ms, rest) → rest.length < cs.length ∧
      ∀ m, cs.length ≤ m + rest.length → parseMembers m cs = some (ms, rest)) := by
  induction n with
  | zero =>
    refine ⟨fun cs v rest h => ?_, fun cs v rest h => ?_, fun cs v rest h => ?_⟩
    · rw [parseValue_zero] at h; cases h
    · rw [parseElems_zero] at h; cases h
    · rw [parseMembers_zero] at h; cases h
  | succ n ih =>
    obtain ⟨ihP, ihQ, ihR⟩ := ih
    refine ⟨fun cs v rest h => ?_, fun cs vs rest h => ?_, fun cs ms rest h => ?_⟩
    · -- parseValue
      cases cs with
      | nil => rw [parseValue] at h; cases h
      | cons c cs0 =>
        by_cases hb : c = '\x7b'
        · subst hb
          rw [parseValue] at h
          simp only [if_true] at h
          cases hs : skipSpace cs0 with
          | nil => rw [hs] at h; cases h
          | cons d after =>
            rw [hs] at h
            simp only at h
            have hsl := skipSpace_length_le cs0
            rw [hs] at hsl
            simp only [List.length_cons] at hsl
            by_cases hd : d = '\x7d'
            · rw [if_pos hd] at h
              simp only [Option.some.injEq, Prod.mk.injEq] at h
              obtain ⟨rfl, rfl⟩ := h
              refine ⟨by simp only [List.length_cons]; omega, fun m hm => ?_⟩
              obtain ⟨k, rfl⟩ : ∃ k, m = k + 1 :=
                ⟨m - 1, by simp only [List.length_cons] at hm; omega⟩
              rw [parseValue]
              simp only [if_true, hs, if_pos hd]
            · rw [if_neg hd] at h
              cases hpm : parseMembers n (d :: after) with
              | none => rw [hpm] at h; cases h
              | some r =>
                obtain ⟨ms, after1⟩ := r
                rw [hpm] at h
                simp only [Option.some.injEq, Prod.mk.injEq] at h
                obtain ⟨rfl, rfl⟩ := h
                obtain ⟨hl, hm1⟩ := ihR _ _ _ hpm
                simp only [List.length_cons] at hl
                refine ⟨by simp only [List.length_cons]; omega, fun m hm => ?_⟩
                obtain ⟨k, rfl⟩ : ∃ k, m = k + 1 :=
                  ⟨m - 1, by simp only [List.length_cons] at hm; omega⟩
                rw [parseValue]
                simp only [if_true, hs, if_neg hd]
                rw [hm1 k (by simp only [List.length_cons] at hm ⊢; omega)]
        · by_cases hk : c = '['
          · subst hk
            rw [parseValue] at h
            simp only [hb, if_false, if_true] at h
            cases hs : skipSpace cs0 with
            | nil => rw [hs] at h; cases h
            | cons d after =>
              rw [hs] at h
              simp only at h
              have hsl := skipSpace_length_le cs0
              rw [hs] at hsl
              simp only [List.length_cons] at hsl
              by_cases hd : d = ']'
              · rw [if_pos hd] at h
                simp only [Option.some.injEq, Prod.mk.injEq] at h
                obtain ⟨rfl, rfl⟩ := h
                refine ⟨by simp only [List.length_cons]; omega, fun m hm => ?_⟩
                obtain ⟨k, rfl⟩ : ∃ k, m = k + 1 :=
                  ⟨m - 1, by simp only [List.length_cons] at hm; omega⟩
                rw [parseValue]
                simp only [hb, if_false, if_true, hs, if_pos hd]
              · rw [if_neg hd] at h
                cases hpm : parseElems n (d :: after) with
                | none => rw [hpm] at h; cases h
                | some r =>
                  obtain ⟨es, after1⟩ := r
                  rw [hpm] at h
                  simp only [Option.some.injEq, Prod.mk.injEq] at h
                  obtain ⟨rfl, rfl⟩ := h
                  obtain ⟨hl, hm1⟩ := ihQ _ _ _ hpm
                  simp only [List.length_cons] at hl
                  refine ⟨by simp only [List.length_cons]; omega, fun m hm => ?_⟩
                  obtain ⟨k, rfl⟩ : ∃ k, m = k + 1 :=
                    ⟨m - 1, by simp only [List.length_cons] at hm; omega⟩
                  rw [parseValue]
                  simp only [hb, if_false, if_true, hs, if_neg hd]
                  rw [hm1 k (by simp only [List.length_cons] at hm ⊢; omega)]
          · have hlen := parseValue_leaf_length n c cs0 v rest hb hk h
            refine ⟨hlen, fun m hm => ?_⟩
            obtain ⟨k, rfl⟩ : ∃ k, m = k + 1 := ⟨m - 1, by omega⟩
            rw [parseValue_leaf k n c cs0 hb hk]
            exact h
    · -- parseElems
      rw [parseElems] at h
      cases hpv : parseValue n cs with
      | none => rw [hpv] at h; cases h
      | some r =>
        obtain ⟨v, after⟩ := r
        rw [hpv] at h
        simp only at h
        obtain ⟨hl, hv⟩ := ihP _ _ _ hpv
        cases hs : skipSpace after with
        | nil => rw [hs] at h; cases h
        | cons d more =>
          rw [hs] at h
          simp only at h
          have hsl := skipSpace_length_le after
          rw [hs] at hsl
          simp only [List.length_cons] at hsl
          by_cases hd : d = ','
          · rw [if_pos hd] at h
            cases hpe : parseElems n (skipSpace more) with
            | none => rw [hpe] at h; cases h
            | some r2 =>
              obtain ⟨vs1, rest1⟩ := r2
              rw [hpe] at h
              simp only [Option.some.injEq, Prod.mk.injEq] at h
              obtain ⟨rfl, rfl⟩ := h
              obtain ⟨hl2, he⟩ := ihQ _ _ _ hpe
              have hsl2 := skipSpace_length_le more
              refine ⟨by omega, fun m hm => ?_⟩
              obtain ⟨k, rfl⟩ : ∃ k, m = k + 1 := ⟨m - 1, by omega⟩
              rw [parseElems, hv k (by omega)]
              simp only [hs, if_pos hd]
              rw [he k (by omega)]
          · rw [if_neg hd] at h
            by_cases hd2 : d = ']'
            · rw [if_pos hd2] at h
              simp only [Option.some.injEq, Prod.mk.injEq] at h
              obtain ⟨rfl, rfl⟩ := h
              refine ⟨by omega, fun m hm => ?_⟩
              obtain ⟨k, rfl⟩ : ∃ k, m = k + 1 := ⟨m - 1, by omega⟩
              rw [parseElems, hv k (by omega)]
              simp only [hs, if_neg hd, if_pos hd2]
            · rw [if_neg hd2] at h
              cases h
    · -- parseMembers
      cases cs with
      | nil => rw [parseMembers] at h; cases h
      | cons q afterQuote =>
        rw [parseMembers] at h
        by_cases hq : q = '"'
        · rw [if_pos hq] at h
          cases hk : scanString afterQuote with
          | none => rw [hk] at h; cases h
          | some r0 =>
            obtain ⟨key, afterKey⟩ := r0
            rw [hk] at h
            simp only at h
            have hkl := scanStringFrom_length _ _ _ _ hk
            cases hs0 : skipSpace afterKey with
            | nil => rw [hs0] at h; cases h
            | cons colon afterColon =>
              rw [hs0] at h
              simp only at h
              have hsl0 := skipSpace_length_le afterKey
              rw [hs0] at hsl0
              simp only [List.length_cons] at hsl0
              by_cases hc : colon = ':'
              · rw [if_pos hc] at h
                have hsl1 := skipSpace_length_le afterColon
                cases hpv : parseValue n (skipSpace afterColon) with
                | none => rw [hpv] at h; cases h
                | some r =>
                  obtain ⟨v, after⟩ := r
                  rw [hpv] at h
                  simp only at h
                  obtain ⟨hl, hv⟩ := ihP _ _ _ hpv
                  cases hs : skipSpace after with
                  | nil => rw [hs] at h; cases h
                  | cons d more =>
                    rw [hs] at h
                    simp only at h
                    have hsl := skipSpace_length_le after
                    rw [hs] at hsl
                    simp only [List.length_cons] at hsl
                    by_cases hd : d = ','
                    · rw [if_pos hd] at h
                      cases hpe : parseMembers n (skipSpace more) with
                      | none => rw [hpe] at h; cases h
                      | some r2 =>
                        obtain ⟨ms1, rest1⟩ := r2
                        rw [hpe] at h
                        simp only [Option.some.injEq, Prod.mk.injEq] at h
                        obtain ⟨rfl, rfl⟩ := h
                        obtain ⟨hl2, he⟩ := ihR _ _ _ hpe
                        have hsl2 := skipSpace_length_le more
                        refine ⟨by simp only [List.length_cons]; omega, fun m hm => ?_⟩
                        simp only [List.length_cons] at hm
                        obtain ⟨k, rfl⟩ : ∃ k, m = k + 1 := ⟨m - 1, by omega⟩
                        rw [parseMembers]
                        simp only [if_pos hq, hk, hs0, if_pos hc]
                        rw [hv k (by omega)]
                        simp only [hs, if_pos hd]
                        rw [he k (by omega)]
                    · rw [if_neg hd] at h
                      by_cases hd2 : d = '\x7d'
                      · rw [if_pos hd2] at h
                        simp only [Option.some.injEq, Prod.mk.injEq] at h
                        obtain ⟨rfl, rfl⟩ := h
                        refine ⟨by simp only [List.length_cons]; omega, fun m hm => ?_⟩
                        simp only [List.length_cons] at hm
                        obtain ⟨k, rfl⟩ : ∃ k, m = k + 1 := ⟨m - 1, by omega⟩
                        rw [parseMembers]
                        simp only [if_pos hq, hk, hs0, if_pos hc]
                        rw [hv k (by omega)]
                        simp only [hs, if_neg hd, if_pos hd2]
                      · rw [if_neg hd2] at h
                        cases h
              · rw [if_neg hc] at h
                cases h
        · rw [if_neg hq] at h
          cases h

/-- The fuel `parseJson` gives the scanner is enough: whenever some fuel lets
the scanner read a value at the start of the text, the length of the text plus
one does. -/
theorem parseValue_fuel (n : Nat) (cs : List Char) (v : Json) (rest : List Char)
    (h : parseValue n cs = some (v, rest)) : parseValue (cs.length + 1) cs = some (v, rest) :=
  ((fuel_enough n).1 cs v rest h).2 (cs.length + 1) (by omega)

/-! ## Save and Load -/

/-- The text `Save` returns for a plugin that holds the reminder of
`remindme 1 minute | walk the dog`. -/
theorem sample_saved :
    Save sampleTimeJSON ⟨[sampleWalk]⟩ = Except.ok
      ("\x7b\"Reminders\":[\x7b\"StartTime\":\"0001-01-01T00:00:00Z\","
        ++ "\"Time\":\"0001-01-01T00:01:00Z\",\"Requester\":\"R\",\"Target\":\"42\","
        ++ "\"Message\":\"walk the dog\",\"IsPrivate\":true\x7d]\x7d").toList := by
  rfl

theorem sampleTime_writable :
    TimeWritable sampleTimeJSON 0 ∧ TimeWritable sampleTimeJSON (60 * Second) :=
  ⟨⟨"0001-01-01T00:00:00Z".toList, by decide, by decide, by decide⟩,
   ⟨"0001-01-01T00:01:00Z".toList, by decide, by decide, by decide⟩⟩

/-- The round trip of `samplePersisted` with the sample methods of
`time.Time`. -/
theorem samplePersisted_round_trip :
    ∃ data, Save sampleTimeJSON samplePersisted = Except.ok data ∧
      Load sampleTimeJSON (some data) NewReminderPlugin
        = ⟨none, none, samplePersisted.Reminders.map some, true⟩ :=
  Load_Save sampleTimeJSON samplePersisted NewReminderPlugin (by
    intro r hr
    simp only [samplePersisted, List.mem_cons, List.mem_singleton, List.not_mem_nil,
      or_false] at hr
    rcases hr with rfl | rfl
    · exact ⟨sampleTime_writable.1, sampleTime_writable.2⟩
    · exact ⟨sampleTime_writable.1, sampleTime_writable.2⟩)

/-! ## The calendar -/

theorem daysSinceEpoch_cycles (n400 n100 n4 n1 : Int) (h100 : 0 ≤ n100 ∧ n100 ≤ 3)
    (h4 : 0 ≤ n4 ∧ n4 ≤ 24) (h1 : 0 ≤ n1 ∧ n1 ≤ 3) :
    daysSinceEpoch (400 * n400 + 100 * n100 + 4 * n4 + n1 + 1)
      = 146097 * n400 + 36524 * n100 + 1461 * n4 + 365 * n1 := by
  simp only [daysSinceEpoch]
  have e1 : (400 * n400 + 100 * n100 + 4 * n4 + n1 + 1 - 1) / 400 = n400 := by omega
  rw [e1]
  have e2 : (400 * n400 + 100 * n100 + 4 * n4 + n1 + 1 - 1 - 400 * n400) / 100 = n100 := by omega
  rw [e2]
  have e3 : (400 * n400 + 100 * n100 + 4 * n4 + n1 + 1 - 1 - 400 * n400 - 100 * n100) / 4
      = n4 := by omega
  rw [e3]
  omega

theorem absDate_cycles (days : Int) :
    ∃ n400 n100 n4 n1 : Int, (0 ≤ n100 ∧ n100 ≤ 3) ∧ (0 ≤ n4 ∧ n4 ≤ 24) ∧ (0 ≤ n1 ∧ n1 ≤ 3) ∧
      (absDate days).1 = 400 * n400 + 100 * n100 + 4 * n4 + n1 + 1 ∧
      days = 146097 * n400 + 36524 * n100 + 1461 * n4 + 365 * n1 + (absDate days).2 ∧
      0 ≤ (absDate days).2 ∧ (absDate days).2 ≤ 365 ∧
      ((absDate days).2 = 365 → n1 = 3 ∧ (n4 = 24 → n100 = 3)) := by
  simp only [absDate]
  generalize hq : days / 146097 = q
  generalize hd1 : days - 146097 * q = d1
  generalize ha : d1 / 36524 = a
  generalize hb : a / 4 = b
  generalize hd2 : d1 - 36524 * (a - b) = d2
  generalize hc : d2 / 1461 = c
  generalize hd3 : d2 - 1461 * c = d3
  generalize he : d3 / 365 = e
  generalize hf : e / 4 = f
  have b1 : 0 ≤ d1 ∧ d1 ≤ 146096 := by omega
  have b2 : 0 ≤ a ∧ a ≤ 4 := by omega
  have b3 : 0 ≤ a - b ∧ a - b ≤ 3 := by omega
  have b4 : 0 ≤ d2 ∧ d2 ≤ 36524 := by omega
  have b5 : 0 ≤ c ∧ c ≤ 24 := by omega
  have b6 : 0 ≤ d3 ∧ d3 ≤ 1460 := by omega
  have b7 : 0 ≤ e ∧ e ≤ 4 := by omega
  have b8 : 0 ≤ e - f ∧ e - f ≤ 3 := by omega
  refine ⟨q, a - b, c, e - f, b3, b5, b8, rfl, by omega, by omega, by omega, ?_⟩
  intro h
  constructor
  · omega
  · intro hc24
    omega

/-- The day of the year that `absDate` returns is a day of the year it
returns, and the two give the day back. -/
theorem absDate_spec (days : Int) :
    daysSinceEpoch (absDate days).1 + (absDate days).2 = days ∧
    0 ≤ (absDate days).2 ∧
    (absDate days).2 < 365 + (if isLeap (absDate days).1 = true then 1 else 0) := by
  obtain ⟨n400, n100, n4, n1, h100, h4, h1, hy, hd, h0, h365, hl⟩ := absDate_cycles days
  generalize (absDate days).1 = y at hy hd h0 h365 hl ⊢
  generalize (absDate days).2 = yd at hy hd h0 h365 hl ⊢
  subst hy
  refine ⟨?_, h0, ?_⟩
  · rw [daysSinceEpoch_cycles n400 n100 n4 n1 h100 h4 h1]
    omega
  · by_cases h : yd = 365
    · obtain ⟨h3, h24⟩ := hl h
      have hleap : isLeap (400 * n400 + 100 * n100 + 4 * n4 + n1 + 1) = true := by
        simp only [isLeap, Bool.and_eq_true, Bool.or_eq_true, decide_eq_true_eq]
        by_cases hc : n4 = 24
        · have := h24 hc
          exact ⟨by omega, Or.inr (by omega)⟩
        · exact ⟨by omega, Or.inl (by omega)⟩
      rw [if_pos hleap]
      omega
    · split <;> omega

/-- The year of a day is from 0 to 9999 exactly for the days from 1 January of
the year 0 to 31 December of the year 9999. -/
theorem absDate_year_range (days : Int) :
    (0 ≤ (absDate days).1 ∧ (absDate days).1 ≤ 9999) ↔ (-366 ≤ days ∧ days < 3652059) := by
  obtain ⟨n400, n100, n4, n1, h100, h4, h1, hy, hd, h0, h365, hl⟩ := absDate_cycles days
  generalize (absDate days).1 = y at hy hd h0 h365 hl ⊢
  generalize (absDate days).2 = yd at hy hd h0 h365 hl ⊢
  subst hy
  obtain ⟨h100a, h100b⟩ := h100
  obtain ⟨h1a, h1b⟩ := h1
  by_cases h : yd = 365
  · obtain ⟨h3, h24⟩ := hl h
    by_cases hc : n4 = 24
    · have := h24 hc
      omega
    · interval_cases n100 <;> omega
  · interval_cases n100 <;> interval_cases n1 <;> omega

/-- The condition on the year of `inRFC3339`, as a range of the seconds of the
instant in its zone: from 0000-01-01 00:00:00 to 9999-12-31 23:59:59. -/
theorem yearIn_range (offset t : Int) :
    (0 ≤ yearIn offset t ∧ yearIn offset t ≤ 9999) ↔
      (-366 * 86400 ≤ t / Second + offset ∧ t / Second + offset < 3652059 * 86400) := by
  unfold yearIn
  rw [absDate_year_range]
  omega

set_option maxRecDepth 100000 in
/-- The month and the day that `monthDay` returns are a date of the year, and
`Date` counts the day of the year back from them. -/
theorem monthDay_spec (leap : Bool) (yday : Nat) (h : yday < 365 ∨ (yday = 365 ∧ leap = true)) :
    1 ≤ (monthDay leap yday).1 ∧ (monthDay leap yday).1 ≤ 12 ∧
    1 ≤ (monthDay leap yday).2 ∧
    (monthDay leap yday).2 ≤ (if (monthDay leap yday).1 = 2 ∧ leap = true then 29
      else daysBefore.getD (monthDay leap yday).1 0
        - daysBefore.getD ((monthDay leap yday).1 - 1) 0) ∧
    daysBefore.getD ((monthDay leap yday).1 - 1) 0
      + (if leap = true ∧ (monthDay leap yday).1 ≥ 3 then 1 else 0)
      + ((monthDay leap yday).2 - 1) = yday := by
  have key : ∀ leap : Bool, ∀ yday < 366, (yday < 365 ∨ (yday = 365 ∧ leap = true)) →
      1 ≤ (monthDay leap yday).1 ∧ (monthDay leap yday).1 ≤ 12 ∧
      1 ≤ (monthDay leap yday).2 ∧
      (monthDay leap yday).2 ≤ (if (monthDay leap yday).1 = 2 ∧ leap = true then 29
        else daysBefore.getD (monthDay leap yday).1 0
          - daysBefore.getD ((monthDay leap yday).1 - 1) 0) ∧
      daysBefore.getD ((monthDay leap yday).1 - 1) 0
        + (if leap = true ∧ (monthDay leap yday).1 ≥ 3 then 1 else 0)
        + ((monthDay leap yday).2 - 1) = yday := by
    decide
  exact key leap yday (by omega) h

/-! ## The digits of the text -/

theorem digit_spec (n : Nat) :
    (digit n).toNat = 48 + n % 10 ∧ isDigit09 (digit n) = true ∧ isTimeChar (digit n) = true := by
  have h : n % 10 < 10 := Nat.mod_lt _ (by decide)
  unfold digit
  generalize n % 10 = k at h
  interval_cases k <;> decide

theorem digitsValue_append (s : GoString) (c : Char) :
    digitsValue (s ++ [c]) = digitsValue s * 10 + (c.toNat - 48) := by
  simp [digitsValue, List.foldl_append]

theorem appendInt_length (width x : Nat) : (appendInt width x).length = width := by
  induction width generalizing x with
  | zero => rfl
  | succ w ih => simp [appendInt, ih]

theorem appendInt_digits (width x : Nat) : (appendInt width x).all isDigit09 = true := by
  induction width generalizing x with
  | zero => rfl
  | succ w ih => simp [appendInt, ih, (digit_spec x).2.1]

theorem appendInt_timeChars (width x : Nat) : (appendInt width x).all isTimeChar = true := by
  induction width generalizing x with
  | zero => rfl
  | succ w ih => simp [appendInt, ih, (digit_spec x).2.2]

theorem appendInt_value (width x : Nat) : digitsValue (appendInt width x) = x % 10 ^ width := by
  induction width generalizing x with
  | zero => simp [appendInt, digitsValue, Nat.mod_one]
  | succ w ih =>
    rw [appendInt, digitsValue_append, ih, (digit_spec x).1, pow_succ, Nat.mul_comm (10 ^ w) 10,
      Nat.mod_mul]
    omega

/-- The number `parseUint` reads in the text `appendInt` writes. -/
theorem parseUint_appendInt (width x lo hi : Nat) (hx : x < 10 ^ width) (hlo : lo ≤ x)
    (hhi : x ≤ hi) : parseUint (appendInt width x) lo hi = some x := by
  unfold parseUint
  rw [if_pos (appendInt_digits width x), appendInt_value, Nat.mod_eq_of_lt hx, if_neg (by omega)]

/-! ## The fractional second -/

theorem rdropWhile_zero_length (s : GoString) :
    (List.rdropWhile (fun c => decide (c = '0')) s).length ≤ s.length :=
  ( List.rdropWhile_prefix _ s).length_le

theorem digitsValue_trim (s : GoString) :
    digitsValue s = digitsValue (List.rdropWhile (fun c => decide (c = '0')) s)
      * 10 ^ (s.length - (List.rdropWhile (fun c => decide (c = '0')) s).length) := by
  induction s using List.reverseRecOn with
  | nil => simp [digitsValue]
  | append_singleton l c ih =>
    by_cases hc : c = '0'
    · have hl := rdropWhile_zero_length l
      rw [List.rdropWhile_concat_pos _ l c (by simpa using hc), digitsValue_append, ih, hc]
      have e : (l ++ ['0']).length - (List.rdropWhile (fun c => decide (c = '0')) l).length
          = (l.length - (List.rdropWhile (fun c => decide (c = '0')) l).length) + 1 := by
        simp only [List.length_append, List.length_singleton]
        omega
      rw [e, pow_succ]
      simp only [show ('0' : Char).toNat - 48 = 0 from rfl]
      ring
    · rw [List.rdropWhile_concat_neg _ l c (by simpa using hc)]
      simp

theorem all_of_initial {p : Char → Bool} {s t : GoString} (h : s <+: t) (ht : t.all p = true) :
    s.all p = true := by
  rw [List.all_eq_true] at ht ⊢
  exact fun c hc => ht c (h.subset hc)

/-- The nanoseconds `parseNanoseconds` reads in the text `appendNano` writes,
whatever follows it that starts with neither a digit nor a point. -/
theorem parseNanoseconds_appendNano (n : Nat) (hn : n < 10 ^ 9) (z : Char) (zs : GoString)
    (hz : isDigit09 z = false) (hp : z ≠ '.') :
    parseNanoseconds (appendNano n ++ z :: zs) = (n, z :: zs) := by
  unfold appendNano
  by_cases h0 : n = 0
  · rw [if_pos h0, h0, List.nil_append]
    cases zs with
    | nil => rfl
    | cons c1 rest =>
      unfold parseNanoseconds
      simp only [hp, false_and, if_false]
  · rw [if_neg h0]
    have hv := digitsValue_trim (appendInt 9 n)
    have hlen := rdropWhile_zero_length (appendInt 9 n)
    have hdig := all_of_initial
      ( List.rdropWhile_prefix (fun c => decide (c = '0')) (appendInt 9 n)) (appendInt_digits 9 n)
    rw [appendInt_value, Nat.mod_eq_of_lt hn, appendInt_length] at hv
    rw [appendInt_length] at hlen
    generalize List.rdropWhile (fun c => decide (c = '0')) (appendInt 9 n) = T at hv hlen hdig
    cases T with
    | nil =>
      simp [digitsValue] at hv
      exact absurd hv h0
    | cons c1 T1 =>
      have hc1 : isDigit09 c1 = true := by
        simp only [List.all_cons, Bool.and_eq_true] at hdig
        exact hdig.1
      have hT1 : ∀ a ∈ T1, isDigit09 a = true := by
        simp only [List.all_cons, Bool.and_eq_true, List.all_eq_true] at hdig
        exact hdig.2
      have htake : List.takeWhile isDigit09 (T1 ++ z :: zs) = T1 := by
        rw [List.takeWhile_append_of_pos hT1, List.takeWhile_cons_of_neg (by simp [hz])]
        simp
      have hdrop : List.dropWhile isDigit09 (T1 ++ z :: zs) = z :: zs := by
        rw [List.dropWhile_append_of_pos hT1, List.dropWhile_cons_of_neg (by simp [hz])]
      show parseNanoseconds ('.' :: c1 :: (T1 ++ z :: zs)) = (n, z :: zs)
      unfold parseNanoseconds
      simp only [hc1, and_self, if_true, htake, hdrop]
      have ht9 : (c1 :: T1).take 9 = c1 :: T1 := List.take_of_length_le hlen
      rw [ht9, ← hv]

/-! ## The zone -/

theorem appendInt_two (x : Nat) : appendInt 2 x = [digit (x / 10), digit x] := by
  simp [appendInt]

theorem tdiv_sixty (offset : Int) (hm : offset % 60 = 0) : Int.tdiv offset 60 = offset / 60 := by
  have e : offset = 60 * (offset / 60) := by omega
  conv_lhs => rw [e]
  exact Int.mul_tdiv_cancel_left _ (by decide)

theorem appendZone_head (offset : Int) :
    ∃ z zs, appendZone offset = z :: zs ∧ isDigit09 z = false ∧ z ≠ '.' := by
  unfold appendZone
  by_cases h0 : offset = 0
  · rw [if_pos h0]
    exact ⟨'Z', [], rfl, by decide, by decide⟩
  · rw [if_neg h0]
    by_cases hs : Int.tdiv offset 60 < 0
    · rw [if_pos hs]
      exact ⟨'-', _, rfl, by decide, by decide⟩
    · rw [if_neg hs]
      exact ⟨'+', _, rfl, by decide, by decide⟩

theorem appendZone_timeChars (offset : Int) : (appendZone offset).all isTimeChar = true := by
  unfold appendZone
  by_cases h0 : offset = 0
  · rw [if_pos h0]
    decide
  · rw [if_neg h0]
    have hsign : isTimeChar (if Int.tdiv offset 60 < 0 then '-' else '+') = true := by
      split <;> decide
    simp only [List.all_cons, List.all_append, hsign, appendInt_timeChars, Bool.true_and,
      Bool.and_true]
    decide

/-- The offset `parseZone` reads in the text `appendZone` writes, for an offset
of whole minutes and less than 24 hours. -/
theorem parseZone_appendZone (offset : Int) (hm : offset % 60 = 0) (h1 : -86400 < offset)
    (h2 : offset < 86400) : parseZone (appendZone offset) = some offset := by
  unfold appendZone
  by_cases h0 : offset = 0
  · rw [if_pos h0, h0]
    rfl
  · rw [if_neg h0, tdiv_sixty offset hm]
    generalize hk : offset / 60 = k
    have hH : k.natAbs / 60 ≤ 23 := by omega
    have hM : k.natAbs % 60 ≤ 59 := by omega
    have eH : parseUint (appendInt 2 (k.natAbs / 60)) 0 23 = some (k.natAbs / 60) :=
      parseUint_appendInt 2 _ 0 23 (by norm_num; omega) (by omega) hH
    have eM : parseUint (appendInt 2 (k.natAbs % 60)) 0 59 = some (k.natAbs % 60) :=
      parseUint_appendInt 2 _ 0 59 (by norm_num; omega) (by omega) hM
    simp only [appendInt_two] at eH eM ⊢
    by_cases hs : k < 0
    · rw [if_pos hs]
      have hn : (k.natAbs : Int) = -k := by omega
      generalize k.natAbs = n at hn hH hM eH eM ⊢
      unfold parseZone
      simp only [slice, List.cons_append, List.nil_append, List.drop, List.take,
        List.length_cons, List.length_nil, eH, eM]
      simp
      omega
    · rw [if_neg hs]
      have hn : (k.natAbs : Int) = k := by omega
      generalize k.natAbs = n at hn hH hM eH eM ⊢
      unfold parseZone
      simp only [slice, List.cons_append, List.nil_append, List.drop, List.take,
        List.length_cons, List.length_nil, eH, eM]
      simp
      omega

/-! ## The text of an instant read back -/

theorem appendInt_four (x : Nat) :
    appendInt 4 x = [digit (x / 10 / 10 / 10), digit (x / 10 / 10), digit (x / 10), digit x] := by
  simp [appendInt]

/-- The instant `parseRFC3339` reads in a text of the layout of RFC 3339 whose
numbers are in their ranges. -/
theorem parseRFC3339_fields (year month day hour min sec ns : Nat) (off : Int)
    (tail ztext : GoString) (hy : year ≤ 9999) (hmo : 1 ≤ month ∧ month ≤ 12)
    (hd : 1 ≤ day ∧ day ≤ daysIn month year) (hd2 : day ≤ 99) (hh : hour ≤ 23)
    (hmi : min ≤ 59) (hs : sec ≤ 59) (htail : parseNanoseconds tail = (ns, ztext))
    (hz : parseZone ztext = some off) :
    parseRFC3339 (appendInt 4 year ++ '-' :: (appendInt 2 month ++ '-' :: (appendInt 2 day
      ++ 'T' :: (appendInt 2 hour ++ ':' :: (appendInt 2 min ++ ':' :: (appendInt 2 sec
      ++ tail))))))
      = some ((dateDays year month day * 86400 + hour * 3600 + min * 60 + sec - off) * Second
          + ns) := by
  have eY : parseUint (appendInt 4 year) 0 9999 = some year :=
    parseUint_appendInt 4 _ 0 9999 (by norm_num; omega) (by omega) hy
  have eMo : parseUint (appendInt 2 month) 1 12 = some month :=
    parseUint_appendInt 2 _ 1 12 (by norm_num; omega) hmo.1 hmo.2
  have eD : parseUint (appendInt 2 day) 1 (daysIn month year) = some day :=
    parseUint_appendInt 2 _ 1 _ (by norm_num; omega) hd.1 hd.2
  have eH : parseUint (appendInt 2 hour) 0 23 = some hour :=
    parseUint_appendInt 2 _ 0 23 (by norm_num; omega) (by omega) hh
  have eMi : parseUint (appendInt 2 min) 0 59 = some min :=
    parseUint_appendInt 2 _ 0 59 (by norm_num; omega) (by omega) hmi
  have eS : parseUint (appendInt 2 sec) 0 59 = some sec :=
    parseUint_appendInt 2 _ 0 59 (by norm_num; omega) (by omega) hs
  simp only [appendInt_two, appendInt_four] at eY eMo eD eH eMi eS ⊢
  unfold parseRFC3339
  simp only [slice, List.cons_append, List.nil_append, List.drop, List.take, eY, eMo, eD, eH,
    eMi, eS, htail, hz]
  simp
  rw [htail]
  simp only [hz]

theorem appendNano_timeChars (n : Nat) : (appendNano n).all isTimeChar = true := by
  unfold appendNano
  split
  · rfl
  · rw [List.all_cons]
    rw [all_of_initial ( List.rdropWhile_prefix _ _) (appendInt_timeChars 9 n)]
    rfl

theorem dateDays_monthDay (year : Int) (yday : Nat)
    (h : yday < 365 ∨ (yday = 365 ∧ isLeap year = true)) :
    dateDays year (monthDay (isLeap year) yday).1 (monthDay (isLeap year) yday).2
      = daysSinceEpoch year + yday := by
  have hs := (monthDay_spec (isLeap year) yday h).2.2.2.2
  unfold dateDays
  generalize (monthDay (isLeap year) yday).1 = m at hs ⊢
  generalize (monthDay (isLeap year) yday).2 = d at hs ⊢
  generalize daysBefore.getD (m - 1) 0 = b at hs ⊢
  by_cases hc : isLeap year = true ∧ m ≥ 3
  · rw [if_pos hc] at hs
    rw [if_pos hc]
    omega
  · rw [if_neg hc] at hs
    rw [if_neg hc]
    omega

theorem daysIn_le (month : Nat) (year : Int) (hm : month ≤ 12) : daysIn month year ≤ 31 := by
  unfold daysIn
  split
  · omega
  · interval_cases month <;> decide

/-- The text `MarshalJSON` writes for an instant that RFC 3339 writes in full
is made of the characters of RFC 3339, and `UnmarshalJSON` reads the instant
back from it. -/
theorem parseRFC3339_appendStrictRFC3339 (offset t : Int) (hin : inRFC3339 offset t) :
    ∃ text, appendStrictRFC3339 offset t = some text ∧ text.all isTimeChar = true ∧
      parseRFC3339 text = some t := by
  obtain ⟨hy0, hy1, hm, ho1, ho2⟩ := hin
  unfold yearIn at hy0 hy1
  have hzone : ¬ 24 ≤ (Int.tdiv offset 60).natAbs / 60 := by
    rw [tdiv_sixty offset hm]
    omega
  obtain ⟨hdays, hyd0, hyd1⟩ := absDate_spec ((t / Second + offset) / 86400)
  have hsec : (0 : Int) ≤ (t / Second + offset) % 86400 ∧ (t / Second + offset) % 86400 < 86400 := by
    omega
  have hns : (0 : Int) ≤ t % Second ∧ t % Second < 1000000000 := by
    unfold Second
    omega
  have ht : t = t / Second * Second + t % Second := by
    have := Int.ediv_add_emod t Second
    linarith
  generalize hS : t / Second = S at *
  have hsod : S + offset = (S + offset) / 86400 * 86400 + (S + offset) % 86400 := by omega
  generalize hD : (S + offset) / 86400 = D at *
  generalize hsodE : (S + offset) % 86400 = sod at *
  generalize hnsE : t % Second = ns at *
  generalize hY : (absDate D).1 = y at *
  generalize hYd : (absDate D).2 = yd at *
  obtain ⟨yn, rfl⟩ : ∃ n : Nat, y = n := ⟨y.toNat, by omega⟩
  obtain ⟨ydn, rfl⟩ : ∃ n : Nat, yd = n := ⟨yd.toNat, by omega⟩
  obtain ⟨sodn, rfl⟩ : ∃ n : Nat, sod = n := ⟨sod.toNat, by omega⟩
  obtain ⟨nsn, rfl⟩ : ∃ n : Nat, ns = n := ⟨ns.toNat, by omega⟩
  have hyear : ¬ ((yn : Int) < 0 ∨ 9999 < (yn : Int)) := by omega
  have hleapday : ydn < 365 ∨ (ydn = 365 ∧ isLeap (yn : Int) = true) := by
    by_cases hl : isLeap (yn : Int) = true
    · rw [if_pos hl] at hyd1
      by_cases h5 : ydn < 365
      · exact Or.inl h5
      · exact Or.inr ⟨by omega, hl⟩
    · rw [if_neg hl] at hyd1
      exact Or.inl (by omega)
  obtain ⟨hm1, hm12, hd1, hdIn, _⟩ := monthDay_spec (isLeap (yn : Int)) ydn hleapday
  have hdate := dateDays_monthDay (yn : Int) ydn hleapday
  obtain ⟨z, zs, hzt, hzd, hzp⟩ := appendZone_head offset
  have htail : parseNanoseconds (appendNano nsn ++ appendZone offset)
      = (nsn, appendZone offset) := by
    rw [hzt]
    exact parseNanoseconds_appendNano nsn (by norm_num; omega) z zs hzd hzp
  have hz := parseZone_appendZone offset hm ho1 ho2
  have hfmt : appendStrictRFC3339 offset t = some
      (appendInt 4 yn ++ '-' :: (appendInt 2 (monthDay (isLeap (yn : Int)) ydn).1
        ++ '-' :: (appendInt 2 (monthDay (isLeap (yn : Int)) ydn).2
        ++ 'T' :: (appendInt 2 (sodn / 3600) ++ ':' :: (appendInt 2 (sodn % 3600 / 60)
        ++ ':' :: (appendInt 2 (sodn % 60) ++ (appendNano nsn ++ appendZone offset))))))) := by
    unfold appendStrictRFC3339
    simp only [hS, hD, hY, hYd, hsodE, hnsE, Int.toNat_ofNat, if_neg hyear, if_neg hzone]
  refine ⟨_, hfmt, ?_, ?_⟩
  · simp only [List.all_append, List.all_cons, appendInt_timeChars, appendNano_timeChars,
      appendZone_timeChars, Bool.and_true, Bool.true_and]
    decide
  · have hdIn2 : (monthDay (isLeap (yn : Int)) ydn).2
        ≤ daysIn (monthDay (isLeap (yn : Int)) ydn).1 yn := hdIn
    have hd31 := daysIn_le (monthDay (isLeap (yn : Int)) ydn).1 yn hm12
    rw [parseRFC3339_fields yn _ _ (sodn / 3600) (sodn % 3600 / 60) (sodn % 60) nsn offset _ _
      (by omega) ⟨hm1, hm12⟩ ⟨hd1, hdIn2⟩ (by omega) (by omega) (by omega) (by omega) htail hz,
      hdate, hdays]
    congr 1
    have h1 : D * 86400 + ((sodn / 3600 : Nat) : Int) * 3600
        + ((sodn % 3600 / 60 : Nat) : Int) * 60 + ((sodn % 60 : Nat) : Int) - offset = S := by
      omega
    rw [h1, ht]

/-! ## Save and Load with the JSON methods of time.Time -/

/-- The texts of sample instants: a leap day with a fraction in a zone east
of UTC, the day after it, a zone west of UTC, the last nanosecond of the year
9999, and the first instant of the year 10000, which has no text. -/
theorem sample_rfc3339 :
    appendStrictRFC3339 3600 sampleInstant = some "2016-02-29T23:30:00.5+01:00".toList ∧
    appendStrictRFC3339 3600 (sampleInstant + Hour) = some "2016-03-01T00:30:00.5+01:00".toList ∧
    appendStrictRFC3339 (-(5 * 3600 + 30 * 60)) (sampleInstant + 1)
      = some "2016-02-29T17:00:00.500000001-05:30".toList ∧
    appendStrictRFC3339 0 0 = some "0001-01-01T00:00:00Z".toList ∧
    appendStrictRFC3339 0 (3652059 * 86400 * Second - 1)
      = some "9999-12-31T23:59:59.999999999Z".toList ∧
    appendStrictRFC3339 0 (3652059 * 86400 * Second) = none ∧
    appendStrictRFC3339 0 (-(367 * 86400 * Second)) = none := by
  decide

/-- The instants of sample texts. -/
theorem sample_parsed :
    parseRFC3339 "2016-02-29T23:30:00.5+01:00".toList = some sampleInstant ∧
    parseRFC3339 "2016-02-29T22:30:00.500Z".toList = some sampleInstant ∧
    parseRFC3339 "2016-02-29T17:00:00.500000001-05:30".toList = some (sampleInstant + 1) ∧
    parseRFC3339 "2017-02-29T23:30:00Z".toList = none ∧
    parseRFC3339 "2016-02-29 23:30:00Z".toList = none ∧
    parseRFC3339 "2016-02-29T23:30:00".toList = none := by
  decide

/-- In a zone whose offset has seconds the text does not give the instant
back: the offset is written without them. -/
theorem sample_zone_seconds :
    appendStrictRFC3339 30 sampleInstant = some "2016-02-29T22:30:30.5+00:00".toList ∧
    parseRFC3339 "2016-02-29T22:30:30.5+00:00".toList = some (sampleInstant + 30 * Second) := by
  decide

/-- An instant that RFC 3339 writes in full is one the JSON methods of
`time.Time` write and read back. -/
theorem goTimeJSON_writable (zone : Int → Int) (t : Int) (h : inRFC3339 (zone t) t) :
    TimeWritable (goTimeJSON zone) t :=
  parseRFC3339_appendStrictRFC3339 (zone t) t h

/-- The text `Save` returns for the first reminder of `sampleSnapshot`. -/
theorem sample_saved_rfc3339 :
    Save (goTimeJSON sampleZone) ⟨sampleSnapshot.Reminders.take 1⟩ = Except.ok
      ("\x7b\"Reminders\":[\x7b\"StartTime\":\"2016-02-29T23:30:00.5+01:00\","
        ++ "\"Time\":\"2016-03-01T00:30:00.5+01:00\",\"Requester\":\"R\",\"Target\":\"42\","
        ++ "\"Message\":\"walk the dog\",\"IsPrivate\":true\x7d]\x7d").toList := by
  rfl

/-- C17, as stated, fails: at the clock 9999-12-31 23:00 UTC the handler
accepts `remindme tomorrow | walk the dog`, and the plugin holds a reminder
whose `Time` is in the year 10000 (`AddReminder` called with that reminder
leaves the same plugin); `MarshalJSON` of `time.Time` returns an
error for it, so `Save` returns an error and no bytes, and `Load` on a newly
constructed plugin with what `Save` returned leaves the store empty, not equal
to the original. -/
theorem C17_counterexample :
    (messageFunc sampleHost 0 0 sampleLastHour sampleLastHour sampleService
      (sampleMessage "remindme tomorrow | walk the dog".toList) NewReminderPlugin).2
      = ⟨[sampleFar]⟩ ∧
    (AddReminder NewReminderPlugin sampleFar).2 = ⟨[sampleFar]⟩ ∧
    appendStrictRFC3339 0 sampleFar.StartTime = some "9999-12-31T23:00:00Z".toList ∧
    appendStrictRFC3339 0 sampleFar.Time = none ∧
    Save (goTimeJSON (fun _ => 0)) ⟨[sampleFar]⟩ = Except.error JsonError.marshaler ∧
    (Load (goTimeJSON (fun _ => 0)) (savedBytes (Save (goTimeJSON (fun _ => 0)) ⟨[sampleFar]⟩))
      NewReminderPlugin).Reminders = [] ∧
    (Load (goTimeJSON (fun _ => 0)) (savedBytes (Save (goTimeJSON (fun _ => 0)) ⟨[sampleFar]⟩))
      NewReminderPlugin).Reminders ≠ [some sampleFar] := by
  refine ⟨by decide, by decide, by decide, by decide, by rfl, by rfl, ?_⟩
  have e : (Load (goTimeJSON (fun _ => 0))
      (savedBytes (Save (goTimeJSON (fun _ => 0)) ⟨[sampleFar]⟩)) NewReminderPlugin).Reminders
      = [] := by rfl
  rw [e]
  intro h
  cases h

/-- C17, amended: round trip. For every plugin whose reminders have a
`StartTime` and a `Time` that RFC 3339 writes in full in their zone (the year
in the zone is from 0 to 9999, the offset of the zone is a whole number of
minutes and less than 24 hours) and texts that are sequences of code points
(valid UTF-8), `Save` returns a text, and `Load` on a newly constructed plugin
with that text returns no error, logs none, and leaves a `Reminders` list equal
to the original, field for field (the two times as instants, requester,
target, message, private flag) and in the same order. -/
theorem C17_round_trip (zone : Int → Int) (p : ReminderPlugin)
    (hw : ∀ r ∈ p.Reminders,
      inRFC3339 (zone r.StartTime) r.StartTime ∧ inRFC3339 (zone r.Time) r.Time) :
    ∃ data, Save (goTimeJSON zone) p = Except.ok data ∧
      (Load (goTimeJSON zone) (some data) NewReminderPlugin).err = none ∧
      (Load (goTimeJSON zone) (some data) NewReminderPlugin).logged = none ∧
      (Load (goTimeJSON zone) (some data) NewReminderPlugin).Reminders
        = p.Reminders.map some := by
  obtain ⟨data, hs, hl⟩ := Load_Save (goTimeJSON zone) p NewReminderPlugin
    (fun r hr => ⟨goTimeJSON_writable zone _ (hw r hr).1, goTimeJSON_writable zone _ (hw r hr).2⟩)
  exact ⟨data, hs, by rw [hl], by rw [hl], by rw [hl]⟩

theorem sampleSnapshot_inRFC3339 :
    ∀ r ∈ sampleSnapshot.Reminders,
      inRFC3339 (sampleZone r.StartTime) r.StartTime ∧ inRFC3339 (sampleZone r.Time) r.Time := by
  intro r hr
  simp only [sampleSnapshot, List.mem_cons, List.mem_singleton, List.not_mem_nil,
    or_false] at hr
  rcases hr with rfl | rfl
  · exact ⟨by unfold inRFC3339; decide, by unfold inRFC3339; decide⟩
  · exact ⟨by unfold inRFC3339; decide, by unfold inRFC3339; decide⟩

theorem C17_round_trip_witness :
    (∀ r ∈ sampleSnapshot.Reminders,
      inRFC3339 (sampleZone r.StartTime) r.StartTime ∧ inRFC3339 (sampleZone r.Time) r.Time) ∧
    ∃ data, Save (goTimeJSON sampleZone) sampleSnapshot = Except.ok data ∧
      (Load (goTimeJSON sampleZone) (some data) NewReminderPlugin).err = none ∧
      (Load (goTimeJSON sampleZone) (some data) NewReminderPlugin).logged = none ∧
      (Load (goTimeJSON sampleZone) (some data) NewReminderPlugin).Reminders
        = sampleSnapshot.Reminders.map some :=
  ⟨sampleSnapshot_inRFC3339,
   C17_round_trip sampleZone sampleSnapshot sampleSnapshot_inRFC3339⟩

/-- C18, as stated, fails: the text is valid JSON, its decoding fails (a number
where a `bool` is meant), `Load` logs the error and returns none, and the store
holds one entry afterwards. -/
theorem C18_counterexample :
    Load sampleTimeJSON (some sampleMisfit) NewReminderPlugin =
      ⟨none, some JsonError.typeMismatch,
        [some { StartTime := 0, Time := 0, Requester := [], Target := [],
                Message := "x".toList, IsPrivate := false }], true⟩ := by
  decide

/-- C18, amended: `Load` never returns an error, for any input; for an input
that is nil, empty or not valid JSON, `Load` on a newly constructed plugin
leaves the store empty (the decoder refuses such a text before it stores
anything). -/
theorem C18_load_never_fails (tj : TimeJSON) (data : Option GoString) :
    (Load tj data NewReminderPlugin).err = none ∧
    ((data = none ∨ data = some [] ∨ ∃ text, data = some text ∧ parseJson text = none) →
      (Load tj data NewReminderPlugin).Reminders = []) := by
  constructor
  · cases data <;> rfl
  · rintro (h | h | ⟨text, h, hp⟩)
    · subst h; rfl
    · subst h; rfl
    · subst h
      simp only [Load, Unmarshal, hp]
      rfl

/-- A text cut short is not valid JSON: `Load` logs the error and leaves the
store empty. -/
theorem sample_truncated :
    Load sampleTimeJSON (some "\x7b\"Reminders\":[\x7b\"Message\":\"x\"".toList)
      NewReminderPlugin = ⟨none, some JsonError.invalidText, [], true⟩ := by
  decide

end Bruxism

